import Mathlib

/- Verification development for the perl-language-server sources: shallow
embeddings of the workspace analyzer, the persistence layer, the `perl -d`
process driver and the debug-adapter request handlers, together with
theorems that settle the specification's claims about them. -/

namespace PerlLS

/-- JS whitespace class `\s`, restricted to the ASCII characters that can
occur in the strings handled here. -/
def isWS (c : Char) : Bool :=
  c = ' ' || c = '\t' || c = '\n' || c = '\r' || c = '\x0b' || c = '\x0c'

/-- JS word-character class `\w`. -/
def isWordChar (c : Char) : Bool :=
  c.isAlphanum || c = '_'

/-- Numeric value of a digit run, as JS `parseInt(s, 10)` computes it on a
string of decimal digits. -/
def digitsToNat (ds : List Char) : Nat :=
  ds.foldl (fun n c => n * 10 + (Char.toNat c - Char.toNat '0')) 0

/-- Whether `needle` is a prefix of `hay` (character lists). -/
def hasPrefixCh (needle hay : List Char) : Bool :=
  hay.take needle.length == needle

/-- Whether `needle` occurs as a contiguous substring of `hay` (JS
`String.match` with an unanchored literal pattern). -/
def containsSub (hay needle : List Char) : Bool :=
  match hay with
  | [] => needle.isEmpty
  | _ :: rest => hasPrefixCh needle hay || containsSub rest needle

/-- JS `String.prototype.split('\n')` on character lists: cuts at every
newline; the empty string yields one empty piece. -/
def splitOnNl : List Char → List (List Char)
  | [] => [[]]
  | c :: rest =>
    match splitOnNl rest with
    | [] => [[]]
    | h :: t => if c = '\n' then [] :: h :: t else (c :: h) :: t

/-- Fuel-driven worker for `splitOnCh`. -/
def splitOnChAux (sep : List Char) : Nat → List Char → List (List Char)
  | _, [] => [[]]
  | 0, cs => [cs]
  | fuel + 1, c :: rest =>
    if hasPrefixCh sep (c :: rest) && !sep.isEmpty then
      [] :: splitOnChAux sep fuel (rest.drop (sep.length - 1))
    else
      match splitOnChAux sep fuel rest with
      | [] => [[c]]
      | h :: t => (c :: h) :: t

/-- JS `String.prototype.split` with a nonempty separator, on character
lists: scans left to right, cutting at each occurrence of the separator. -/
def splitOnCh (sep cs : List Char) : List (List Char) :=
  splitOnChAux sep cs.length cs

/- ## C7 — PerlProcess.setBreakpoint command framing
(src/server/src/debugger/debugUtil.ts, PerlProcess.setBreakpoint). -/

/-- PerlProcess.setBreakpoint builds its debugger command with the JS template
literal `b ${file}:${line} ${condition}\n`; when no condition is supplied the
`undefined` value interpolates as the literal string "undefined". -/
def setBreakpointCmd (file : String) (line : Nat) (condition : Option String) : String :=
  "b " ++ file ++ ":" ++ toString line ++ " " ++
    (match condition with
     | some c => c
     | none => "undefined") ++ "\n"

/-- C7: setBreakpoint command framing. Evaluating the embedded command builder
at the failing input (a call with no condition): the text written to the
debugger's stdin is `b a.pl:10 undefined` plus newline, carrying an extra
"undefined" token, and is not the claimed `b a.pl:10` plus newline. -/
theorem setBreakpointCmd_no_condition_appends_undefined :
    setBreakpointCmd "a.pl" 10 none = "b a.pl:10 undefined\n" ∧
    setBreakpointCmd "a.pl" 10 none ≠ "b a.pl:10\n" := by
  refine ⟨rfl, ?_⟩
  decide

/- ## C6 — array prettify length
(src/unnamed/part_003 getListLengthFromValue, src/unnamed/part_006
PerlDebugSession.prettifyVariables). -/

/-- One line of an array dump matched against the per-line pattern
`^\s{3}(\d+)\b`: exactly three leading whitespace characters, then a digit
run ending at a word boundary; returns the captured index. -/
def topIndexOfLine (line : List Char) : Option Nat :=
  match line with
  | a :: b :: c :: rest =>
    if isWS a && isWS b && isWS c then
      let ds := rest.takeWhile Char.isDigit
      if ds.isEmpty then none
      else
        match rest.drop ds.length with
        | [] => some (digitsToNat ds)
        | d :: _ => if isWordChar d then none else some (digitsToNat ds)
    else none
  | _ => none

/-- Variable.getListLengthFromValue: runs `^\s{3}(\d+)\b` in multiline mode
over the dump, keeps the last matched index in `lastIndex` (initialised to 0),
and returns `lastIndex ? lastIndex + 1 : 0`. -/
def getListLengthFromValue (arrayStr : String) : Nat :=
  let lines := splitOnNl arrayStr.data
  let lastIndex := lines.foldl
    (fun acc l =>
      match topIndexOfLine l with
      | some i => i
      | none => acc) 0
  if lastIndex = 0 then 0 else lastIndex + 1

/-- NestedVariableType (src/unnamed/part_003). -/
inductive NestedVariableType where
  | array
  | hash
  | scalar
deriving DecidableEq, Repr

/-- NestedVariable (src/unnamed/part_003): a container value together with the
raw dump payload it expands from. -/
structure NestedVariable where
  type : NestedVariableType
  content : String
deriving DecidableEq, Repr

/-- Value a minted variable handle resolves to: one of the two scope tags or a
nested variable (the `Handles` container of PerlDebugSession). -/
inductive HandleValue where
  | locals
  | globals
  | nested (v : NestedVariable)
deriving DecidableEq, Repr

/-- State of the vscode `Handles` container: the next id to mint (the
container starts at 1000) and the minted entries in order. -/
structure HandleState where
  next : Nat
  entries : List (Nat × HandleValue)
deriving DecidableEq, Repr

/-- Fresh `Handles` container. -/
def HandleState.start : HandleState :=
  { next := 1000, entries := [] }

/-- Handles.create: mints the next id for a value. -/
def handlesCreate (st : HandleState) (v : HandleValue) : Nat × HandleState :=
  (st.next, { next := st.next + 1, entries := st.entries ++ [(st.next, v)] })

/-- Handles.get: resolves an id, `none` when the id was never minted. -/
def handlesGet (st : HandleState) (ref : Nat) : Option HandleValue :=
  (st.entries.find? (fun e => e.1 == ref)).map (fun e => e.2)

/-- Lower-case hexadecimal digit class `[0-9a-f]`. -/
def isHexLower (c : Char) : Bool :=
  c.isDigit || ('a' ≤ c && c ≤ 'f')

/-- Match of `TAG\((0x[0-9a-f]+)\)` at the head of the character list: the
tag, an opening parenthesis, `0x`, a nonempty lower-case hex run, and a
closing parenthesis. -/
def matchesAddrCore (tag : List Char) (cs : List Char) : Bool :=
  if cs.take tag.length == tag then
    match cs.drop tag.length with
    | '(' :: '0' :: 'x' :: rest =>
      let h := rest.takeWhile isHexLower
      !h.isEmpty &&
        (match rest.drop h.length with
         | ')' :: _ => true
         | _ => false)
    | _ => false
  else false

/-- Test of `^(\w+=)?HASH\((0x[0-9a-f]+)\)`: the HASH core matches at the
start, either directly or after a nonempty word run and an equals sign (the
optional group; word characters exclude `=`, so the split is unique). -/
def matchesHashValue (cs : List Char) : Bool :=
  matchesAddrCore "HASH".data cs ||
    (let w := cs.takeWhile isWordChar
     !w.isEmpty &&
       (match cs.drop w.length with
        | '=' :: rest => matchesAddrCore "HASH".data rest
        | _ => false))

/-- PerlDebugSession._getVariableReferenceFromValue: classifies a value string
by the HASH / ARRAY / SCALAR address patterns or the caller-provided context
and mints a nested handle for containers; plain leaves get reference 0. -/
def getVariableReferenceFromValue (st : HandleState) (variableValue : String)
    (context : Option NestedVariableType) : Nat × HandleState :=
  if matchesHashValue variableValue.data then
    handlesCreate st (HandleValue.nested ⟨NestedVariableType.hash, variableValue⟩)
  else if matchesAddrCore "ARRAY".data variableValue.data then
    handlesCreate st (HandleValue.nested ⟨NestedVariableType.array, variableValue⟩)
  else if matchesAddrCore "SCALAR".data variableValue.data then
    handlesCreate st (HandleValue.nested ⟨NestedVariableType.scalar, variableValue⟩)
  else if context = some NestedVariableType.array then
    handlesCreate st (HandleValue.nested ⟨NestedVariableType.array, variableValue⟩)
  else if context = some NestedVariableType.hash then
    handlesCreate st (HandleValue.nested ⟨NestedVariableType.hash, variableValue⟩)
  else (0, st)

/-- A DAP variable record as PerlDebugSession builds it. -/
structure DAPVariable where
  name : String
  value : String
  evaluateName : Option String
  variablesReference : Nat
deriving DecidableEq, Repr

/-- PerlDebugSession.prettifyVariables: splits a variable entry on the first
occurrences of " = " (JS `split(' = ')[0]` and `[1]`), then renders by the
sigil of the name; array values are prefixed with the bracketed length. -/
def prettifyVariables (st : HandleState) (varEntry : String) : DAPVariable × HandleState :=
  let parts := splitOnCh " = ".data varEntry.data
  let variableName : String := ⟨(parts.get? 0).getD []⟩
  let variableValue : String := ⟨(parts.get? 1).getD []⟩
  if hasPrefixCh "$".data variableName.data then
    if hasPrefixCh "HASH(0x".data variableValue.data
        || hasPrefixCh "ARRAY(0x".data variableValue.data then
      let r := getVariableReferenceFromValue st variableValue none
      ({ name := variableName, value := variableValue,
         evaluateName := some variableName, variablesReference := r.1 }, r.2)
    else if containsSub variableValue.data "=HASH".data then
      let r := getVariableReferenceFromValue st variableValue none
      ({ name := variableName, value := "Obj " ++ variableValue,
         evaluateName := some variableName, variablesReference := r.1 }, r.2)
    else
      ({ name := variableName, value := variableValue,
         evaluateName := none, variablesReference := 0 }, st)
  else if hasPrefixCh "@".data variableName.data then
    let r := getVariableReferenceFromValue st variableValue (some NestedVariableType.array)
    ({ name := variableName,
       value := "[" ++ toString (getListLengthFromValue variableValue) ++ "] " ++ variableValue,
       evaluateName := some variableName, variablesReference := r.1 }, r.2)
  else if hasPrefixCh "%".data variableName.data then
    let r := getVariableReferenceFromValue st variableValue (some NestedVariableType.hash)
    ({ name := variableName, value := variableValue,
       evaluateName := some variableName, variablesReference := r.1 }, r.2)
  else
    ({ name := variableName, value := variableValue,
       evaluateName := none, variablesReference := 0 }, st)

/- ## C5 — debugger stack-trace parser
(src/unnamed/part_004 parsePerlStackTrace). -/

/-- Strip of the tolerated comment marker: the replace of `^\s*\/\/\s?` by the
empty string (leading whitespace, two slashes, and at most one further
whitespace character); a line without the marker is unchanged. -/
def stripComment (cs : List Char) : List Char :=
  let ws := cs.takeWhile isWS
  match cs.drop ws.length with
  | '/' :: '/' :: r =>
    match r with
    | c :: r2 => if isWS c then r2 else c :: r2
    | [] => []
  | _ => cs

/-- Test of `^(\s*\/\/\s*)?\s*[@\$\.]\s*=`: after optional leading whitespace,
an optional `//` with whitespace after it, one of the three context sigils,
optional whitespace, and an equals sign. The whitespace, slash and sigil
character classes are disjoint, so the regex's optional group commits
deterministically. -/
def isStartPattern1 (cs : List Char) : Bool :=
  let u := cs.dropWhile isWS
  let v :=
    match u with
    | '/' :: '/' :: r => r.dropWhile isWS
    | _ => u
  match v with
  | c :: rest =>
    (c == '@' || c == '$' || c == '.') &&
      (match rest.dropWhile isWS with
       | '=' :: _ => true
       | _ => false)
  | [] => false

/-- The parser's `isStartOfFrame` predicate: the full start pattern, or, when
the accumulator is nonempty, a line starting with whitespace (`^\s+`). -/
def isStartOfFrame (acc s : List Char) : Bool :=
  isStartPattern1 s ||
    (!acc.isEmpty &&
      (match s with
       | c :: _ => isWS c
       | [] => false))

/-- Consume an exact literal at the head, returning the rest. -/
def dropLit (lit cs : List Char) : Option (List Char) :=
  if cs.take lit.length == lit then some (cs.drop lit.length) else none

/-- Consume `\s+`: at least one whitespace character, greedily (the regexes
here always follow `\s+` with a non-whitespace literal, so the maximal run is
the only viable candidate). -/
def dropWsPlus (cs : List Char) : Option (List Char) :=
  match cs with
  | c :: _ => if isWS c then some (cs.dropWhile isWS) else none
  | [] => none

/-- Tail of the end-of-frame pattern after the closing quote:
`\s+line\s+\d+`. -/
def lineNumTail (cs : List Char) : Bool :=
  ((dropWsPlus cs).bind (fun c1 =>
    (dropLit "line".data c1).bind (fun c2 =>
      (dropWsPlus c2).bind (fun c3 =>
        (match c3 with
         | c :: _ => if c.isDigit then some () else none
         | [] => none : Option Unit))))).isSome

/-- Backtracking closing-quote search for the lazy group `'(.+?)'` followed by
`lineNumTail`: tries each candidate closing quote left to right; the group may
extend over quote characters but never over a newline. -/
def lazyCloseQuote : List Char → Bool
  | [] => false
  | c :: rest =>
    (c == '\'' && lineNumTail rest) || (!(c == '\n') && lazyCloseQuote rest)

/-- Match of `called\s+from\s+file\s+'(.+?)'\s+line\s+\d+` at the head of the
list. -/
def matchEndAt (cs : List Char) : Bool :=
  ((dropLit "called".data cs).bind (fun c1 =>
    (dropWsPlus c1).bind (fun c2 =>
      (dropLit "from".data c2).bind (fun c3 =>
        (dropWsPlus c3).bind (fun c4 =>
          (dropLit "file".data c4).bind (fun c5 =>
            (dropWsPlus c5).bind (fun c6 =>
              (dropLit "'".data c6).bind (fun c7 =>
                (match c7 with
                 | c :: rest =>
                   if c == '\n' then none
                   else if lazyCloseQuote rest then some () else none
                 | [] => none : Option Unit))))))))).isSome

/-- The parser's unanchored `hasEndOfFrame` test: the end pattern matches at
some position of the accumulated logical line. -/
def hasEndOfFrame : List Char → Bool
  | [] => false
  | c :: rest => matchEndAt (c :: rest) || hasEndOfFrame rest

/-- JS `String.prototype.trimEnd`. -/
def trimEndCh (cs : List Char) : List Char :=
  (cs.reverse.dropWhile isWS).reverse

/-- JS `String.prototype.trim`. -/
def trimCh (cs : List Char) : List Char :=
  ((cs.dropWhile isWS).reverse.dropWhile isWS).reverse

/-- JS `replace(/\s+/g, ' ')`: every maximal whitespace run becomes a single
space; the flag records whether the previous character was whitespace. -/
def collapseWsAux : Bool → List Char → List Char
  | _, [] => []
  | prev, c :: rest =>
    if isWS c then
      if prev then collapseWsAux true rest
      else ' ' :: collapseWsAux true rest
    else c :: collapseWsAux false rest

/-- Normalisation applied to a completed logical line:
`acc.replace(/\s+/g, ' ').trim()`. -/
def normalizeLogical (cs : List Char) : List Char :=
  trimCh (collapseWsAux false cs)

/-- Reassembly loop of the parser: builds logical lines from the raw lines,
starting a frame at a line matching the start pattern and closing it once the
accumulated text contains the end pattern; a trailing unfinished accumulator
is discarded. -/
def buildLogicalGo : List (List Char) → List Char → List (List Char) → List (List Char)
  | [], _, out => out
  | raw :: rest, acc, out =>
    let stripped := stripComment raw
    if acc.isEmpty then
      if !isStartOfFrame acc stripped then
        buildLogicalGo rest acc out
      else
        let acc2 := trimEndCh stripped ++ [' ']
        if hasEndOfFrame acc2 then buildLogicalGo rest [] (out ++ [normalizeLogical acc2])
        else buildLogicalGo rest acc2 out
    else
      let acc2 := acc ++ trimEndCh stripped ++ [' ']
      if hasEndOfFrame acc2 then buildLogicalGo rest [] (out ++ [normalizeLogical acc2])
      else buildLogicalGo rest acc2 out

/-- Logical lines of a trace, from its raw lines. -/
def buildLogicalLines (lines : List (List Char)) : List (List Char) :=
  buildLogicalGo lines [] []

/-- Lazy group matcher for `(.+?)` followed by a tail pattern: consumes at
least one non-newline character, extending one character at a time until the
tail matches; returns the captured group and the tail's result. -/
def lazyGroup {β : Type} (tail : List Char → Option β) : List Char → Option (List Char × β)
  | [] => none
  | c :: rest =>
    if c == '\n' then none
    else
      match tail rest with
      | some r => some ([c], r)
      | none =>
        match lazyGroup tail rest with
        | some p => some (c :: p.1, p.2)
        | none => none

/-- Tail after the path group of the frame regex: the closing quote,
`\s+line\s+`, and the captured digit run `(\d+)`. -/
def pathTail (cs : List Char) : Option (List Char) :=
  (dropLit "'".data cs).bind (fun c1 =>
    (dropWsPlus c1).bind (fun c2 =>
      (dropLit "line".data c2).bind (fun c3 =>
        (dropWsPlus c3).bind (fun c4 =>
          let ds := c4.takeWhile Char.isDigit
          if ds.isEmpty then none else some ds))))

/-- Tail after the callee group of the frame regex:
`\s+called\s+from\s+file\s+'` and then the path group with its own tail;
returns the captured path and digit run. -/
def calleeTail (cs : List Char) : Option (List Char × List Char) :=
  (dropWsPlus cs).bind (fun c1 =>
    (dropLit "called".data c1).bind (fun c2 =>
      (dropWsPlus c2).bind (fun c3 =>
        (dropLit "from".data c3).bind (fun c4 =>
          (dropWsPlus c4).bind (fun c5 =>
            (dropLit "file".data c5).bind (fun c6 =>
              (dropWsPlus c6).bind (fun c7 =>
                (dropLit "'".data c7).bind (fun c8 =>
                  lazyGroup pathTail c8))))))))

/-- Backtracking worker for `\s*` before a lazy group: tries dropping `k`
whitespace characters, largest first. -/
def tryDropsDown {β : Type} (f : List Char → Option β) : Nat → List Char → Option β
  | 0, cs => f cs
  | k + 1, cs =>
    match f (cs.drop (k + 1)) with
    | some r => some r
    | none => tryDropsDown f k cs

/-- Greedy-first `\s*` before a lazy group: the maximal whitespace run is
tried first, then shorter runs. -/
def tryWsStarThen {β : Type} (f : List Char → Option β) (cs : List Char) : Option β :=
  tryDropsDown f (cs.takeWhile isWS).length cs

/-- Frame regex after the sigil and `\s*`: the equals sign, then (with
greedy-first backtracking of the second `\s*`) the lazy callee group and its
tail. -/
def matchFrameAfterSigil (c : Char) (u : List Char) :
    Option (Char × List Char × List Char × List Char) :=
  match u with
  | '=' :: rest2 =>
    match tryWsStarThen (lazyGroup calleeTail) rest2 with
    | some p => some (c, p.1, p.2.1, p.2.2)
    | none => none
  | _ => none

/-- Match of the full frame regex
`^([@\$\.])\s*=\s*(.+?)\s+called\s+from\s+file\s+'(.+?)'\s+line\s+(\d+)`,
returning the captured sigil, callee, path and digit run. -/
def matchFrameRegex (cs : List Char) : Option (Char × List Char × List Char × List Char) :=
  match cs with
  | c :: rest =>
    if c == '@' || c == '$' || c == '.' then
      matchFrameAfterSigil c (rest.dropWhile isWS)
    else none
  | [] => none

/-- PerlStackFrame (src/unnamed/part_004). -/
structure PerlStackFrame where
  context : String
  caller : String
  fullPath : String
  line : Nat
  callee : String
deriving DecidableEq, Repr

/-- Context of a sigil, as the parser's switch maps it. -/
def contextOfSigil (c : Char) : String :=
  if c = '@' then "array"
  else if c = '$' then "scalar"
  else if c = '.' then "void"
  else "unknown"

/-- JS `fullPath.split('/').pop() || fullPath`. -/
def basenameOr (path : List Char) : String :=
  match (splitOnCh ['/'] path).getLast? with
  | some last => if last.isEmpty then ⟨path⟩ else ⟨last⟩
  | none => ⟨path⟩

/-- Body of the per-logical-line fold of parsePerlStackTrace: a line the frame
regex matches appends one PerlStackFrame built from the captures, any other
line is skipped. -/
def parseFrameStep (frames : List PerlStackFrame) (l : List Char) :
    List PerlStackFrame :=
  match matchFrameRegex l with
  | some (sigil, callee, path, ds) =>
    frames ++ [{ context := contextOfSigil sigil,
                 caller := basenameOr path,
                 fullPath := ⟨path⟩,
                 line := digitsToNat ds,
                 callee := ⟨callee⟩ }]
  | none => frames

/-- parsePerlStackTrace (src/unnamed/part_004): splits the trace into lines,
reassembles logical frames, and extracts a frame from every logical line the
frame regex matches. -/
def parsePerlStackTrace (trace : String) : List PerlStackFrame :=
  let lines := splitOnNl trace.data
  let logicalLines := buildLogicalLines lines
  logicalLines.foldl parseFrameStep []

/-- Dump produced by the debugger for a one-element array: the only top-level
index line is index 0. -/
def oneElemDump : String :=
  "(\n   0  'a'\n)"

/-- C6: array prettify length. Evaluating the embedded code at the failing
input, a one-element array entry whose dump's only top-level index is 0: the
`lastIndex ? lastIndex + 1 : 0` return treats the matched index 0 as falsy,
so the length is computed as 0 and the client sees `[0] …` where the claim
requires `[1] …` (max top-level index plus one). -/
theorem prettifyVariables_one_element_array_renders_len_zero :
    getListLengthFromValue oneElemDump = 0 ∧
    (prettifyVariables HandleState.start ("@xs = " ++ oneElemDump)).1.value
      = "[0] " ++ oneElemDump ∧
    ("[0] " ++ oneElemDump : String) ≠ "[1] " ++ oneElemDump := by
  refine ⟨by decide, by decide, by decide⟩

/- ## C10 — variables request and the dump parsers it dispatches to
(src/unnamed/part_006 variablesRequest, src/unnamed/part_003
extractVariables / getValuesFromArrayContext / getKeyValuesFromHashContext). -/

/-- Join of lines with newlines (left inverse of `splitOnNl` on newline-free
lines). -/
def joinNl : List (List Char) → List Char
  | [] => []
  | [l] => l
  | l :: rest => l ++ '\n' :: joinNl rest

/-- Match of `\n\s*DB<\d+>.*$` at the head of the list: a newline, optional
whitespace (which may cross further newlines), `DB<`, a digit run, `>`, and a
remainder containing no newline (so that `.*` reaches the end anchor). -/
def dbTailAt (cs : List Char) : Bool :=
  match cs with
  | '\n' :: rest =>
    (do
      let c1 ← dropLit "DB<".data (rest.dropWhile isWS)
      let ds := c1.takeWhile Char.isDigit
      if ds.isEmpty then none
      else
        match c1.drop ds.length with
        | '>' :: r => if r.contains '\n' then none else some ()
        | _ => none : Option Unit).isSome
  | _ => false

/-- The replace of `\n\s*DB<\d+>.*$` by the empty string: everything from the
leftmost match position (which necessarily extends to the end) is removed. -/
def removeDbTail : List Char → List Char
  | [] => []
  | c :: rest => if dbTailAt (c :: rest) then [] else c :: removeDbTail rest

/-- Whether a line begins a variable entry: first character `$`, `%` or `@`. -/
def isSigilLine (l : List Char) : Bool :=
  match l with
  | c :: _ => c == '$' || c == '%' || c == '@'
  | [] => false

/-- Grouping worker for `extractVariables`: a variable entry is a sigil line
plus the following non-sigil lines; lines before the first sigil line are
dropped. -/
def groupVarBlocksAux : List (List Char) → Option (List (List Char)) → List (List (List Char))
  | [], none => []
  | [], some b => [b.reverse]
  | l :: rest, none =>
    if isSigilLine l then groupVarBlocksAux rest (some [l])
    else groupVarBlocksAux rest none
  | l :: rest, some b =>
    if isSigilLine l then b.reverse :: groupVarBlocksAux rest (some [l])
    else groupVarBlocksAux rest (some (l :: b))

/-- Variable.extractVariables: splits the `y`/`V` reply into entries matched
by `(?:^|\n)([$%@][^\n]*(?:\n(?![$%@])[^\n]*)*)`, each with a trailing
`DB<N>` prompt removed. -/
def extractVariables (variablesReply : String) : List String :=
  (groupVarBlocksAux (splitOnNl variablesReply.data) none).map
    (fun b => ⟨removeDbTail (joinNl b)⟩)

/-- Skip test of the array-context parser: lines starting with `(` or
`ARRAY`; the source's third test `line.match(/$\w+=ARRAY/)` anchors `$` at
the end of input before requiring further characters and so never matches. -/
def arraySkipLine (l : List Char) : Bool :=
  hasPrefixCh "(".data l || hasPrefixCh "ARRAY".data l || false

/-- Match of `^ {indent}(\d+)\b(.*)$` against a (newline-free) line: exactly
`indent` spaces, a digit run ending at a word boundary, and the rest. -/
def indexLineMatch (indent : Nat) (l : List Char) : Option (List Char × List Char) :=
  if l.take indent = List.replicate indent ' ' then
    let rest := l.drop indent
    let ds := rest.takeWhile Char.isDigit
    if ds.isEmpty then none
    else
      match rest.drop ds.length with
      | [] => some (ds, [])
      | d :: r => if isWordChar d then none else some (ds, d :: r)
  else none

/-- Fold state of the array-context parser. -/
structure ArrayCtxState where
  indent : Option Nat
  currentIndex : Option (List Char)
  currentValueLines : List (List Char)
  result : List (List Char)

/-- Variable.getValuesFromArrayContext: splits the dump into lines, fixes the
top-level indentation at the first non-skipped line, and collects one value
per top-level index line, folding continuation lines into the current value. -/
def getValuesFromArrayContext (arrayContextStr : String) : List String :=
  let lines := splitOnNl arrayContextStr.data
  let final := lines.foldl
    (fun (st : ArrayCtxState) line =>
      if arraySkipLine line then st
      else
        let st :=
          if st.indent.isNone then
            { st with indent := some (line.takeWhile isWS).length }
          else st
        match indexLineMatch (st.indent.getD 0) line with
        | some p =>
          { st with
            result :=
              match st.currentIndex with
              | some _ => st.result ++ [joinNl st.currentValueLines]
              | none => st.result,
            currentIndex := some p.1,
            currentValueLines := [trimCh p.2] }
        | none =>
          match st.currentIndex with
          | some _ => { st with currentValueLines := st.currentValueLines ++ [line] }
          | none => st)
    { indent := none, currentIndex := none, currentValueLines := [], result := [] }
  (match final.currentIndex with
   | some _ => final.result ++ [joinNl final.currentValueLines]
   | none => final.result).map (fun l => ⟨l⟩)

/-- Quote character class `['"]` of the hash-key pattern. -/
def isQuoteCh (c : Char) : Bool :=
  c == '\'' || c == '"'

/-- The `\s*(.+)$` tail after `=>`: greedy whitespace, then at least one
character reaching the end of the (newline-free) line; when everything after
the arrow is whitespace the group backtracks to keep the last character. -/
def arrowValue (cs : List Char) : Option (List Char) :=
  let w := cs.takeWhile isWS
  let r := cs.drop w.length
  if !r.isEmpty then some r
  else
    match cs.getLast? with
    | some c => some [c]
    | none => none

/-- The `['"]?\s*=>\s*(.+)$` remainder after the key group: an optional
closing quote (greedy), whitespace, the arrow, and the value group. -/
def afterKeyMatch (cs : List Char) : Option (List Char) :=
  let tryRest := fun (ts : List Char) =>
    match dropLit "=>".data (ts.dropWhile isWS) with
    | some v => arrowValue v
    | none => none
  match cs with
  | c :: rest =>
    if isQuoteCh c then
      match tryRest rest with
      | some v => some v
      | none => tryRest cs
    else tryRest cs
  | [] => tryRest []

/-- Greedy backtracking for the nonempty non-quote key group `([^'"]+)`:
tries the longest prefix of length `k` first. -/
def keyMatchDown (cs : List Char) : Nat → Option (List Char × List Char)
  | 0 => none
  | k + 1 =>
    match afterKeyMatch (cs.drop (k + 1)) with
    | some v => some (cs.take (k + 1), v)
    | none => keyMatchDown cs k

/-- Match of `^ {indent}['"]?([^'"]+)['"]?\s*=>\s*(.+)$` against a line:
exactly `indent` spaces, an optional opening quote (greedy), the key group
and the remainder; returns key and value groups. -/
def hashKeyLineMatch (indent : Nat) (l : List Char) : Option (List Char × List Char) :=
  if l.take indent = List.replicate indent ' ' then
    let cs := l.drop indent
    let tryFrom := fun (ts : List Char) =>
      keyMatchDown ts (ts.takeWhile (fun c => !isQuoteCh c)).length
    match cs with
    | c :: rest =>
      if isQuoteCh c then
        match tryFrom rest with
        | some r => some r
        | none => tryFrom cs
      else tryFrom cs
    | [] => none
  else none

/-- Unanchored test of `\w+=HASH`: some word character immediately followed
by `=HASH`. -/
def wordEqHashAt : List Char → Bool
  | [] => false
  | c :: rest => (isWordChar c && hasPrefixCh "=HASH".data rest) || wordEqHashAt rest

/-- Skip test of the hash-context parser: lines starting with `HASH`, lines
matching `\w+=HASH` anywhere, and lines starting with `(` or `)`. -/
def hashSkipLine (l : List Char) : Bool :=
  hasPrefixCh "HASH".data l || wordEqHashAt l
    || hasPrefixCh "(".data l || hasPrefixCh ")".data l

/-- Map.set on an ordered association list: an existing key keeps its
position, a new key is appended. -/
def setEntry (entries : List (List Char × List Char)) (k v : List Char) :
    List (List Char × List Char) :=
  if entries.any (fun (e : List Char × List Char) => e.1 == k) then
    entries.map (fun (e : List Char × List Char) => if e.1 == k then (k, v) else e)
  else entries ++ [(k, v)]

/-- Fold state of the hash-context parser. -/
structure HashCtxState where
  indent : Option Nat
  currentKey : Option (List Char)
  currentValueLines : List (List Char)
  entries : List (List Char × List Char)

/-- Variable.getKeyValuesFromHashContext: like the array parser but keyed by
`key => value` lines at the top-level indentation; returns the entries in
insertion order (Object.fromEntries of the Map). -/
def getKeyValuesFromHashContext (hashContextStr : String) : List (String × String) :=
  let lines := splitOnNl hashContextStr.data
  let final := lines.foldl
    (fun (st : HashCtxState) line =>
      if hashSkipLine line then st
      else
        let st :=
          if st.indent.isNone then
            { st with indent := some (line.takeWhile isWS).length }
          else st
        match hashKeyLineMatch (st.indent.getD 0) line with
        | some p =>
          { st with
            entries :=
              match st.currentKey with
              | some k => setEntry st.entries k (joinNl st.currentValueLines)
              | none => st.entries,
            currentKey := some p.1,
            currentValueLines := [trimCh p.2] }
        | none =>
          match st.currentKey with
          | some _ => { st with currentValueLines := st.currentValueLines ++ [line] }
          | none => st)
    { indent := none, currentKey := none, currentValueLines := [], entries := [] }
  (match final.currentKey with
   | some k => setEntry final.entries k (joinNl final.currentValueLines)
   | none => final.entries).map
    (fun (e : List Char × List Char) => (⟨e.1⟩, ⟨e.2⟩))

/-- The replace of `^SCALAR\((0x[0-9a-f]+)\)` by the empty string. -/
def stripScalarHead (cs : List Char) : List Char :=
  match dropLit "SCALAR(0x".data cs with
  | some r =>
    let h := r.takeWhile isHexLower
    if h.isEmpty then cs
    else
      match r.drop h.length with
      | ')' :: rest => rest
      | _ => cs
  | none => cs

/-- JS `replace('->', '')`: the first occurrence of the literal is removed. -/
def removeFirstArrow : List Char → List Char
  | [] => []
  | c :: rest =>
    if hasPrefixCh "->".data (c :: rest) then rest.drop 1
    else c :: removeFirstArrow rest

/-- JS `String.prototype.trimStart`. -/
def trimStartCh (cs : List Char) : List Char :=
  cs.dropWhile isWS

/-- PerlDebugSession.variablesRequest: resolves the variables reference
through the Handles container and builds the response body; `localsReply` and
`globalsReply` stand for the `y` / `V` replies (undefined when no Perl
process is attached). Returns the variable list of the response body, the
updated handle state, and the number of responses sent (the handler ends with
one unconditional sendResponse). -/
def variablesRequest (st : HandleState) (ref : Nat)
    (localsReply globalsReply : Option String) :
    List DAPVariable × HandleState × Nat :=
  match handlesGet st ref with
  | some (HandleValue.nested nv) =>
    match nv.type with
    | NestedVariableType.array =>
      let vals := getValuesFromArrayContext nv.content
      let r := vals.foldl
        (fun (acc : List DAPVariable × HandleState × Nat) v =>
          let rr := getVariableReferenceFromValue acc.2.1 v none
          (acc.1 ++ [{ name := toString acc.2.2, value := v,
                       evaluateName := none, variablesReference := rr.1 }],
           rr.2, acc.2.2 + 1))
        ([], st, 0)
      (r.1, r.2.1, 1)
    | NestedVariableType.hash =>
      let kvs := getKeyValuesFromHashContext nv.content
      let r := kvs.foldl
        (fun (acc : List DAPVariable × HandleState) kv =>
          let rr := getVariableReferenceFromValue acc.2 kv.2 none
          (acc.1 ++ [{ name := kv.1, value := kv.2,
                       evaluateName := none, variablesReference := rr.1 }], rr.2))
        ([], st)
      (r.1, r.2, 1)
    | NestedVariableType.scalar =>
      let scalarValue : String :=
        ⟨trimStartCh (removeFirstArrow (stripScalarHead nv.content.data))⟩
      let rr := getVariableReferenceFromValue st scalarValue none
      ([{ name := nv.content, value := scalarValue,
          evaluateName := none, variablesReference := rr.1 }], rr.2, 1)
  | some HandleValue.locals =>
    match localsReply with
    | some reply =>
      if reply = "" then ([], st, 1)
      else
        let r := (extractVariables reply).foldl
          (fun (acc : List DAPVariable × HandleState) v =>
            let pv := prettifyVariables acc.2 v
            (acc.1 ++ [pv.1], pv.2))
          ([], st)
        (r.1, r.2, 1)
    | none => ([], st, 1)
  | some HandleValue.globals =>
    match globalsReply with
    | some reply =>
      if reply = "" then ([], st, 1)
      else
        let r := (extractVariables reply).foldl
          (fun (acc : List DAPVariable × HandleState) v =>
            let pv := prettifyVariables acc.2 v
            (acc.1 ++ [pv.1], pv.2))
          ([], st)
        (r.1, r.2, 1)
    | none => ([], st, 1)
  | none => ([], st, 1)

/-- C10: unknown-handle dereference. For every handle state and every
variables reference that resolves to no minted handle (an arbitrary or stale
integer), the handler answers normally: the response body carries an empty
variable list, exactly one response is sent, and the handle state is
unchanged — no error is raised. -/
theorem variablesRequest_unknown_handle_empty (st : HandleState) (ref : Nat)
    (lr gr : Option String) (h : handlesGet st ref = none) :
    variablesRequest st ref lr gr = ([], st, 1) := by
  unfold variablesRequest
  rw [h]

/-- C10 witness: the fresh handle container has minted nothing, so reference
42 resolves to no handle and the request yields the empty list and one
response. -/
theorem variablesRequest_unknown_handle_empty_witness :
    handlesGet HandleState.start 42 = none ∧
    variablesRequest HandleState.start 42 none none = ([], HandleState.start, 1) :=
  ⟨by decide,
   variablesRequest_unknown_handle_empty HandleState.start 42 none none (by decide)⟩

/- ## C8 — stop-on-entry heuristic
(src/unnamed/part_006 stackTraceRequest / lineNotInBreakpoints). -/

/-- PerlDebugSession.lineNotInBreakpoints:
`this.breakpoints.get(filePath)?.every(bp => bp.line != line) || false`; when
the file has no recorded list the optional chain yields undefined and the
function returns false. -/
def lineNotInBreakpoints (bps : List (String × List Nat)) (filePath : String)
    (line : Nat) : Bool :=
  match bps.find? (fun e => e.1 == filePath) with
  | some e => e.2.all (fun l => l != line)
  | none => false

/-- One stackTrace request's stop-on-entry tail: when the flag is unset and
`lineNotInBreakpoints` holds at the top frame, the flag is set and a
`continue()` is issued; returns the new flag and whether a continue was
issued. -/
def stopOnEntryStep (hasPassed : Bool) (topLine : Nat) (topPath : String)
    (bps : List (String × List Nat)) : Bool × Bool :=
  if !hasPassed && lineNotInBreakpoints bps topPath topLine then (true, true)
  else (hasPassed, false)

/-- Inputs of one stackTrace request relevant to stop-on-entry: the top
frame's line and file and the breakpoints table at the time of the request. -/
structure StackTraceReq where
  topLine : Nat
  topPath : String
  bps : List (String × List Nat)

/-- Continue flags over a sequence of stackTrace requests, threading the
stop-on-entry flag. -/
def runStopOnEntry (hasPassed : Bool) : List StackTraceReq → List Bool
  | [] => []
  | r :: rest =>
    let s := stopOnEntryStep hasPassed r.topLine r.topPath r.bps
    s.2 :: runStopOnEntry s.1 rest

/-- C8 counterexample: launch with `stopOnEntry = false` and a breakpoints
table in which the stopped file has no recorded entry (no breakpoints were
ever set for it): the top line is recorded nowhere, yet the first stackTrace
request issues no `continue()`, contrary to the claim — for a missing entry
`lineNotInBreakpoints` returns false and the heuristic does not fire. -/
theorem stopOnEntry_no_entry_never_continues :
    lineNotInBreakpoints [] "/w/a.pl" 5 = false ∧
    stopOnEntryStep false 5 "/w/a.pl" [] = (false, false) ∧
    runStopOnEntry false [⟨5, "/w/a.pl", []⟩] = [false] := by
  decide

/-- Once the stop-on-entry flag is set, no later stackTrace request issues a
continue. -/
theorem runStopOnEntry_of_passed (reqs : List StackTraceReq) :
    runStopOnEntry true reqs = List.replicate reqs.length false := by
  induction reqs with
  | nil => rfl
  | cons r rest ih =>
    simp [runStopOnEntry, stopOnEntryStep, ih, List.replicate_succ]

/-- C8 (amended): the silent continue fires only when the breakpoints table
has a recorded list for the top frame's file and none of that list's lines
equals the top frame's line — a file with no recorded list never triggers it
— and it fires at most once: the first firing sets the flag, after which
every later stackTrace request issues no continue. -/
theorem stopOnEntry_amended (reqs : List StackTraceReq) :
    runStopOnEntry true reqs = List.replicate reqs.length false ∧
    (runStopOnEntry false reqs).count true ≤ 1 ∧
    (∀ r rest, reqs = r :: rest →
      lineNotInBreakpoints r.bps r.topPath r.topLine = true →
      runStopOnEntry false reqs = true :: List.replicate rest.length false) ∧
    (∀ r rest, reqs = r :: rest →
      lineNotInBreakpoints r.bps r.topPath r.topLine = false →
      runStopOnEntry false reqs = false :: runStopOnEntry false rest) := by
  refine ⟨runStopOnEntry_of_passed reqs, ?_, ?_, ?_⟩
  · induction reqs with
    | nil => simp [runStopOnEntry]
    | cons r rest ih =>
      by_cases hg : lineNotInBreakpoints r.bps r.topPath r.topLine = true
      · simp [runStopOnEntry, stopOnEntryStep, hg, runStopOnEntry_of_passed,
          List.count_replicate]
      · simp only [Bool.not_eq_true] at hg
        simp [runStopOnEntry, stopOnEntryStep, hg, List.count_cons]
        exact ih
  · intro r rest hreq hg
    subst hreq
    simp [runStopOnEntry, stopOnEntryStep, hg, runStopOnEntry_of_passed]
  · intro r rest hreq hg
    subst hreq
    simp [runStopOnEntry, stopOnEntryStep, hg]

/-- C8 amended witness: with a recorded breakpoint list for the file that
does not contain the top line, the first of two identical requests continues
and the second does not. -/
theorem stopOnEntry_amended_witness :
    runStopOnEntry false
        [⟨10, "/w/a.pl", [("/w/a.pl", [3])]⟩, ⟨10, "/w/a.pl", [("/w/a.pl", [3])]⟩]
      = true :: List.replicate 1 false :=
  (stopOnEntry_amended _).2.2.1 ⟨10, "/w/a.pl", [("/w/a.pl", [3])]⟩
    [⟨10, "/w/a.pl", [("/w/a.pl", [3])]⟩] rfl (by decide)

/- ## C9 — stackTrace request totality
(src/unnamed/part_006 stackTraceRequest). -/

/-- Number of responses PerlDebugSession.stackTraceRequest sends on one
invocation: one on the early `startFrame` page return; none when the trace
reply is undefined (`this.perlProcess?.trace()` with no process attached) or
the empty string (both falsy, so the whole response block is skipped); none
when the reply parses to no frames while the stop-on-entry flag is unset (the
guard dereferences `result[0].line` and throws before sendResponse); one
otherwise. -/
def stackTraceResponseCount (startFrame : Nat) (traceReply : Option String)
    (hasPassed : Bool) : Nat :=
  if startFrame ≠ 0 then 1
  else
    match traceReply with
    | none => 0
    | some s =>
      if s = "" then 0
      else if !hasPassed && (parsePerlStackTrace s).isEmpty then 0
      else 1

/-- C9: request totality fails. Evaluating the handler at the failing input —
a stackTrace request with startFrame 0 while no Perl process is attached (the
trace reply is undefined) — zero responses are sent; the empty-reply path
likewise sends none; paths with a nonzero startFrame or a well-formed reply
send exactly one. -/
theorem stackTraceRequest_absent_process_no_response :
    stackTraceResponseCount 0 none false = 0 ∧
    stackTraceResponseCount 0 (some "") false = 0 ∧
    stackTraceResponseCount 1 none false = 1 ∧
    stackTraceResponseCount 0
      (some "$ = main::f() called from file '/w/s.pl' line 3\n  DB<2> ") false = 1 := by
  decide

/- ## C1 — persistence round-trip
(src/unnamed/part_006 saveFunctionMapToFile / loadFunctionMapFromFile). -/

/-- Position record of a FunctionReference
(src/server/src/types/common.types.ts). -/
structure FunctionReferencePosition where
  startRow : Nat
  startColumn : Nat
  endRow : Nat
  endColumn : Nat
deriving DecidableEq, Repr

/-- FunctionReference: the canonical index record, for declarations and call
sites alike. -/
structure FunctionReference where
  uri : String
  functionName : String
  packageName : String
  position : FunctionReferencePosition
deriving DecidableEq, Repr

/-- The persisted subset of the analyzer's index: uriToFunctionDeclarations
and uriToFunctionReferences, as ordered association lists (JS Maps iterate in
insertion order). -/
structure PersistedIndex where
  decls : List (String × List FunctionReference)
  refs : List (String × List (String × List FunctionReference))
deriving DecidableEq, Repr

/-- JSON values written to and read from the sidecar file. -/
inductive JVal where
  | str (s : String)
  | num (n : Nat)
  | arr (xs : List JVal)
  | obj (fields : List (String × JVal))

/-- JSON encoding of a position record. -/
def jsonOfPosition (p : FunctionReferencePosition) : JVal :=
  JVal.obj [("startRow", JVal.num p.startRow), ("startColumn", JVal.num p.startColumn),
    ("endRow", JVal.num p.endRow), ("endColumn", JVal.num p.endColumn)]

/-- JSON encoding of a FunctionReference record. -/
def jsonOfFunctionReference (r : FunctionReference) : JVal :=
  JVal.obj [("uri", JVal.str r.uri), ("functionName", JVal.str r.functionName),
    ("packageName", JVal.str r.packageName), ("position", jsonOfPosition r.position)]

/-- saveFunctionMapToFile: `Object.fromEntries` of the two maps, then
`JSON.stringify` (Brotli compression and decompression cancel and are not
modelled). The declarations map's values are plain arrays and serialize in
full; the references map's values are themselves JS `Map` instances, which
`JSON.stringify` serializes as `{}` — a Map has no own enumerable
properties. -/
def saveFunctionMap (i : PersistedIndex) : JVal :=
  JVal.obj
    [("uriToFunctionDeclarations",
      JVal.obj (i.decls.map
        (fun p => (p.1, JVal.arr (p.2.map jsonOfFunctionReference))))),
     ("functionReference",
      JVal.obj (i.refs.map (fun p => (p.1, JVal.obj []))))]

/-- Field lookup on a parsed JSON object. -/
def jlookup (fields : List (String × JVal)) (k : String) : Option JVal :=
  (fields.find? (fun f => f.1 == k)).map (fun f => f.2)

/-- Read-back of a number. -/
def decodeNat : JVal → Option Nat
  | JVal.num n => some n
  | _ => none

/-- Read-back of a string. -/
def decodeStr : JVal → Option String
  | JVal.str s => some s
  | _ => none

/-- Read-back of a position record. -/
def decodePosition : JVal → Option FunctionReferencePosition
  | JVal.obj fs => do
    let sr ← jlookup fs "startRow" >>= decodeNat
    let sc ← jlookup fs "startColumn" >>= decodeNat
    let er ← jlookup fs "endRow" >>= decodeNat
    let ec ← jlookup fs "endColumn" >>= decodeNat
    some ⟨sr, sc, er, ec⟩
  | _ => none

/-- Read-back of a FunctionReference record. -/
def decodeFunctionReference : JVal → Option FunctionReference
  | JVal.obj fs => do
    let u ← jlookup fs "uri" >>= decodeStr
    let f ← jlookup fs "functionName" >>= decodeStr
    let p ← jlookup fs "packageName" >>= decodeStr
    let pos ← jlookup fs "position" >>= decodePosition
    some ⟨u, f, p, pos⟩
  | _ => none

/-- Read-back of a list of values, element by element. -/
def decodeEach {α : Type} (f : JVal → Option α) : List JVal → Option (List α)
  | [] => some []
  | x :: xs => do
    let v ← f x
    let rest ← decodeEach f xs
    some (v :: rest)

/-- Read-back of an object's fields as an ordered association list
(`Object.entries` of a parsed JSON object). -/
def decodePairs {α : Type} (f : JVal → Option α) :
    List (String × JVal) → Option (List (String × α))
  | [] => some []
  | p :: ps => do
    let v ← f p.2
    let rest ← decodePairs f ps
    some ((p.1, v) :: rest)

/-- Read-back of an array of FunctionReference records. -/
def decodeFRList : JVal → Option (List FunctionReference)
  | JVal.arr xs => decodeEach decodeFunctionReference xs
  | _ => none

/-- Read-back of one URI's references map (functionName to records). -/
def decodeInnerRefs : JVal → Option (List (String × List FunctionReference))
  | JVal.obj gs => decodePairs decodeFRList gs
  | _ => none

/-- loadFunctionMapFromFile: `JSON.parse` of the file content, then
`new Map(Object.entries(data.uriToFunctionDeclarations || {}))` and
`new Map(Object.entries(data.functionReference || {}))`; a missing field
falls back to the empty object. The source performs no validation; the
decoder returns `none` only where the loaded JSON could not be read back into
the index type at all. -/
def loadFunctionMap (j : JVal) : Option PersistedIndex :=
  match j with
  | JVal.obj fs => do
    let decls ←
      (match (jlookup fs "uriToFunctionDeclarations").getD (JVal.obj []) with
       | JVal.obj ds => decodePairs decodeFRList ds
       | _ => none)
    let refs ←
      (match (jlookup fs "functionReference").getD (JVal.obj []) with
       | JVal.obj rs => decodePairs decodeInnerRefs rs
       | _ => none)
    some ⟨decls, refs⟩
  | _ => none

/-- Decoding inverts encoding on a single record. -/
theorem decodeFunctionReference_jsonOf (r : FunctionReference) :
    decodeFunctionReference (jsonOfFunctionReference r) = some r :=
  rfl

/-- Decoding inverts encoding on a record array. -/
theorem decodeFRList_jsonOf (l : List FunctionReference) :
    decodeFRList (JVal.arr (l.map jsonOfFunctionReference)) = some l := by
  induction l with
  | nil => rfl
  | cons r rest ih =>
    simp only [decodeFRList, List.map_cons, decodeEach,
      decodeFunctionReference_jsonOf] at *
    simp [ih]

/-- Sample index: one declaration in `a.pm` and one nonempty references map
in `b.pl` (the call site of `greet`). -/
def sampleIndex : PersistedIndex :=
  { decls := [("file://a.pm",
      [⟨"file://a.pm", "greet", "Foo::Bar", ⟨1, 4, 1, 9⟩⟩])],
    refs := [("file://b.pl",
      [("greet", [⟨"file://b.pl", "greet", "", ⟨0, 10, 0, 15⟩⟩])])] }

/-- C1: persistence round-trip fails. For every index, loading what save
wrote restores the declarations map in full but replaces every URI's
references map by the empty map, because `JSON.stringify` serializes the
inner `Map` values of uriToFunctionReferences as `{}`; at the failing input
— an index in which `file://b.pl` has a nonempty references map — the round
trip is therefore not the identity. -/
theorem loadFunctionMap_saveFunctionMap_drops_references :
    (∀ i : PersistedIndex,
      loadFunctionMap (saveFunctionMap i)
        = some ⟨i.decls, i.refs.map (fun p => (p.1, []))⟩) ∧
    loadFunctionMap (saveFunctionMap sampleIndex)
      = some ⟨sampleIndex.decls, [("file://b.pl", [])]⟩ ∧
    loadFunctionMap (saveFunctionMap sampleIndex) ≠ some sampleIndex := by
  have hmain : ∀ i : PersistedIndex,
      loadFunctionMap (saveFunctionMap i)
        = some ⟨i.decls, i.refs.map (fun p => (p.1, []))⟩ := by
    intro i
    obtain ⟨ds, rs⟩ := i
    have hds : ∀ (l : List (String × List FunctionReference)),
        decodePairs decodeFRList
          (l.map (fun p => (p.1, JVal.arr (p.2.map jsonOfFunctionReference))))
          = some l := by
      intro l
      induction l with
      | nil => rfl
      | cons h t ih => simp [decodePairs, decodeFRList_jsonOf, ih]
    have hrs : ∀ (l : List (String × List (String × List FunctionReference))),
        decodePairs decodeInnerRefs (l.map (fun p => (p.1, JVal.obj [])))
          = some (l.map (fun p => (p.1, []))) := by
      intro l
      induction l with
      | nil => rfl
      | cons h t ih => simp [decodePairs, decodeInnerRefs, ih]
    simp [saveFunctionMap, loadFunctionMap, jlookup, List.find?, hds, hrs]
  refine ⟨hmain, ?_, ?_⟩
  · rw [hmain sampleIndex]
    simp [sampleIndex]
  · rw [hmain sampleIndex]
    decide

/- ## C3 — single-flight command dispatch of PerlProcess
(src/server/src/debugger/debugUtil.ts, _sync / _sendCommand /
_processBuffer). -/

/-- State of the PerlProcess dispatch machinery for a family of `n` public
operations issued concurrently (all `_sync` calls made before any completes,
so the `_lock` chain orders the tasks by invocation): `pending` is the index
of the next operation whose task has not yet run; `written` records command
indices in the order their text was written to stdin; `waiters` is the FIFO
`waitingResolvers` queue, each resolver tagged with its command's index;
`resolved` logs, in order, each reply prompt's ordinal with the command index
whose promise it resolved; `prompts` counts reply prompts seen by
`_processBuffer`. -/
structure DriverState where
  pending : Nat
  written : List Nat
  waiters : List Nat
  resolved : List (Nat × Nat)
  prompts : Nat
deriving DecidableEq, Repr

/-- Initial state: nothing written, nothing waiting, nothing resolved. -/
def DriverState.init : DriverState :=
  ⟨0, [], [], [], 0⟩

/-- One step of the event loop.

`startTask`: the `_lock` promise chain built by `_sync` runs the next
operation's task exactly when every earlier task has completed — the previous
command's promise has resolved, so `waiters` is empty and as many commands
were written as tasks finished; the task synchronously writes its command to
stdin and pushes its resolver onto `waitingResolvers`, then awaits.

`prompt`: `_processBuffer` sees a ready prompt in the buffered stream; the
debugger emits a reply prompt only after receiving a command, so a resolver
is outstanding; the oldest resolver is shifted and called with the buffered
reply. -/
inductive DriverStep (n : Nat) : DriverState → DriverState → Prop
  | startTask (s : DriverState) (h1 : s.pending < n) (h2 : s.waiters = [])
      (h3 : s.written.length = s.pending) :
      DriverStep n s
        ⟨s.pending + 1, s.written ++ [s.pending], [s.pending], s.resolved, s.prompts⟩
  | prompt (s : DriverState) (c : Nat) (rest : List Nat) (h : s.waiters = c :: rest) :
      DriverStep n s
        ⟨s.pending, s.written, rest, s.resolved ++ [(s.prompts + 1, c)], s.prompts + 1⟩

/-- States reachable from the initial state. -/
inductive DriverReachable (n : Nat) : DriverState → Prop
  | init : DriverReachable n DriverState.init
  | step {s t : DriverState} :
      DriverReachable n s → DriverStep n s t → DriverReachable n t

/-- Inductive invariant of the dispatcher: writes happen in invocation order,
resolutions pair the i-th prompt with the i-th command, the single waiter (if
any) is the oldest unresolved command, and at most one command is in
flight. -/
def DriverInv (s : DriverState) : Prop :=
  s.written = List.range s.pending ∧
  s.prompts = s.resolved.length ∧
  s.resolved = (List.range s.resolved.length).map (fun i => (i + 1, i)) ∧
  s.pending = s.resolved.length + s.waiters.length ∧
  (∀ c ∈ s.waiters, c = s.resolved.length) ∧
  s.waiters.length ≤ 1

/-- The invariant holds in every reachable state. -/
theorem driverInv_of_reachable (n : Nat) (s : DriverState)
    (h : DriverReachable n s) : DriverInv s := by
  induction h with
  | init =>
    refine ⟨rfl, rfl, rfl, rfl, ?_, by simp [DriverState.init]⟩
    intro c hc
    simp [DriverState.init] at hc
  | @step s t hre hstep ih =>
    obtain ⟨ihw, ihp, ihr, ihc, ihq, ihl⟩ := ih
    cases hstep with
    | startTask h1 h2 h3 =>
      have hpend : s.pending = s.resolved.length := by
        simpa [h2] using ihc
      refine ⟨?_, ihp, ihr, ?_, ?_, by simp⟩
      · simp [ihw, List.range_succ]
      · simp [hpend]
      · intro c hc
        simp at hc
        simpa [hc] using hpend
    | prompt c rest hw =>
      have hc0 : c = s.resolved.length := ihq c (by simp [hw])
      have hrest : rest = [] := by
        have hlc : (c :: rest).length ≤ 1 := hw ▸ ihl
        simp only [List.length_cons] at hlc
        exact List.length_eq_zero.mp (by omega)
      refine ⟨ihw, by simp [ihp], ?_, ?_, ?_, by simp [hrest]⟩
      · simp only [List.length_append, List.length_cons, List.length_nil]
        rw [List.range_succ, List.map_append, ← ihr, hc0, ihp]
        simp
      · rw [hw] at ihc
        simp only [hrest, List.length_nil, List.length_append, List.length_cons,
          List.length_singleton]
        simp [hrest] at ihc
        omega
      · intro x hx
        simp [hrest] at hx

/-- C3: single-flight prompt ordering. In every reachable state of the
dispatch machinery: the commands written to stdin are exactly the first
operations in invocation order; at most one command is in flight at any
moment (the resolver queue never exceeds one entry and the written count
never exceeds the resolved count plus one); and the i-th ready prompt
resolved exactly the i-th command's promise — every entry of the resolution
log pairs prompt ordinal `i + 1` with command index `i`, so no prompt is
consumed out of order. -/
theorem perlProcess_single_flight (n : Nat) (s : DriverState)
    (h : DriverReachable n s) :
    s.written = List.range s.written.length ∧
    s.waiters.length ≤ 1 ∧
    s.written.length ≤ s.resolved.length + 1 ∧
    (∀ i : Nat, ∀ p : Nat × Nat, s.resolved[i]? = some p → p = (i + 1, i)) := by
  obtain ⟨hw, hp, hr, hc, hq, hl⟩ := driverInv_of_reachable n s h
  refine ⟨by rw [hw, List.length_range], hl, ?_, ?_⟩
  · rw [hw, List.length_range, hc]
    omega
  · intro i p hip
    have hlen : i < s.resolved.length := by
      by_contra hcon
      rw [List.getElem?_eq_none (by omega)] at hip
      exact Option.noConfusion hip
    rw [hr] at hip
    rw [List.getElem?_map, List.getElem?_range (by simpa using hlen)] at hip
    simpa using hip.symm

/-- First witness state: operation 0 started, its command written and in
flight. -/
def driverS1 : DriverState :=
  ⟨1, [0], [0], [], 0⟩

/-- Second witness state: the first reply prompt resolved command 0. -/
def driverS2 : DriverState :=
  ⟨1, [0], [], [(1, 0)], 1⟩

/-- Third witness state: operation 1 started, its command written and in
flight. -/
def driverS3 : DriverState :=
  ⟨2, [0, 1], [1], [(1, 0)], 1⟩

/-- C3 witness: the state reached by starting command 0, resolving it with
the first prompt and starting command 1 is reachable for two concurrent
operations, and the single-flight conclusions evaluate there. -/
theorem perlProcess_single_flight_witness :
    driverS3.written = List.range driverS3.written.length ∧
    driverS3.waiters.length ≤ 1 ∧
    driverS3.written.length ≤ driverS3.resolved.length + 1 := by
  have h1 : DriverStep 2 DriverState.init driverS1 :=
    DriverStep.startTask DriverState.init (by decide) rfl rfl
  have h2 : DriverStep 2 driverS1 driverS2 :=
    DriverStep.prompt driverS1 0 [] rfl
  have h3 : DriverStep 2 driverS2 driverS3 :=
    DriverStep.startTask driverS2 (by decide) rfl rfl
  have hr : DriverReachable 2 driverS3 :=
    DriverReachable.step
      (DriverReachable.step (DriverReachable.step DriverReachable.init h1) h2) h3
  obtain ⟨a, b, c, -⟩ := perlProcess_single_flight 2 driverS3 hr
  exact ⟨a, b, c⟩

/- ## Syntax-tree model for the analyzer (C2, C4)
(src/server/src/util/tree_sitter_utils.ts; src/unnamed/part_006 Analyzer). -/

/-- Zero-based row/column point of a tree-sitter node. -/
structure TSPoint where
  row : Nat
  col : Nat
deriving DecidableEq, Repr

/-- A tree-sitter syntax node: kind (node type), the field name it occupies
on its parent (empty when none), its source text, start and end points, and
its children in document order. -/
inductive STNode where
  | mk (kind : String) (field : String) (text : String)
      (startPos endPos : TSPoint) (children : List STNode)

/-- Kind (type) of a node. -/
def STNode.kind : STNode → String
  | .mk k _ _ _ _ _ => k

/-- Field name of a node on its parent. -/
def STNode.field : STNode → String
  | .mk _ f _ _ _ _ => f

/-- Source text of a node. -/
def STNode.text : STNode → String
  | .mk _ _ tx _ _ _ => tx

/-- Start point of a node. -/
def STNode.startPos : STNode → TSPoint
  | .mk _ _ _ s _ _ => s

/-- End point of a node. -/
def STNode.endPos : STNode → TSPoint
  | .mk _ _ _ _ e _ => e

/-- Children of a node, in document order. -/
def STNode.children : STNode → List STNode
  | .mk _ _ _ _ _ cs => cs

mutual

/-- Tree-sitter `descendantsOfType` with a list of kinds: the nodes of the
subtree (the node itself included) whose kind is listed, in document
(preorder) order. -/
def descendantsOfTypes (tys : List String) : STNode → List STNode
  | .mk k f tx s e cs =>
    (if tys.contains k then [STNode.mk k f tx s e cs] else []) ++
      descendantsOfTypesList tys cs

/-- `descendantsOfTypes` over a forest. -/
def descendantsOfTypesList (tys : List String) : List STNode → List STNode
  | [] => []
  | c :: cs => descendantsOfTypes tys c ++ descendantsOfTypesList tys cs

end

/-- Tree-sitter `descendantsOfType` with a single kind. -/
def descendantsOfType (ty : String) (t : STNode) : List STNode :=
  descendantsOfTypes [ty] t

/-- Tree-sitter `childForFieldName`: the first child carrying the field. -/
def childForFieldName (t : STNode) (f : String) : Option STNode :=
  t.children.find? (fun c => c.field == f)

/-- tree_sitter_utils.getPackageNodeForNode, phrased over the node's ancestor
chain (the node itself first, the root last): the last `package_statement` in
the subtree of the first chain element whose subtree has any, recursing to
the parent otherwise; null when no ancestor has one. -/
def getPackageNodeForNode : List STNode → Option STNode
  | [] => none
  | t :: rest =>
    match (descendantsOfType "package_statement" t).getLast? with
    | some p => some p
    | none => getPackageNodeForNode rest

mutual

/-- Every node of the subtree paired with its ancestor chain (the node
itself first, the root last), in document order. -/
def nodesWithChains (anc : List STNode) : STNode → List (STNode × List STNode)
  | .mk k f tx s e cs =>
    (STNode.mk k f tx s e cs, STNode.mk k f tx s e cs :: anc) ::
      nodesWithChainsList (STNode.mk k f tx s e cs :: anc) cs

/-- `nodesWithChains` over a forest. -/
def nodesWithChainsList (anc : List STNode) : List STNode → List (STNode × List STNode)
  | [] => []
  | c :: cs => nodesWithChains anc c ++ nodesWithChainsList anc cs

end

/- ## C2 — packageName of extracted records
(src/unnamed/part_006 extractAndSetDeclarationsAndReferencesFromFile,
src/server/src/util/tree_sitter_utils.ts getPackageNodeForNode). -/

/-- The node kinds the single extraction pass visits. -/
def extractionKinds : List String :=
  ["function_definition",
   "call_expression_with_args_with_brackets",
   "call_expression_with_args_without_brackets",
   "call_expression_with_variable",
   "call_expression_with_spaced_args",
   "call_expression_recursive",
   "method_invocation"]

/-- Map.get on the references map, defaulting to the empty list. -/
def getRefEntry (m : List (String × List FunctionReference)) (k : String) :
    List FunctionReference :=
  ((m.find? (fun e => e.1 == k)).map (fun e => e.2)).getD []

/-- Map.set on the references map: an existing function name keeps its
position, a new one is appended. -/
def setRefEntry (m : List (String × List FunctionReference)) (k : String)
    (v : List FunctionReference) : List (String × List FunctionReference) :=
  if m.any (fun e => e.1 == k) then
    m.map (fun e => if e.1 == k then (k, v) else e)
  else m ++ [(k, v)]

/-- Analyzer.extractAndSetDeclarationsAndReferencesFromFile: a single pass
over `rootNode.descendantsOfType(extractionKinds)` in document order. A
`function_definition` with a `name` field child yields a declaration whose
packageName is the text of the first `package_name` descendant of
`getPackageNodeForNode(node)` (or "" through the optional chain); any other
hit with a `function_name` field child (on itself or its first child) yields
a reference whose packageName is the text of the first `package_name`
descendant of the call node itself (or ""); positions are the name node's
range. -/
def extractDeclarationsAndReferences (uri : String) (root : STNode) :
    List FunctionReference × List (String × List FunctionReference) :=
  let nodes := (nodesWithChains [] root).filter
    (fun p => extractionKinds.contains p.1.kind)
  nodes.foldl
    (fun acc p =>
      let node := p.1
      let chain := p.2
      if node.kind == "function_definition" then
        match childForFieldName node "name" with
        | some nameNode =>
          let pkg : String := ((getPackageNodeForNode chain).map (fun pn =>
            ((descendantsOfType "package_name" pn).head?.map STNode.text).getD "")).getD ""
          let decl : FunctionReference :=
            ⟨uri, nameNode.text, pkg,
             ⟨nameNode.startPos.row, nameNode.startPos.col,
              nameNode.endPos.row, nameNode.endPos.col⟩⟩
          (acc.1 ++ [decl], acc.2)
        | none => acc
      else
        match (childForFieldName node "function_name").orElse
            (fun _ => node.children.head?.bind (fun c => childForFieldName c "function_name")) with
        | some fnNode =>
          let functionName := fnNode.text
          let pkg : String :=
            ((descendantsOfType "package_name" node).head?.map STNode.text).getD ""
          let refRec : FunctionReference :=
            ⟨uri, functionName, pkg,
             ⟨fnNode.startPos.row, fnNode.startPos.col,
              fnNode.endPos.row, fnNode.endPos.col⟩⟩
          (acc.1, setRefEntry acc.2 functionName
            (getRefEntry acc.2 functionName ++ [refRec]))
        | none => acc)
    ([], [])

/-- A top-level `package NAME;` statement node at row `r`. -/
def pkgStmtNode (name : String) (r : Nat) : STNode :=
  STNode.mk "package_statement" "" ("package " ++ name ++ ";")
    ⟨r, 0⟩ ⟨r, 9 + name.length⟩
    [STNode.mk "package_name" "" name ⟨r, 8⟩ ⟨r, 8 + name.length⟩ []]

/-- A top-level `sub NAME { }` definition node at row `r`, with the name
identifier on the `name` field. -/
def subDefNode (fname : String) (r : Nat) : STNode :=
  STNode.mk "function_definition" "" ("sub " ++ fname ++ " { }")
    ⟨r, 0⟩ ⟨r, 8 + fname.length⟩
    [STNode.mk "identifier" "name" fname ⟨r, 4⟩ ⟨r, 4 + fname.length⟩ [],
     STNode.mk "block" "" "{ }" ⟨r, 5 + fname.length⟩ ⟨r, 8 + fname.length⟩ []]

/-- A top-level `NAME()` call node at row `r`, with the name identifier on
the `function_name` field. -/
def callExprNode (fname : String) (r : Nat) : STNode :=
  STNode.mk "call_expression_with_args_with_brackets" "" (fname ++ "()")
    ⟨r, 0⟩ ⟨r, fname.length + 2⟩
    [STNode.mk "identifier" "function_name" fname ⟨r, 0⟩ ⟨r, fname.length⟩ []]

/-- A flat Perl file with two top-level packages: `package a;` then a sub
`f` and a call `c`, then `package b;` and a sub `g`. -/
def twoPackageRoot (a b f g c : String) : STNode :=
  STNode.mk "source_file" "" "" ⟨0, 0⟩ ⟨5, 0⟩
    [pkgStmtNode a 0, subDefNode f 1, callExprNode c 2, pkgStmtNode b 3, subDefNode g 4]

/-- C2 counterexample: in a file with two top-level packages `A` then `B`,
the subroutine `f` defined under the first package — whose innermost
enclosing package_statement at its position is `package A;` — is recorded
with packageName "B": `getPackageNodeForNode` takes the last
package_statement of the whole file, the nearest ancestor subtree containing
one. The call site `greet()` under package `A` is recorded with packageName
"" (the call node's own subtree has no package_name). -/
theorem extract_two_packages_first_sub_gets_last_package :
    ((extractDeclarationsAndReferences "file://x.pm"
        (twoPackageRoot "A" "B" "f" "g" "greet")).1.map
      (fun d => d.packageName)) = ["B", "B"] ∧
    ((getRefEntry (extractDeclarationsAndReferences "file://x.pm"
        (twoPackageRoot "A" "B" "f" "g" "greet")).2 "greet").map
      (fun d => d.packageName)) = [""] ∧
    ("B" : String) ≠ "A" ∧ ("" : String) ≠ "A" := by
  decide

/-- C2 (amended): for every flat two-package file of this shape — arbitrary
package names `a`, `b`, subroutine names `f`, `g` and call-site name `c` —
every subroutine declaration (under either package) is recorded with the
*last* package's name `b`, and the call-site record under the first package
is recorded with packageName "": declarations take the last
package_statement found in the subtree of the nearest ancestor that contains
any (here the file root), and references look only inside the call node's
own subtree. -/
theorem extract_two_packages_amended (u a b f g c : String) :
    extractDeclarationsAndReferences u (twoPackageRoot a b f g c) =
      ([⟨u, f, b, ⟨1, 4, 1, 4 + f.length⟩⟩,
        ⟨u, g, b, ⟨4, 4, 4, 4 + g.length⟩⟩],
       [(c, [⟨u, c, "", ⟨2, 0, 2, c.length⟩⟩])]) := by
  rfl

/- ## C4 — variable definition query
(src/unnamed/part_006 findDefinition, getAllVariablesWithInScopeAtCurrentNode,
getOuterBlockForCurrentNode, getRootVariablesInFile). -/

/-- Whether `needle` is a suffix of `hay` (character lists). -/
def hasSuffixCh (needle hay : List Char) : Bool :=
  hasPrefixCh needle.reverse hay.reverse

/-- Whether a node kind matches `/_variable$/`. -/
def isVariableKind (k : String) : Bool :=
  hasSuffixCh "_variable".data k.data

/-- Analyzer.getOuterBlockForCurrentNode, over the node and its ancestor
chain: the while loop visits every element that has a parent (everything
except the root) walking upward, and keeps the last `block` seen — the
outermost enclosing block. -/
def getOuterBlockForCurrentNode (node : STNode) (ancestors : List STNode) :
    Option STNode :=
  (node :: ancestors).dropLast.foldl
    (fun acc t => if t.kind == "block" then some t else acc) none

mutual

/-- Analyzer.getRootVariablesInFile: `forEachNode` from the root, collecting
nodes whose kind matches `/_variable$/` and not descending into `block`
nodes (a collected variable node is still descended into: the callback
returns true after pushing). -/
def getRootVariablesInFile : STNode → List STNode
  | .mk k f tx s e cs =>
    if isVariableKind k then
      STNode.mk k f tx s e cs :: getRootVariablesList cs
    else if k == "block" then []
    else getRootVariablesList cs

/-- `getRootVariablesInFile` over a forest. -/
def getRootVariablesList : List STNode → List STNode
  | [] => []
  | c :: cs => getRootVariablesInFile c ++ getRootVariablesList cs

end

/-- Analyzer.getAllVariablesWithInScopeAtCurrentNode: root variables of the
file, then all variables of the outermost enclosing block grouped by the five
variable kinds, filtered (unless `includeSucceedingVariables`) to occurrences
ending strictly before the query node's start. -/
def getAllVariablesWithInScopeAtCurrentNode (root node : STNode)
    (ancestors : List STNode) (includeSucceedingVariables : Bool) : List STNode :=
  let outerBlockNode := getOuterBlockForCurrentNode node ancestors
  let rootVariables := getRootVariablesInFile root
  let variableNodes := rootVariables ++
    (match outerBlockNode with
     | some b =>
       descendantsOfType "scalar_variable" b ++
       descendantsOfType "array_variable" b ++
       descendantsOfType "hash_variable" b ++
       descendantsOfType "special_scalar_variable" b ++
       descendantsOfType "typeglob" b
     | none => [])
  if includeSucceedingVariables then variableNodes
  else
    variableNodes.filter (fun v =>
      (v.endPos.row < node.startPos.row) ||
        (v.endPos.row == node.startPos.row && v.endPos.col < node.startPos.col))

/-- An LSP location: URI and zero-based range. This is the `location`
component of the SymbolInformation records findDefinition builds; the other
components (name, symbol kind, container) are dropped by the final
`symbols.map(symbol => symbol.location)` and are not modelled. -/
structure LSLocation where
  uri : String
  startRow : Nat
  startCol : Nat
  endRow : Nat
  endCol : Nat
deriving DecidableEq, Repr

/-- Location of a syntax node in a document. -/
def locationOfNode (uri : String) (v : STNode) : LSLocation :=
  ⟨uri, v.startPos.row, v.startPos.col, v.endPos.row, v.endPos.col⟩

/-- Location of a stored declaration record. -/
def locationOfDeclaration (uri : String) (d : FunctionReference) : LSLocation :=
  ⟨uri, d.position.startRow, d.position.startColumn,
   d.position.endRow, d.position.endColumn⟩

/-- One step of findDefinition's uniqueness-set fold over the in-scope
variables: push the occurrence when its text equals the query text and was
not seen before, and record the text in the set. -/
def uniqueStep (uri idName : String) (acc : List LSLocation × List String)
    (v : STNode) : List LSLocation × List String :=
  if v.text == idName && !(acc.2.contains v.text) then
    (acc.1 ++ [locationOfNode uri v], acc.2 ++ [v.text])
  else acc

/-- Analyzer.findDefinition: for a `*_variable` node, scans the in-scope
variable occurrences, keeping (via the uniqueness set) only the first
occurrence per text and matching the query text; otherwise treats the node
as a function name and collects every matching declaration across
`uriToFunctionDeclarations`. -/
def findDefinition (uri : String) (root node : STNode) (ancestors : List STNode)
    (declsByUri : List (String × List FunctionReference)) : List LSLocation :=
  let identifierName := node.text
  if isVariableKind node.kind then
    ((getAllVariablesWithInScopeAtCurrentNode root node ancestors false).foldl
      (uniqueStep uri identifierName) ([], [])).1
  else
    declsByUri.foldl
      (fun acc p =>
        acc ++ (p.2.filter (fun d => d.functionName == identifierName)).map
          (locationOfDeclaration p.1))
      []

/-- Valid ancestor chain: the list is the node followed by its ancestors up
to the root, each element a child of the next. -/
inductive ValidUpChain (root : STNode) : List STNode → Prop
  | base : ValidUpChain root [root]
  | cons (c p : STNode) (rest : List STNode) :
      ValidUpChain root (p :: rest) → c ∈ p.children →
      ValidUpChain root (c :: p :: rest)

/-- The uniqueness-set fold of findDefinition collects exactly the first
occurrence whose text equals the query text (appended to what was already
collected), unless the query text is already in the set. -/
theorem uniqueFold_eq_find (uri idName : String) (vars : List STNode)
    (locs : List LSLocation) (seen : List String) :
    (vars.foldl (uniqueStep uri idName) (locs, seen)).1 =
      (if seen.contains idName then locs
       else locs ++ ((vars.find? (fun v => v.text == idName)).map
         (locationOfNode uri)).toList) := by
  induction vars generalizing locs seen with
  | nil => by_cases h : seen.contains idName <;> simp [h]
  | cons v rest ih =>
    rw [List.foldl_cons]
    by_cases h1 : v.text == idName
    · have heq : v.text = idName := eq_of_beq h1
      subst heq
      by_cases h2 : seen.contains v.text
      · have hm : v.text ∈ seen := by simpa using h2
        rw [show uniqueStep uri v.text (locs, seen) v = (locs, seen) from by
          simp [uniqueStep, hm]]
        rw [ih locs seen]
        simp [hm]
      · have hm : v.text ∉ seen := by simpa using h2
        rw [show uniqueStep uri v.text (locs, seen) v
            = (locs ++ [locationOfNode uri v], seen ++ [v.text]) from by
          simp [uniqueStep, hm]]
        rw [ih (locs ++ [locationOfNode uri v]) (seen ++ [v.text])]
        simp [hm, List.find?, h1]
    · rw [show uniqueStep uri idName (locs, seen) v = (locs, seen) from by
        simp only [uniqueStep];
        rw [if_neg];
        simp [h1]]
      rw [ih locs seen]
      have hf : List.find? (fun x => x.text == idName) (v :: rest)
          = List.find? (fun x => x.text == idName) rest := by
        rw [List.find?]
        simp only [Bool.not_eq_true] at h1
        rw [h1]
      rw [hf]

/-- S3 nodes: `my $outer = 1;` at the top of the file. -/
def s3Outer1 : STNode :=
  STNode.mk "scalar_variable" "" "$outer" ⟨0, 3⟩ ⟨0, 9⟩ []

/-- S3 nodes: the statement wrapping the first `$outer`. -/
def s3Stmt0 : STNode :=
  STNode.mk "variable_declaration" "" "my $outer = 1;" ⟨0, 0⟩ ⟨0, 14⟩ [s3Outer1]

/-- S3 nodes: `$inner` of `my $inner = 2;` inside the sub body. -/
def s3Inner1 : STNode :=
  STNode.mk "scalar_variable" "" "$inner" ⟨2, 7⟩ ⟨2, 13⟩ []

/-- S3 nodes: the declaration wrapping the first `$inner`. -/
def s3InnerDecl : STNode :=
  STNode.mk "variable_declaration" "" "my $inner = 2;" ⟨2, 4⟩ ⟨2, 18⟩ [s3Inner1]

/-- S3 nodes: the second `$inner`, the query node. -/
def s3Inner2 : STNode :=
  STNode.mk "scalar_variable" "" "$inner" ⟨3, 4⟩ ⟨3, 10⟩ []

/-- S3 nodes: the statement wrapping the second `$inner`. -/
def s3Stmt3 : STNode :=
  STNode.mk "expression_statement" "" "$inner;" ⟨3, 4⟩ ⟨3, 11⟩ [s3Inner2]

/-- S3 nodes: the body block of `sub f`. -/
def s3Block : STNode :=
  STNode.mk "block" "" "{ my $inner = 2; $inner; }" ⟨1, 6⟩ ⟨4, 1⟩ [s3InnerDecl, s3Stmt3]

/-- S3 nodes: `sub f { … }`. -/
def s3SubF : STNode :=
  STNode.mk "function_definition" "" "sub f { … }" ⟨1, 0⟩ ⟨4, 1⟩
    [STNode.mk "identifier" "name" "f" ⟨1, 4⟩ ⟨1, 5⟩ [], s3Block]

/-- S3 nodes: the second `$outer`, the query node at the file's end. -/
def s3Outer2 : STNode :=
  STNode.mk "scalar_variable" "" "$outer" ⟨5, 0⟩ ⟨5, 6⟩ []

/-- S3 nodes: the statement wrapping the second `$outer`. -/
def s3Stmt5 : STNode :=
  STNode.mk "expression_statement" "" "$outer;" ⟨5, 0⟩ ⟨5, 7⟩ [s3Outer2]

/-- S3 nodes: the file root. -/
def s3Root : STNode :=
  STNode.mk "source_file" "" "" ⟨0, 0⟩ ⟨6, 0⟩ [s3Stmt0, s3SubF, s3Stmt5]

/-- C4: variable definition query. For every `*_variable` query node with a
valid ancestor chain, findDefinition returns exactly the first occurrence —
in the lexically visible variable set at the node (root variables unioned
with the outermost enclosing block's variables, restricted to occurrences
strictly before the node) — whose text equals the node's text, uniquified by
text, hence at most one Location. In scenario S3 the query at the second
`$inner` yields row 2 col 7..13 and at the second `$outer` yields row 0
col 3..9. -/
theorem findDefinition_variable_first_occurrence :
    (∀ (uri : String) (root node : STNode) (ancestors : List STNode)
        (declsByUri : List (String × List FunctionReference)),
      ValidUpChain root (node :: ancestors) →
      isVariableKind node.kind = true →
      findDefinition uri root node ancestors declsByUri =
        (((getAllVariablesWithInScopeAtCurrentNode root node ancestors false).find?
          (fun v => v.text == node.text)).map (locationOfNode uri)).toList ∧
      (findDefinition uri root node ancestors declsByUri).length ≤ 1) ∧
    findDefinition "file://s3.pl" s3Root s3Inner2 [s3Stmt3, s3Block, s3SubF, s3Root] []
      = [⟨"file://s3.pl", 2, 7, 2, 13⟩] ∧
    findDefinition "file://s3.pl" s3Root s3Outer2 [s3Stmt5, s3Root] []
      = [⟨"file://s3.pl", 0, 3, 0, 9⟩] := by
  refine ⟨?_, by decide, by decide⟩
  intro uri root node ancestors declsByUri _hchain hker
  have heq : findDefinition uri root node ancestors declsByUri =
      (((getAllVariablesWithInScopeAtCurrentNode root node ancestors false).find?
        (fun v => v.text == node.text)).map (locationOfNode uri)).toList := by
    unfold findDefinition
    rw [if_pos hker]
    rw [uniqueFold_eq_find uri node.text
      (getAllVariablesWithInScopeAtCurrentNode root node ancestors false) [] []]
    simp
  refine ⟨heq, ?_⟩
  rw [heq]
  cases (getAllVariablesWithInScopeAtCurrentNode root node ancestors false).find?
    (fun v => v.text == node.text) <;> simp

/-- C4 witness: the general statement applied at the S3 inner query — the
chain is valid, the node kind ends in `_variable`, and the result is the
first pre-node occurrence of `$inner`. -/
theorem findDefinition_variable_first_occurrence_witness :
    findDefinition "file://s3.pl" s3Root s3Inner2 [s3Stmt3, s3Block, s3SubF, s3Root] []
      = (((getAllVariablesWithInScopeAtCurrentNode s3Root s3Inner2
            [s3Stmt3, s3Block, s3SubF, s3Root] false).find?
          (fun v => v.text == s3Inner2.text)).map
        (locationOfNode "file://s3.pl")).toList ∧
    (findDefinition "file://s3.pl" s3Root s3Inner2
        [s3Stmt3, s3Block, s3SubF, s3Root] []).length ≤ 1 := by
  have hchain : ValidUpChain s3Root [s3Inner2, s3Stmt3, s3Block, s3SubF, s3Root] := by
    refine ValidUpChain.cons _ _ _ (ValidUpChain.cons _ _ _
      (ValidUpChain.cons _ _ _ (ValidUpChain.cons _ _ _ ValidUpChain.base ?_) ?_) ?_) ?_
    · exact List.Mem.tail _ (List.Mem.head _)
    · exact List.Mem.tail _ (List.Mem.head _)
    · exact List.Mem.tail _ (List.Mem.head _)
    · exact List.Mem.head _
  exact (findDefinition_variable_first_occurrence.1 "file://s3.pl" s3Root s3Inner2
    [s3Stmt3, s3Block, s3SubF, s3Root] [] hchain (by decide))

/- ## C5 — the stack-trace count law: definitions and supporting lemmas. -/

/-- Join of tokens with single spaces. -/
def joinSp : List (List Char) → List Char
  | [] => []
  | [t] => t
  | t :: rest => t ++ ' ' :: joinSp rest

/-- A well-formed logical stack frame: context sigil, the callee's
space-separated tokens (so callees such as `main::pests('bactrian', 4)` or
`eval {...}` are covered), file path, line-number digit run, and the wrap
shape: the sizes of the leading line groups into which the frame's tokens are
wrapped (empty for an unwrapped, single-line frame). -/
structure RawFrame where
  sigil : Char
  calleeToks : List (List Char)
  path : String
  digits : List Char
  wrap : List Nat

/-- The token sequence of a frame's logical line:
`σ = callee… called from file 'path' line N`. -/
def frameToks (f : RawFrame) : List (List Char) :=
  [f.sigil] :: ['='] :: (f.calleeToks ++
    ["called".data, "from".data, "file".data,
     '\'' :: (f.path.data ++ ['\'']), "line".data, f.digits])

/-- A usable token: nonempty, whitespace-free, and not opening a `//` comment
marker. -/
def TokOk (t : List Char) : Prop :=
  t ≠ [] ∧ (∀ c ∈ t, isWS c = false) ∧ t.take 2 ≠ ['/', '/']

/-- Validity of a wrap shape over a remaining token count: every listed group
is nonempty and leaves a nonempty remainder for the following lines. -/
def wrapOk : List Nat → Nat → Bool
  | [], _ => true
  | n :: rest, m => decide (0 < n) && decide (n < m) && wrapOk rest (m - n)

/-- Split of a token list into wrapped line groups: each listed size takes a
group, the remainder forms the final line. -/
def groupsOf : List Nat → List (List Char) → List (List (List Char))
  | [], ts => [ts]
  | n :: rest, ts => ts.take n :: groupsOf rest (ts.drop n)

/-- The physical lines of a (possibly wrapped) frame: the first line carries
the start pattern, each continuation line begins with a space. -/
def physLines (f : RawFrame) : List (List Char) :=
  match groupsOf f.wrap (frameToks f) with
  | [] => []
  | g :: rest => joinSp g :: rest.map (fun h => ' ' :: joinSp h)

/-- Run/token alternation: each pair contributes its whitespace run and then
its token; the reassembly accumulator always has this shape. -/
def runTokJoin : List (List Char × List Char) → List Char
  | [] => []
  | (r, t) :: rest => r ++ (t ++ runTokJoin rest)

/-- Well-formedness of a frame: a context sigil; nonempty callee tokens, each
usable, none ending in the literal `called` (which would let the regex or the
end-of-frame test cut the callee short); a nonempty path free of whitespace
and quotes; a nonempty digit run; a valid wrap whose first line keeps at
least the sigil and equals tokens. -/
def GoodFrame (f : RawFrame) : Prop :=
  (f.sigil = '@' ∨ f.sigil = '$' ∨ f.sigil = '.') ∧
  f.calleeToks ≠ [] ∧
  (∀ t ∈ f.calleeToks, TokOk t ∧ ¬ List.IsSuffix "called".data t) ∧
  f.path.data ≠ [] ∧ (∀ c ∈ f.path.data, isWS c = false ∧ c ≠ '\'') ∧
  f.digits ≠ [] ∧ (∀ c ∈ f.digits, c.isDigit = true) ∧
  (∀ n ∈ f.wrap.take 1, 2 ≤ n) ∧
  wrapOk f.wrap (frameToks f).length = true

/-- The parsed frame a well-formed wrapped frame must produce. -/
def expectedFrame (f : RawFrame) : PerlStackFrame :=
  { context := contextOfSigil f.sigil,
    caller := basenameOr f.path.data,
    fullPath := f.path,
    line := digitsToNat f.digits,
    callee := ⟨joinSp f.calleeToks⟩ }

/-- A trailing-noise line: free of newlines and not matching the frame-start
pattern after comment stripping. -/
def NoiseLine (l : List Char) : Prop :=
  ('\n' ∉ l) ∧ isStartPattern1 (stripComment l) = false

instance (t : List Char) : Decidable (TokOk t) := by
  unfold TokOk
  infer_instance

instance (f : RawFrame) : Decidable (GoodFrame f) := by
  unfold GoodFrame
  infer_instance

instance (l : List Char) : Decidable (NoiseLine l) := by
  unfold NoiseLine
  infer_instance

/-- A character that is not whitespace is not a newline. -/
theorem ne_nl_of_isWS_false {c : Char} (h : isWS c = false) : c ≠ '\n' := by
  intro hc
  subst hc
  simp [isWS] at h

/-- Whitespace characters are not digits. -/
theorem isDigit_eq_false_of_isWS {c : Char} (h : isWS c = true) :
    c.isDigit = false := by
  have hor : c = ' ' ∨ c = '\t' ∨ c = '\n' ∨ c = '\r' ∨ c = '\x0b' ∨ c = '\x0c' := by
    simpa [isWS, or_assoc] using h
  rcases hor with h | h | h | h | h | h <;> subst h <;> decide

/-- Digits are not whitespace. -/
theorem isWS_eq_false_of_isDigit {c : Char} (h : c.isDigit = true) :
    isWS c = false := by
  cases hw : isWS c with
  | false => rfl
  | true => rw [isDigit_eq_false_of_isWS hw] at h; exact Bool.noConfusion h

/-- `splitOnNl` never returns the empty list. -/
theorem splitOnNl_ne_nil (cs : List Char) : splitOnNl cs ≠ [] := by
  induction cs with
  | nil => simp [splitOnNl]
  | cons c rest ih =>
    simp only [splitOnNl]
    cases h : splitOnNl rest with
    | nil => simp
    | cons hd tl =>
      by_cases hc : c = '\n' <;> simp [hc]

/-- Splitting a newline-free line yields the single line. -/
theorem splitOnNl_no_nl (l : List Char) (h : '\n' ∉ l) : splitOnNl l = [l] := by
  induction l with
  | nil => rfl
  | cons c rest ih =>
    have hc : c ≠ '\n' := fun hcc => h (hcc ▸ List.mem_cons_self c rest)
    have hrest : '\n' ∉ rest := fun hm => h (List.mem_cons_of_mem c hm)
    simp only [splitOnNl, ih hrest]
    simp [hc]

/-- Splitting past a newline after a newline-free line peels the line off. -/
theorem splitOnNl_append_nl (l rest : List Char) (h : '\n' ∉ l) :
    splitOnNl (l ++ '\n' :: rest) = l :: splitOnNl rest := by
  induction l with
  | nil =>
    simp only [List.nil_append, splitOnNl]
    cases hs : splitOnNl rest with
    | nil => exact absurd hs (splitOnNl_ne_nil rest)
    | cons hd tl => simp
  | cons c t ih =>
    have hc : c ≠ '\n' := fun hcc => h (hcc ▸ List.mem_cons_self c t)
    have ht : '\n' ∉ t := fun hm => h (List.mem_cons_of_mem c hm)
    simp only [List.cons_append, splitOnNl, List.append_eq]
    rw [ih ht]
    simp [hc]

/-- Splitting inverts joining on nonempty, newline-free line lists. -/
theorem splitOnNl_joinNl (parts : List (List Char)) (h : parts ≠ [])
    (hnl : ∀ l ∈ parts, '\n' ∉ l) : splitOnNl (joinNl parts) = parts := by
  induction parts with
  | nil => exact absurd rfl h
  | cons l rest ih =>
    cases rest with
    | nil =>
      simp only [joinNl]
      exact splitOnNl_no_nl l (hnl l (List.mem_cons_self l []))
    | cons p ps =>
      have hJ : joinNl (l :: p :: ps) = l ++ '\n' :: joinNl (p :: ps) := rfl
      rw [hJ, splitOnNl_append_nl l _ (hnl l (List.mem_cons_self l _))]
      rw [ih (by simp) (fun x hx => hnl x (List.mem_cons_of_mem l hx))]

/-- Expansion of the `called` literal. -/
theorem data_called : "called".data = ['c', 'a', 'l', 'l', 'e', 'd'] := rfl

/-- Expansion of the `from` literal. -/
theorem data_from : "from".data = ['f', 'r', 'o', 'm'] := rfl

/-- Expansion of the `file` literal. -/
theorem data_file : "file".data = ['f', 'i', 'l', 'e'] := rfl

/-- Expansion of the `line` literal. -/
theorem data_line : "line".data = ['l', 'i', 'n', 'e'] := rfl

/-- Expansion of the quote literal. -/
theorem data_quote : "'".data = ['\''] := rfl

/-- `dropLit` consumes an exact literal prefix. -/
theorem dropLit_append (lit rest : List Char) :
    dropLit lit (lit ++ rest) = some rest := by
  unfold dropLit
  rw [List.take_left]
  simp [List.drop_left]

/-- `takeWhile` keeps a list all of whose elements satisfy the predicate. -/
theorem takeWhile_all {p : Char → Bool} (l : List Char) (h : ∀ c ∈ l, p c = true) :
    l.takeWhile p = l := by
  induction l with
  | nil => rfl
  | cons c t ih =>
    rw [List.takeWhile_cons, if_pos (h c (List.mem_cons_self c t))]
    rw [ih (fun x hx => h x (List.mem_cons_of_mem c hx))]

/-- `dropWsPlus` consumes a single space before a non-whitespace character. -/
theorem dropWsPlus_space_cons (d : Char) (t : List Char) (hd : isWS d = false) :
    dropWsPlus (' ' :: d :: t) = some (d :: t) := by
  show (if isWS ' ' = true then some (List.dropWhile isWS (' ' :: d :: t)) else none)
      = some (d :: t)
  have hsp : isWS ' ' = true := by decide
  rw [if_pos hsp, List.dropWhile_cons, if_pos hsp, List.dropWhile_cons, hd]
  simp

/-- `dropWsPlus` fails on a non-whitespace head. -/
theorem dropWsPlus_nonws (c : Char) (t : List Char) (h : isWS c = false) :
    dropWsPlus (c :: t) = none := by
  show (if isWS c = true then some (List.dropWhile isWS (c :: t)) else none) = none
  rw [h]
  simp

/-- Bridge: a space before the `called` literal. -/
theorem wsCalled (X : List Char) :
    dropWsPlus (' ' :: ("called".data ++ X)) = some ("called".data ++ X) :=
  dropWsPlus_space_cons 'c' ("alled".data ++ X) (by decide)

/-- Bridge: a space before the `from` literal. -/
theorem wsFrom (X : List Char) :
    dropWsPlus (' ' :: ("from".data ++ X)) = some ("from".data ++ X) :=
  dropWsPlus_space_cons 'f' ("rom".data ++ X) (by decide)

/-- Bridge: a space before the `file` literal. -/
theorem wsFile (X : List Char) :
    dropWsPlus (' ' :: ("file".data ++ X)) = some ("file".data ++ X) :=
  dropWsPlus_space_cons 'f' ("ile".data ++ X) (by decide)

/-- Bridge: a space before the `line` literal. -/
theorem wsLine (X : List Char) :
    dropWsPlus (' ' :: ("line".data ++ X)) = some ("line".data ++ X) :=
  dropWsPlus_space_cons 'l' ("ine".data ++ X) (by decide)

/-- Bridge: a space before an opening quote. -/
theorem wsQuote (X : List Char) :
    dropWsPlus (' ' :: ('\'' :: X)) = some ('\'' :: X) :=
  dropWsPlus_space_cons '\'' X (by decide)

/-- Bridge: a quote literal before a remainder. -/
theorem dropQuoteLit (X : List Char) :
    dropLit "'".data ('\'' :: X) = some X :=
  dropLit_append "'".data X


/-- `lazyCloseQuote` finds the closing quote after a quote-free run. -/
theorem lazyCloseQuote_path (pt rest : List Char)
    (hpt : ∀ c ∈ pt, isWS c = false ∧ c ≠ '\'')
    (hrest : lineNumTail rest = true) :
    lazyCloseQuote (pt ++ '\'' :: rest) = true := by
  induction pt with
  | nil => simp [lazyCloseQuote, hrest]
  | cons c t ih =>
    have hc := hpt c (List.mem_cons_self c t)
    have hnl : ¬(c == '\n') = true := by
      simpa using ne_nl_of_isWS_false hc.1
    rw [List.cons_append, lazyCloseQuote]
    rw [ih (fun x hx => hpt x (List.mem_cons_of_mem c hx))]
    simp [hnl]


/-- A successful end match at any position makes `hasEndOfFrame` true. -/
theorem hasEndOfFrame_of_suffix (pre suf : List Char) (h : matchEndAt suf = true)
    (hne : suf ≠ []) : hasEndOfFrame (pre ++ suf) = true := by
  induction pre with
  | nil =>
    obtain ⟨c, t, rfl⟩ := List.exists_cons_of_ne_nil hne
    rw [List.nil_append, hasEndOfFrame, h]
    rfl
  | cons c t ih =>
    rw [List.cons_append, hasEndOfFrame, ih]
    simp

/-- `collapseWsAux` is the identity on whitespace-free text, under any flag. -/
theorem collapse_nonws (cs : List Char) (h : ∀ c ∈ cs, isWS c = false) (b : Bool) :
    collapseWsAux b cs = cs := by
  induction cs generalizing b with
  | nil => rfl
  | cons c t ih =>
    have hc := h c (List.mem_cons_self c t)
    simp [collapseWsAux, hc, ih (fun x hx => h x (List.mem_cons_of_mem c hx))]

/-- `collapseWsAux` walks through a whitespace-free token, a single space and
a remainder that is empty or starts with a non-whitespace character. -/
theorem collapse_chunk (tok rest : List Char) (htok : ∀ c ∈ tok, isWS c = false)
    (hrest : rest = [] ∨ ∃ d t, rest = d :: t ∧ isWS d = false) :
    collapseWsAux false (tok ++ ' ' :: rest)
      = tok ++ ' ' :: collapseWsAux false rest := by
  induction tok with
  | nil =>
    simp only [List.nil_append]
    rcases hrest with rfl | ⟨d, t, rfl, hd⟩
    · simp [collapseWsAux]
    · simp [collapseWsAux, hd]
  | cons c ct ih =>
    have hc := htok c (List.mem_cons_self c ct)
    simp only [List.cons_append, collapseWsAux, hc, List.append_eq,
      Bool.false_eq_true, if_false]
    rw [ih (fun x hx => htok x (List.mem_cons_of_mem c hx))]

/-- `trimEndCh` leaves a list ending in a non-whitespace character. -/
theorem trimEndCh_snoc (xs : List Char) (c : Char) (h : isWS c = false) :
    trimEndCh (xs ++ [c]) = xs ++ [c] := by
  unfold trimEndCh
  rw [List.reverse_append]
  simp [List.dropWhile_cons, h]

/-- `lazyGroup` captures exactly a group on which the tail fails at every
interior cut and succeeds right after it. -/
theorem lazyGroup_exact {β : Type} (T : List Char → Option β) (g s : List Char)
    (r : β) (hg : g ≠ []) (hnl : ∀ c ∈ g, c ≠ '\n')
    (hfail : ∀ c ∈ g, ∀ t, T (c :: t) = none)
    (hT : T s = some r) :
    lazyGroup T (g ++ s) = some (g, r) := by
  induction g with
  | nil => exact absurd rfl hg
  | cons c g' ih =>
    rw [List.cons_append, lazyGroup]
    have hcn : ¬(c == '\n') = true := by
      simpa using hnl c (List.mem_cons_self c g')
    rw [if_neg hcn]
    cases g' with
    | nil =>
      rw [List.nil_append, hT]
    | cons c2 g'' =>
      have hTfail : T (c2 :: (g'' ++ s)) = none :=
        hfail c2 (List.mem_cons_of_mem c (List.mem_cons_self c2 g'')) _
      rw [show (c2 :: g'') ++ s = c2 :: (g'' ++ s) from rfl, hTfail]
      rw [show c2 :: (g'' ++ s) = (c2 :: g'') ++ s from rfl]
      rw [ih (by simp) (fun x hx => hnl x (List.mem_cons_of_mem c hx))
        (fun x hx => hfail x (List.mem_cons_of_mem c hx))]

/-- `dropLit` of the quote literal fails on any other head. -/
theorem dropLit_quote_ne (c : Char) (t : List Char) (h : c ≠ '\'') :
    dropLit "'".data (c :: t) = none := by
  simp [dropLit, h]

/-- `calleeTail` fails when the head is not whitespace (the tail starts with
`\s+`). -/
theorem calleeTail_nonws_head (c : Char) (t : List Char) (h : isWS c = false) :
    calleeTail (c :: t) = none := by
  unfold calleeTail
  rw [dropWsPlus_nonws c t h]
  rfl

/-- `pathTail` fails when the head is not a quote. -/
theorem pathTail_nonquote_head (c : Char) (t : List Char) (h : c ≠ '\'') :
    pathTail (c :: t) = none := by
  unfold pathTail
  rw [dropLit_quote_ne c t h]
  rfl

/-- The rendered frame's tail after the callee and its following space, in the
fully right-nested association used by the matcher lemmas. -/
def frameTailM (pa ds : List Char) : List Char :=
  "called".data ++ (' ' :: ("from".data ++ (' ' :: ("file".data ++ (' ' ::
    ('\'' :: (pa ++ ('\'' :: (' ' :: ("line".data ++ (' ' :: ds)))))))))))

/-- `pathTail` captures the digit run after the closing quote. -/
theorem pathTail_eval (ds : List Char) (hne : ds ≠ [])
    (hdig : ∀ c ∈ ds, c.isDigit = true) :
    pathTail ('\'' :: (' ' :: ("line".data ++ (' ' :: ds)))) = some ds := by
  obtain ⟨d, dt, rfl⟩ := List.exists_cons_of_ne_nil hne
  have hd0 : isWS d = false :=
    isWS_eq_false_of_isDigit (hdig d (List.mem_cons_self d dt))
  unfold pathTail
  rw [dropQuoteLit]
  simp only [Option.some_bind]
  rw [wsLine]
  simp only [Option.some_bind]
  rw [dropLit_append "line".data]
  simp only [Option.some_bind]
  rw [dropWsPlus_space_cons d dt hd0]
  simp only [Option.some_bind]
  simp only [takeWhile_all (d :: dt) hdig]
  rfl

/-- `calleeTail` accepts the rendered tail and captures the path and digit
run. -/
theorem calleeTail_eval (pa ds : List Char)
    (hpa : pa ≠ []) (hpaw : ∀ c ∈ pa, isWS c = false ∧ c ≠ '\'')
    (hds : ds ≠ []) (hdig : ∀ c ∈ ds, c.isDigit = true) :
    calleeTail (' ' :: frameTailM pa ds) = some (pa, ds) := by
  unfold calleeTail frameTailM
  rw [wsCalled]
  simp only [Option.some_bind]
  rw [dropLit_append "called".data]
  simp only [Option.some_bind]
  rw [wsFrom]
  simp only [Option.some_bind]
  rw [dropLit_append "from".data]
  simp only [Option.some_bind]
  rw [wsFile]
  simp only [Option.some_bind]
  rw [dropLit_append "file".data]
  simp only [Option.some_bind]
  rw [wsQuote]
  simp only [Option.some_bind]
  rw [dropQuoteLit]
  simp only [Option.some_bind]
  exact lazyGroup_exact pathTail pa _ ds hpa
    (fun c hc => ne_nl_of_isWS_false (hpaw c hc).1)
    (fun c hc t => pathTail_nonquote_head c t (hpaw c hc).2)
    (pathTail_eval ds hds hdig)

/-- `tryDropsDown` at budget one, hitting on the first try. -/
theorem tryDropsDown_one_hit {β : Type} (F : List Char → Option β) (c : Char)
    (cs : List Char) (r : β) (h : F cs = some r) :
    tryDropsDown F 1 (c :: cs) = some r := by
  show (match F ((c :: cs).drop 1) with
    | some v => some v
    | none => tryDropsDown F 0 (c :: cs)) = some r
  rw [show (c :: cs).drop 1 = cs from rfl, h]

/-- The reassembly loop skips trailing noise lines, leaving the output
untouched. -/
theorem buildLogicalGo_noise (noise : List (List Char))
    (out : List (List Char))
    (hn : ∀ l ∈ noise, isStartPattern1 (stripComment l) = false) :
    buildLogicalGo noise [] out = out := by
  induction noise generalizing out with
  | nil => rfl
  | cons l rest ih =>
    have hl := hn l (List.mem_cons_self l rest)
    have hstart : isStartOfFrame [] (stripComment l) = false := by
      unfold isStartOfFrame
      rw [hl]
      rfl
    simp only [buildLogicalGo, List.isEmpty_nil, if_true, hstart,
      Bool.not_false, if_pos]
    exact ih out (fun x hx => hn x (List.mem_cons_of_mem l hx))

/-- `joinSp` distributes over append, inserting one separating space. -/
theorem joinSp_append (A B : List (List Char)) (hA : A ≠ []) (hB : B ≠ []) :
    joinSp (A ++ B) = joinSp A ++ ' ' :: joinSp B := by
  induction A with
  | nil => exact absurd rfl hA
  | cons t A' ih =>
    cases A' with
    | nil =>
      cases B with
      | nil => exact absurd rfl hB
      | cons b B' => rfl
    | cons t2 A'' =>
      have h2 : joinSp ((t :: t2 :: A'') ++ B)
          = t ++ ' ' :: joinSp ((t2 :: A'') ++ B) := rfl
      rw [h2, ih (by simp)]
      show t ++ ' ' :: (joinSp (t2 :: A'') ++ ' ' :: joinSp B)
        = (t ++ ' ' :: joinSp (t2 :: A'')) ++ ' ' :: joinSp B
      simp [List.append_assoc]

/-- Characters of a space-join are separators or token characters. -/
theorem mem_joinSp {c : Char} (ts : List (List Char)) (h : c ∈ joinSp ts) :
    c = ' ' ∨ ∃ t ∈ ts, c ∈ t := by
  induction ts with
  | nil => simp [joinSp] at h
  | cons t rest ih =>
    cases rest with
    | nil => exact Or.inr ⟨t, by simp, h⟩
    | cons t2 r2 =>
      rw [show joinSp (t :: t2 :: r2) = t ++ ' ' :: joinSp (t2 :: r2) from rfl] at h
      rcases List.mem_append.mp h with h1 | h2
      · exact Or.inr ⟨t, by simp, h1⟩
      rcases List.mem_cons.mp h2 with rfl | h3
      · exact Or.inl rfl
      rcases ih h3 with h4 | ⟨u, hu, hcu⟩
      · exact Or.inl h4
      · exact Or.inr ⟨u, List.mem_cons_of_mem t hu, hcu⟩

/-- A space-join of nonempty tokens is nonempty. -/
theorem joinSp_ne_nil (ts : List (List Char)) (hts : ts ≠ [])
    (h : ∀ t ∈ ts, t ≠ []) : joinSp ts ≠ [] := by
  cases ts with
  | nil => exact absurd rfl hts
  | cons t rest =>
    cases rest with
    | nil => exact h t (by simp)
    | cons t2 r2 =>
      show t ++ ' ' :: joinSp (t2 :: r2) ≠ []
      simp

/-- A space-join of nonempty whitespace-free tokens ends in a non-whitespace
character. -/
theorem joinSp_snoc_form (ts : List (List Char)) (hts : ts ≠ [])
    (h : ∀ t ∈ ts, t ≠ [] ∧ ∀ c ∈ t, isWS c = false) :
    ∃ Y d, joinSp ts = Y ++ [d] ∧ isWS d = false := by
  induction ts with
  | nil => exact absurd rfl hts
  | cons t rest ih =>
    cases rest with
    | nil =>
      obtain ⟨hne, hw⟩ := h t (by simp)
      refine ⟨t.dropLast, t.getLast hne, ?_, hw _ (List.getLast_mem hne)⟩
      exact (List.dropLast_append_getLast hne).symm
    | cons t2 r2 =>
      obtain ⟨Y, d, hYd, hd⟩ :=
        ih (by simp) (fun x hx => h x (List.mem_cons_of_mem t hx))
      refine ⟨t ++ ' ' :: Y, d, ?_, hd⟩
      show t ++ ' ' :: joinSp (t2 :: r2) = (t ++ ' ' :: Y) ++ [d]
      rw [hYd]
      simp [List.append_assoc]

/-- Trailing-whitespace trimming fixes a space-join of whitespace-free
tokens. -/
theorem trimEndCh_joinSp (ts : List (List Char)) (hts : ts ≠ [])
    (h : ∀ t ∈ ts, t ≠ [] ∧ ∀ c ∈ t, isWS c = false) :
    trimEndCh (joinSp ts) = joinSp ts := by
  obtain ⟨Y, d, hYd, hd⟩ := joinSp_snoc_form ts hts h
  rw [hYd]
  exact trimEndCh_snoc Y d hd

/-- `runTokJoin` distributes over append. -/
theorem runTokJoin_append (p q : List (List Char × List Char)) :
    runTokJoin (p ++ q) = runTokJoin p ++ runTokJoin q := by
  induction p with
  | nil => rfl
  | cons pr rest ih =>
    obtain ⟨r, t⟩ := pr
    show r ++ (t ++ runTokJoin (rest ++ q)) = (r ++ (t ++ runTokJoin rest)) ++ runTokJoin q
    rw [ih]
    simp [List.append_assoc]

/-- Pairing of a token group with its leading run: the group's first token
gets the run, the rest single spaces. -/
def pairsOf (r₀ : List Char) (g : List (List Char)) :
    List (List Char × List Char) :=
  match g with
  | [] => []
  | t :: rest => (r₀, t) :: rest.map (fun u => ([' '], u))

/-- The run/token join of a paired group is the run and its space-join. -/
theorem runTokJoin_pairsOf (r₀ : List Char) (g : List (List Char))
    (hg : g ≠ []) : runTokJoin (pairsOf r₀ g) = r₀ ++ joinSp g := by
  obtain ⟨t₀, ts, rfl⟩ := List.exists_cons_of_ne_nil hg
  induction ts generalizing r₀ t₀ with
  | nil => show r₀ ++ (t₀ ++ []) = r₀ ++ t₀; simp
  | cons t2 r2 ih =>
    show r₀ ++ (t₀ ++ runTokJoin (([' '], t2) :: r2.map (fun u => ([' '], u))))
      = r₀ ++ joinSp (t₀ :: t2 :: r2)
    rw [show runTokJoin (([' '], t2) :: r2.map (fun u => ([' '], u)))
        = runTokJoin (pairsOf [' '] (t2 :: r2)) from rfl]
    rw [ih [' '] t2 (by simp)]
    rfl

/-- The tokens of a paired group are the group. -/
theorem pairsOf_map_snd (r₀ : List Char) (g : List (List Char)) :
    (pairsOf r₀ g).map Prod.snd = g := by
  cases g with
  | nil => rfl
  | cons t rest =>
    show t :: (rest.map (fun u => ([' '], u))).map Prod.snd = t :: rest
    rw [List.map_map]
    simp

/-- `dropWhile` passes over a whitespace run. -/
theorem dropWhile_run (r X : List Char) (hr : ∀ c ∈ r, isWS c = true) :
    (r ++ X).dropWhile isWS = X.dropWhile isWS := by
  induction r with
  | nil => rfl
  | cons c r' ih =>
    rw [List.cons_append, List.dropWhile_cons,
      if_pos (hr c (List.mem_cons_self c r'))]
    exact ih (fun x hx => hr x (List.mem_cons_of_mem c hx))

/-- `dropWsPlus` consumes a whitespace run before a non-whitespace
character. -/
theorem dropWsPlus_run (r X : List Char) (hr : r ≠ [])
    (hrw : ∀ c ∈ r, isWS c = true)
    (hX : ∃ d t, X = d :: t ∧ isWS d = false) :
    dropWsPlus (r ++ X) = some X := by
  obtain ⟨c, r', rfl⟩ := List.exists_cons_of_ne_nil hr
  obtain ⟨d, t, hX', hd⟩ := hX
  show (if isWS c = true then some (List.dropWhile isWS ((c :: r') ++ X))
    else none) = some X
  rw [if_pos (hrw c (List.mem_cons_self c r'))]
  rw [show (c :: r') ++ X = c :: (r' ++ X) from rfl, List.dropWhile_cons,
    if_pos (hrw c (List.mem_cons_self c r')),
    dropWhile_run r' X (fun x hx => hrw x (List.mem_cons_of_mem c hx))]
  rw [hX', List.dropWhile_cons, if_neg (by rw [hd]; exact Bool.false_ne_true)]

/-- `dropWsPlus` consumes a trailing whitespace run entirely. -/
theorem dropWsPlus_all_ws (r : List Char) (hr : r ≠ [])
    (hrw : ∀ c ∈ r, isWS c = true) : dropWsPlus r = some [] := by
  obtain ⟨c, r', rfl⟩ := List.exists_cons_of_ne_nil hr
  show (if isWS c = true then some (List.dropWhile isWS (c :: r')) else none)
    = some []
  rw [if_pos (hrw c (List.mem_cons_self c r')), List.dropWhile_cons,
    if_pos (hrw c (List.mem_cons_self c r'))]
  rw [show r' = r' ++ ([] : List Char) from by simp,
    dropWhile_run r' [] (fun x hx => hrw x (List.mem_cons_of_mem c hx))]
  rfl

/-- `lineNumTail` accepts whitespace runs, `line`, and a digit head. -/
theorem lineNumTail_eval_run (r₄ r₅ : List Char) (d : Char) (dt tl : List Char)
    (hr₄ : r₄ ≠ []) (hr₄w : ∀ c ∈ r₄, isWS c = true)
    (hr₅ : r₅ ≠ []) (hr₅w : ∀ c ∈ r₅, isWS c = true)
    (hd : d.isDigit = true) :
    lineNumTail (r₄ ++ ("line".data ++ (r₅ ++ (d :: dt ++ tl)))) = true := by
  have hd0 : isWS d = false := isWS_eq_false_of_isDigit hd
  unfold lineNumTail
  rw [dropWsPlus_run r₄ ("line".data ++ (r₅ ++ (d :: dt ++ tl))) hr₄ hr₄w
    ⟨'l', _, rfl, by decide⟩]
  simp only [Option.some_bind]
  rw [dropLit_append "line".data]
  simp only [Option.some_bind]
  rw [dropWsPlus_run r₅ (d :: dt ++ tl) hr₅ hr₅w ⟨d, dt ++ tl, rfl, hd0⟩]
  simp only [Option.some_bind]
  simp [hd]

/-- `lineNumTail` rejects a pure-whitespace tail. -/
theorem lineNumTail_all_ws (r : List Char) (hr : r ≠ [])
    (hrw : ∀ c ∈ r, isWS c = true) : lineNumTail r = false := by
  unfold lineNumTail
  rw [dropWsPlus_all_ws r hr hrw]
  rfl

/-- `lineNumTail` rejects a tail whose digit position is exhausted. -/
theorem lineNumTail_line_no_digit (r₄ r₅ : List Char)
    (hr₄ : r₄ ≠ []) (hr₄w : ∀ c ∈ r₄, isWS c = true)
    (hr₅ : r₅ ≠ []) (hr₅w : ∀ c ∈ r₅, isWS c = true) :
    lineNumTail (r₄ ++ ("line".data ++ r₅)) = false := by
  unfold lineNumTail
  rw [dropWsPlus_run r₄ ("line".data ++ r₅) hr₄ hr₄w ⟨'l', _, rfl, by decide⟩]
  simp only [Option.some_bind]
  rw [dropLit_append "line".data]
  simp only [Option.some_bind]
  rw [dropWsPlus_all_ws r₅ hr₅ hr₅w]
  rfl

/-- `lazyCloseQuote` fails on quote-free text. -/
theorem lazyCloseQuote_no_quote (l : List Char) (h : ∀ c ∈ l, c ≠ '\'') :
    lazyCloseQuote l = false := by
  induction l with
  | nil => rfl
  | cons c rest ih =>
    rw [lazyCloseQuote]
    have hcq : (c == '\'') = false := by
      simpa using h c (List.mem_cons_self c rest)
    rw [hcq, ih (fun x hx => h x (List.mem_cons_of_mem c hx))]
    simp

/-- `lazyCloseQuote` scans through a quote-free run onto a closing quote
whose tail fails both continuations. -/
theorem lazyCloseQuote_through (pt S : List Char)
    (hpt : ∀ c ∈ pt, isWS c = false ∧ c ≠ '\'')
    (h1 : lineNumTail S = false) (h2 : lazyCloseQuote S = false) :
    lazyCloseQuote (pt ++ '\'' :: S) = false := by
  induction pt with
  | nil =>
    rw [List.nil_append, lazyCloseQuote, h1, h2]
    simp
  | cons c t ih =>
    have hc := hpt c (List.mem_cons_self c t)
    have hcq : (c == '\'') = false := by simpa using hc.2
    rw [List.cons_append, lazyCloseQuote, hcq,
      ih (fun x hx => hpt x (List.mem_cons_of_mem c hx))]
    simp

/-- `matchEndAt` accepts the end-of-frame pattern with arbitrary whitespace
runs between its words and arbitrary text after the digit. -/
theorem matchEndAt_eval_run (pa r₁ r₂ r₃ r₄ r₅ : List Char) (d : Char)
    (dt tl : List Char)
    (hpa : pa ≠ []) (hpc : ∀ c ∈ pa, isWS c = false ∧ c ≠ '\'')
    (hr₁ : r₁ ≠ []) (hr₁w : ∀ c ∈ r₁, isWS c = true)
    (hr₂ : r₂ ≠ []) (hr₂w : ∀ c ∈ r₂, isWS c = true)
    (hr₃ : r₃ ≠ []) (hr₃w : ∀ c ∈ r₃, isWS c = true)
    (hr₄ : r₄ ≠ []) (hr₄w : ∀ c ∈ r₄, isWS c = true)
    (hr₅ : r₅ ≠ []) (hr₅w : ∀ c ∈ r₅, isWS c = true)
    (hd : d.isDigit = true) :
    matchEndAt ("called".data ++ (r₁ ++ ("from".data ++ (r₂ ++
      ("file".data ++ (r₃ ++ (('\'' :: (pa ++ ['\''])) ++ (r₄ ++
        ("line".data ++ (r₅ ++ (d :: dt ++ tl))))))))))) = true := by
  obtain ⟨p0, pt, rfl⟩ := List.exists_cons_of_ne_nil hpa
  have hp0 := hpc p0 (List.mem_cons_self p0 pt)
  unfold matchEndAt
  rw [dropLit_append "called".data]
  simp only [Option.some_bind]
  rw [dropWsPlus_run r₁ ("from".data ++ (r₂ ++ ("file".data ++ (r₃ ++
    (('\'' :: ((p0 :: pt) ++ ['\''])) ++ (r₄ ++ ("line".data ++
      (r₅ ++ (d :: dt ++ tl))))))))) hr₁ hr₁w ⟨'f', _, rfl, by decide⟩]
  simp only [Option.some_bind]
  rw [dropLit_append "from".data]
  simp only [Option.some_bind]
  rw [dropWsPlus_run r₂ ("file".data ++ (r₃ ++ (('\'' :: ((p0 :: pt) ++
    ['\''])) ++ (r₄ ++ ("line".data ++ (r₅ ++ (d :: dt ++ tl)))))))
    hr₂ hr₂w ⟨'f', _, rfl, by decide⟩]
  simp only [Option.some_bind]
  rw [dropLit_append "file".data]
  simp only [Option.some_bind]
  rw [dropWsPlus_run r₃ (('\'' :: ((p0 :: pt) ++ ['\''])) ++ (r₄ ++
    ("line".data ++ (r₅ ++ (d :: dt ++ tl))))) hr₃ hr₃w
    ⟨'\'', _, rfl, by decide⟩]
  simp only [Option.some_bind]
  rw [show ('\'' :: ((p0 :: pt) ++ ['\''])) ++ (r₄ ++
      ("line".data ++ (r₅ ++ (d :: dt ++ tl))))
      = '\'' :: (((p0 :: pt) ++ ['\'']) ++ (r₄ ++
        ("line".data ++ (r₅ ++ (d :: dt ++ tl))))) from rfl]
  rw [dropQuoteLit]
  simp only [Option.some_bind]
  rw [show ((p0 :: pt) ++ ['\'']) ++ (r₄ ++
      ("line".data ++ (r₅ ++ (d :: dt ++ tl))))
      = p0 :: (pt ++ '\'' :: (r₄ ++
        ("line".data ++ (r₅ ++ (d :: dt ++ tl))))) from by simp]
  have hclose : lazyCloseQuote (pt ++ '\'' :: (r₄ ++
      ("line".data ++ (r₅ ++ (d :: dt ++ tl))))) = true := by
    refine lazyCloseQuote_path pt _
      (fun x hx => hpc x (List.mem_cons_of_mem p0 hx)) ?_
    exact lineNumTail_eval_run r₄ r₅ d dt tl hr₄ hr₄w hr₅ hr₅w hd
  have hp0nl : ¬(p0 == '\n') = true := by
    simpa using ne_nl_of_isWS_false hp0.1
  show (if (p0 == '\n') = true then none
      else if lazyCloseQuote (pt ++ '\'' :: (r₄ ++
        ("line".data ++ (r₅ ++ (d :: dt ++ tl))))) = true
      then some () else none : Option Unit).isSome = true
  rw [if_neg hp0nl, if_pos hclose]
  rfl

/-- `dropLit` fails on a mismatched head. -/
theorem dropLit_head_ne (l0 : Char) (lt : List Char) (c : Char)
    (cs : List Char) (h : c ≠ l0) : dropLit (l0 :: lt) (c :: cs) = none := by
  unfold dropLit
  have hne : List.take (l0 :: lt).length (c :: cs) ≠ l0 :: lt := by
    rw [List.length_cons, List.take_succ_cons]
    intro hco
    injection hco with h1 _
    exact h h1
  rw [if_neg (by simpa using hne)]

/-- `matchEndAt` fails when the head is not `c`. -/
theorem matchEndAt_head_ne (c : Char) (R : List Char) (h : c ≠ 'c') :
    matchEndAt (c :: R) = false := by
  unfold matchEndAt
  rw [show ("called".data : List Char) = 'c' :: "alled".data from rfl,
    dropLit_head_ne 'c' "alled".data c R h]
  rfl

/-- `dropLit` of `called` at a whitespace-followed token either fails or
leaves a nonempty whitespace-free remainder. -/
theorem calledWs_split (t R : List Char) (ht : t ≠ [])
    (htw : ∀ c ∈ t, isWS c = false)
    (hnc : ¬ List.IsSuffix "called".data t)
    (hR : R = [] ∨ ∃ w R', R = w :: R' ∧ isWS w = true) :
    dropLit "called".data (t ++ R) = none ∨
    ∃ u₂, u₂ ≠ [] ∧ (∀ c ∈ u₂, isWS c = false) ∧
      dropLit "called".data (t ++ R) = some (u₂ ++ R) := by
  by_cases hpre : List.IsPrefix "called".data t
  · obtain ⟨u₂, hu₂⟩ := hpre
    cases u₂ with
    | nil =>
      exfalso
      apply hnc
      rw [← hu₂]
      simp
    | cons a u₂' =>
      refine Or.inr ⟨a :: u₂', by simp, ?_, ?_⟩
      · intro x hx
        apply htw
        rw [← hu₂]
        exact List.mem_append_right _ hx
      · rw [← hu₂, List.append_assoc]
        exact dropLit_append "called".data _
  · left
    unfold dropLit
    rw [if_neg ?hcond]
    case hcond =>
      intro hbeq
      have htake : (t ++ R).take ("called".data).length = "called".data := by
        simpa using hbeq
      by_cases hlen : ("called".data).length ≤ t.length
      · apply hpre
        refine ⟨t.drop ("called".data).length, ?_⟩
        have ht6 : t.take ("called".data).length = "called".data := by
          rw [← List.take_append_of_le_length hlen]
          exact htake
        have hsplit := List.take_append_drop ("called".data).length t
        rw [ht6] at hsplit
        exact hsplit
      · push_neg at hlen
        rcases hR with rfl | ⟨w, R', rfl, hw⟩
        · rw [List.append_nil] at htake
          rw [List.take_of_length_le (le_of_lt hlen)] at htake
          rw [htake] at hlen
          exact absurd hlen (lt_irrefl _)
        · have hsome : ("called".data)[t.length]? = some w := by
            rw [← htake]
            rw [List.getElem?_take_of_lt (by simpa using hlen)]
            rw [List.getElem?_append_right (le_refl t.length)]
            simp
          have hmem : w ∈ "called".data := List.getElem?_mem hsome
          have hall : ∀ c ∈ "called".data, isWS c = false := by decide
          rw [hall w hmem] at hw
          exact Bool.noConfusion hw

/-- `matchEndAt` fails at any position inside a whitespace-followed token not
ending in `called`. -/
theorem matchEndAt_false_within (u R : List Char) (hu : u ≠ [])
    (huw : ∀ c ∈ u, isWS c = false)
    (hnc : ¬ List.IsSuffix "called".data u)
    (hR : R = [] ∨ ∃ w R', R = w :: R' ∧ isWS w = true) :
    matchEndAt (u ++ R) = false := by
  rcases calledWs_split u R hu huw hnc hR with hnone | ⟨u₂, hne, hw2, hsome⟩
  · unfold matchEndAt
    rw [hnone]
    rfl
  · unfold matchEndAt
    rw [hsome]
    simp only [Option.some_bind]
    obtain ⟨d, t', rfl⟩ := List.exists_cons_of_ne_nil hne
    rw [show (d :: t') ++ R = d :: (t' ++ R) from rfl,
      dropWsPlus_nonws d _ (hw2 d (List.mem_cons_self d t'))]
    rfl

/-- The end scan passes over a whitespace character. -/
theorem hasEnd_false_ws_cons (c : Char) (R : List Char) (hc : isWS c = true)
    (hR : hasEndOfFrame R = false) : hasEndOfFrame (c :: R) = false := by
  have hcc : c ≠ 'c' := by
    intro h
    rw [h] at hc
    exact absurd hc (by decide)
  rw [hasEndOfFrame, matchEndAt_head_ne c R hcc, hR]
  rfl

/-- The end scan passes over a whitespace run. -/
theorem hasEnd_false_run (r R : List Char) (hrw : ∀ c ∈ r, isWS c = true)
    (hR : hasEndOfFrame R = false) : hasEndOfFrame (r ++ R) = false := by
  induction r with
  | nil => exact hR
  | cons c r' ih =>
    rw [show (c :: r') ++ R = c :: (r' ++ R) from rfl]
    exact hasEnd_false_ws_cons c _ (hrw c (List.mem_cons_self c r'))
      (ih (fun x hx => hrw x (List.mem_cons_of_mem c hx)))

/-- The end scan passes over a whitespace-followed token that does not end
in `called`. -/
theorem hasEnd_false_safe (t R : List Char)
    (htw : ∀ c ∈ t, isWS c = false)
    (hnc : ¬ List.IsSuffix "called".data t)
    (hRhead : R = [] ∨ ∃ w R', R = w :: R' ∧ isWS w = true)
    (hR : hasEndOfFrame R = false) :
    hasEndOfFrame (t ++ R) = false := by
  induction t with
  | nil => exact hR
  | cons c t' ih =>
    have h1 : matchEndAt ((c :: t') ++ R) = false :=
      matchEndAt_false_within (c :: t') R (by simp) htw hnc hRhead
    have h2 : hasEndOfFrame (t' ++ R) = false := by
      refine ih (fun x hx => htw x (List.mem_cons_of_mem c hx)) ?_
      intro hsuf
      exact hnc (hsuf.trans ⟨[c], rfl⟩)
    show hasEndOfFrame (c :: (t' ++ R)) = false
    rw [hasEndOfFrame]
    rw [show c :: (t' ++ R) = (c :: t') ++ R from rfl, h1, h2]
    rfl

/-- The end scan passes over the `called` token itself when the continuation
fails at its head. -/
theorem hasEnd_false_called (ZQ : List Char)
    (hhead : matchEndAt ("called".data ++ ZQ) = false)
    (hZ : hasEndOfFrame ZQ = false) :
    hasEndOfFrame ("called".data ++ ZQ) = false := by
  show hasEndOfFrame ('c' :: ('a' :: ('l' :: ('l' :: ('e' :: ('d' :: ZQ))))))
    = false
  rw [hasEndOfFrame]
  rw [show 'c' :: ('a' :: ('l' :: ('l' :: ('e' :: ('d' :: ZQ)))))
      = "called".data ++ ZQ from rfl, hhead]
  rw [hasEndOfFrame, matchEndAt_head_ne 'a' _ (by decide)]
  rw [hasEndOfFrame, matchEndAt_head_ne 'l' _ (by decide)]
  rw [hasEndOfFrame, matchEndAt_head_ne 'l' _ (by decide)]
  rw [hasEndOfFrame, matchEndAt_head_ne 'e' _ (by decide)]
  rw [hasEndOfFrame, matchEndAt_head_ne 'd' _ (by decide)]
  rw [hZ]
  rfl

/-- Incomplete tail, zone `called |`: the match dies looking for `from`. -/
theorem matchEnd_zoneB (r : List Char) (hr : r ≠ [])
    (hrw : ∀ c ∈ r, isWS c = true) :
    matchEndAt ("called".data ++ r) = false := by
  unfold matchEndAt
  rw [dropLit_append "called".data]
  simp only [Option.some_bind]
  rw [dropWsPlus_all_ws r hr hrw]
  rfl

/-- Incomplete tail, zone `called from |`: the match dies looking for
`file`. -/
theorem matchEnd_zoneC (r₁ r₂ : List Char)
    (hr₁ : r₁ ≠ []) (hr₁w : ∀ c ∈ r₁, isWS c = true)
    (hr₂ : r₂ ≠ []) (hr₂w : ∀ c ∈ r₂, isWS c = true) :
    matchEndAt ("called".data ++ (r₁ ++ ("from".data ++ r₂))) = false := by
  unfold matchEndAt
  rw [dropLit_append "called".data]
  simp only [Option.some_bind]
  rw [dropWsPlus_run r₁ ("from".data ++ r₂) hr₁ hr₁w ⟨'f', _, rfl, by decide⟩]
  simp only [Option.some_bind]
  rw [dropLit_append "from".data]
  simp only [Option.some_bind]
  rw [dropWsPlus_all_ws r₂ hr₂ hr₂w]
  rfl

/-- Incomplete tail, zone `called from file |`: the match dies looking for
the opening quote. -/
theorem matchEnd_zoneD (r₁ r₂ r₃ : List Char)
    (hr₁ : r₁ ≠ []) (hr₁w : ∀ c ∈ r₁, isWS c = true)
    (hr₂ : r₂ ≠ []) (hr₂w : ∀ c ∈ r₂, isWS c = true)
    (hr₃ : r₃ ≠ []) (hr₃w : ∀ c ∈ r₃, isWS c = true) :
    matchEndAt ("called".data ++ (r₁ ++ ("from".data ++ (r₂ ++
      ("file".data ++ r₃))))) = false := by
  unfold matchEndAt
  rw [dropLit_append "called".data]
  simp only [Option.some_bind]
  rw [dropWsPlus_run r₁ ("from".data ++ (r₂ ++ ("file".data ++ r₃)))
    hr₁ hr₁w ⟨'f', _, rfl, by decide⟩]
  simp only [Option.some_bind]
  rw [dropLit_append "from".data]
  simp only [Option.some_bind]
  rw [dropWsPlus_run r₂ ("file".data ++ r₃) hr₂ hr₂w ⟨'f', _, rfl, by decide⟩]
  simp only [Option.some_bind]
  rw [dropLit_append "file".data]
  simp only [Option.some_bind]
  rw [dropWsPlus_all_ws r₃ hr₃ hr₃w]
  rfl

/-- Incomplete tail, zone `called from file 'path' |`: no closing-quote tail
carries `line` and a digit yet. -/
theorem matchEnd_zoneE (pa r₁ r₂ r₃ r₄ : List Char)
    (hpa : pa ≠ []) (hpc : ∀ c ∈ pa, isWS c = false ∧ c ≠ '\'')
    (hr₁ : r₁ ≠ []) (hr₁w : ∀ c ∈ r₁, isWS c = true)
    (hr₂ : r₂ ≠ []) (hr₂w : ∀ c ∈ r₂, isWS c = true)
    (hr₃ : r₃ ≠ []) (hr₃w : ∀ c ∈ r₃, isWS c = true)
    (hr₄ : r₄ ≠ []) (hr₄w : ∀ c ∈ r₄, isWS c = true) :
    matchEndAt ("called".data ++ (r₁ ++ ("from".data ++ (r₂ ++
      ("file".data ++ (r₃ ++ (('\'' :: (pa ++ ['\''])) ++ r₄))))))) = false := by
  obtain ⟨p0, pt, rfl⟩ := List.exists_cons_of_ne_nil hpa
  have hp0 := hpc p0 (List.mem_cons_self p0 pt)
  unfold matchEndAt
  rw [dropLit_append "called".data]
  simp only [Option.some_bind]
  rw [dropWsPlus_run r₁ ("from".data ++ (r₂ ++ ("file".data ++ (r₃ ++
    (('\'' :: ((p0 :: pt) ++ ['\''])) ++ r₄))))) hr₁ hr₁w
    ⟨'f', _, rfl, by decide⟩]
  simp only [Option.some_bind]
  rw [dropLit_append "from".data]
  simp only [Option.some_bind]
  rw [dropWsPlus_run r₂ ("file".data ++ (r₃ ++
    (('\'' :: ((p0 :: pt) ++ ['\''])) ++ r₄))) hr₂ hr₂w
    ⟨'f', _, rfl, by decide⟩]
  simp only [Option.some_bind]
  rw [dropLit_append "file".data]
  simp only [Option.some_bind]
  rw [dropWsPlus_run r₃ (('\'' :: ((p0 :: pt) ++ ['\''])) ++ r₄) hr₃ hr₃w
    ⟨'\'', _, rfl, by decide⟩]
  simp only [Option.some_bind]
  rw [show ('\'' :: ((p0 :: pt) ++ ['\''])) ++ r₄
      = '\'' :: (((p0 :: pt) ++ ['\'']) ++ r₄) from rfl]
  rw [dropQuoteLit]
  simp only [Option.some_bind]
  rw [show ((p0 :: pt) ++ ['\'']) ++ r₄ = p0 :: (pt ++ '\'' :: r₄) from by simp]
  have hnq : ∀ c ∈ r₄, c ≠ '\'' := by
    intro c hc he
    have h2 := hr₄w c hc
    rw [he] at h2
    exact absurd h2 (by decide)
  have hlcq : lazyCloseQuote (pt ++ '\'' :: r₄) = false :=
    lazyCloseQuote_through pt r₄
      (fun x hx => hpc x (List.mem_cons_of_mem p0 hx))
      (lineNumTail_all_ws r₄ hr₄ hr₄w)
      (lazyCloseQuote_no_quote r₄ hnq)
  have hp0nl : ¬(p0 == '\n') = true := by
    simpa using ne_nl_of_isWS_false hp0.1
  show (if (p0 == '\n') = true then none
      else if lazyCloseQuote (pt ++ '\'' :: r₄) = true
      then some () else none : Option Unit).isSome = false
  rw [if_neg hp0nl, if_neg (by rw [hlcq]; exact Bool.false_ne_true)]
  rfl

/-- Incomplete tail, zone `called from file 'path' line |`: the digit is
still missing. -/
theorem matchEnd_zoneF (pa r₁ r₂ r₃ r₄ r₅ : List Char)
    (hpa : pa ≠ []) (hpc : ∀ c ∈ pa, isWS c = false ∧ c ≠ '\'')
    (hr₁ : r₁ ≠ []) (hr₁w : ∀ c ∈ r₁, isWS c = true)
    (hr₂ : r₂ ≠ []) (hr₂w : ∀ c ∈ r₂, isWS c = true)
    (hr₃ : r₃ ≠ []) (hr₃w : ∀ c ∈ r₃, isWS c = true)
    (hr₄ : r₄ ≠ []) (hr₄w : ∀ c ∈ r₄, isWS c = true)
    (hr₅ : r₅ ≠ []) (hr₅w : ∀ c ∈ r₅, isWS c = true) :
    matchEndAt ("called".data ++ (r₁ ++ ("from".data ++ (r₂ ++
      ("file".data ++ (r₃ ++ (('\'' :: (pa ++ ['\''])) ++ (r₄ ++
        ("line".data ++ r₅))))))))) = false := by
  obtain ⟨p0, pt, rfl⟩ := List.exists_cons_of_ne_nil hpa
  have hp0 := hpc p0 (List.mem_cons_self p0 pt)
  unfold matchEndAt
  rw [dropLit_append "called".data]
  simp only [Option.some_bind]
  rw [dropWsPlus_run r₁ ("from".data ++ (r₂ ++ ("file".data ++ (r₃ ++
    (('\'' :: ((p0 :: pt) ++ ['\''])) ++ (r₄ ++ ("line".data ++ r₅)))))))
    hr₁ hr₁w ⟨'f', _, rfl, by decide⟩]
  simp only [Option.some_bind]
  rw [dropLit_append "from".data]
  simp only [Option.some_bind]
  rw [dropWsPlus_run r₂ ("file".data ++ (r₃ ++
    (('\'' :: ((p0 :: pt) ++ ['\''])) ++ (r₄ ++ ("line".data ++ r₅)))))
    hr₂ hr₂w ⟨'f', _, rfl, by decide⟩]
  simp only [Option.some_bind]
  rw [dropLit_append "file".data]
  simp only [Option.some_bind]
  rw [dropWsPlus_run r₃ (('\'' :: ((p0 :: pt) ++ ['\''])) ++ (r₄ ++
    ("line".data ++ r₅))) hr₃ hr₃w ⟨'\'', _, rfl, by decide⟩]
  simp only [Option.some_bind]
  rw [show ('\'' :: ((p0 :: pt) ++ ['\''])) ++ (r₄ ++ ("line".data ++ r₅))
      = '\'' :: (((p0 :: pt) ++ ['\'']) ++ (r₄ ++ ("line".data ++ r₅)))
    from rfl]
  rw [dropQuoteLit]
  simp only [Option.some_bind]
  rw [show ((p0 :: pt) ++ ['\'']) ++ (r₄ ++ ("line".data ++ r₅))
      = p0 :: (pt ++ '\'' :: (r₄ ++ ("line".data ++ r₅))) from by simp]
  have hnq : ∀ c ∈ r₄ ++ ("line".data ++ r₅), c ≠ '\'' := by
    intro c hc he
    rcases List.mem_append.mp hc with h1 | h2
    · have h3 := hr₄w c h1
      rw [he] at h3
      exact absurd h3 (by decide)
    rcases List.mem_append.mp h2 with h3 | h4
    · rw [he] at h3
      exact absurd h3 (by decide)
    · have h5 := hr₅w c h4
      rw [he] at h5
      exact absurd h5 (by decide)
  have hlcq : lazyCloseQuote (pt ++ '\'' :: (r₄ ++ ("line".data ++ r₅)))
      = false :=
    lazyCloseQuote_through pt _
      (fun x hx => hpc x (List.mem_cons_of_mem p0 hx))
      (lineNumTail_line_no_digit r₄ r₅ hr₄ hr₄w hr₅ hr₅w)
      (lazyCloseQuote_no_quote _ hnq)
  have hp0nl : ¬(p0 == '\n') = true := by
    simpa using ne_nl_of_isWS_false hp0.1
  show (if (p0 == '\n') = true then none
      else if lazyCloseQuote (pt ++ '\'' :: (r₄ ++ ("line".data ++ r₅))) = true
      then some () else none : Option Unit).isSome = false
  rw [if_neg hp0nl, if_neg (by rw [hlcq]; exact Bool.false_ne_true)]
  rfl

/-- Accumulator shape: each pair is a pure-space run followed by a nonempty
whitespace-free token, and every run after the first is nonempty. -/
def AccPairs : List (List Char × List Char) → Prop
  | [] => True
  | (r, t) :: rest =>
    (∀ c ∈ r, c = ' ') ∧ t ≠ [] ∧ (∀ c ∈ t, isWS c = false) ∧
    (rest = [] ∨ ∃ r' t' rest', rest = (r', t') :: rest' ∧ r' ≠ []) ∧
    AccPairs rest

/-- `AccPairs` descends to the right part of an append. -/
theorem AccPairs_right (xs ys : List (List Char × List Char))
    (h : AccPairs (xs ++ ys)) : AccPairs ys := by
  induction xs with
  | nil => exact h
  | cons x xs' ih =>
    obtain ⟨r, t⟩ := x
    exact ih h.2.2.2.2

/-- `AccPairs` descends to the left part of an append. -/
theorem AccPairs_left (xs ys : List (List Char × List Char))
    (h : AccPairs (xs ++ ys)) : AccPairs xs := by
  induction xs with
  | nil => trivial
  | cons x xs' ih =>
    obtain ⟨r, t⟩ := x
    obtain ⟨h1, h2, h3, h4, h5⟩ := h
    refine ⟨h1, h2, h3, ?_, ih h5⟩
    cases xs' with
    | nil => exact Or.inl rfl
    | cons y ys' =>
      obtain ⟨r', t'⟩ := y
      rcases h4 with h4 | ⟨r'', t'', rest'', heq, hne⟩
      · exact absurd h4 (by simp)
      · refine Or.inr ⟨r', t', ys', rfl, ?_⟩
        rw [List.append_eq, List.cons_append] at heq
        injection heq with heq1 _
        injection heq1 with heq2 _
        rw [heq2]
        exact hne

/-- In a well-shaped accumulator, the run of a non-leading pair is
nonempty. -/
theorem AccPairs_mid_run (xs : List (List Char × List Char))
    (r t : List Char) (ys : List (List Char × List Char))
    (h : AccPairs (xs ++ (r, t) :: ys)) (hxs : xs ≠ []) : r ≠ [] := by
  induction xs with
  | nil => exact absurd rfl hxs
  | cons x xs' ih =>
    obtain ⟨rx, tx⟩ := x
    obtain ⟨-, -, -, h4, h5⟩ := h
    cases xs' with
    | nil =>
      rcases h4 with h4 | ⟨r', t', rest', heq, hne⟩
      · exact absurd h4 (by simp)
      · rw [List.append_eq, List.nil_append] at heq
        injection heq with heq1 _
        injection heq1 with heq2 _
        rw [← heq2] at hne
        exact hne
    | cons y ys' => exact ih h5 (by simp)

/-- Gluing accumulator shapes at a junction whose incoming run is
nonempty. -/
theorem AccPairs_glue (xs ys : List (List Char × List Char))
    (hx : AccPairs xs) (hy : AccPairs ys)
    (hj : ys = [] ∨ ∃ r t rest, ys = (r, t) :: rest ∧ r ≠ []) :
    AccPairs (xs ++ ys) := by
  induction xs with
  | nil => exact hy
  | cons x xs' ih =>
    obtain ⟨r, t⟩ := x
    obtain ⟨h1, h2, h3, h4, h5⟩ := hx
    refine ⟨h1, h2, h3, ?_, ih h5⟩
    cases xs' with
    | nil =>
      rcases hj with rfl | ⟨r', t', rest', rfl, hne⟩
      · exact Or.inl rfl
      · exact Or.inr ⟨r', t', rest', rfl, hne⟩
    | cons y ys' =>
      obtain ⟨r', t'⟩ := y
      rcases h4 with h4 | ⟨r'', t'', rest'', heq, hne⟩
      · exact absurd h4 (by simp)
      · injection heq with heq1 heq2
        injection heq1 with ha hb
        refine Or.inr ⟨r', t', ys' ++ ys, ?_, ?_⟩
        · show ((r', t') :: ys') ++ ys = (r', t') :: (ys' ++ ys)
          rfl
        · rw [ha]
          exact hne

/-- A space-run pairing of usable tokens is well-shaped. -/
theorem AccPairs_map_sp (g : List (List Char))
    (hg : ∀ t ∈ g, t ≠ [] ∧ ∀ c ∈ t, isWS c = false) :
    AccPairs (g.map (fun u => ([' '], u))) := by
  induction g with
  | nil => trivial
  | cons t rest ih =>
    obtain ⟨h1, h2⟩ := hg t (by simp)
    refine ⟨by intro c hc; simpa using hc, h1, h2, ?_,
      ih (fun x hx => hg x (List.mem_cons_of_mem t hx))⟩
    cases rest with
    | nil => exact Or.inl (by simp)
    | cons t2 r2 =>
      exact Or.inr ⟨[' '], t2, r2.map (fun u => ([' '], u)), rfl, by simp⟩

/-- A paired group over space-only runs and usable tokens is well-shaped. -/
theorem AccPairs_pairsOf (r₀ : List Char) (g : List (List Char))
    (hr₀ : ∀ c ∈ r₀, c = ' ')
    (hg : ∀ t ∈ g, t ≠ [] ∧ ∀ c ∈ t, isWS c = false) :
    AccPairs (pairsOf r₀ g) := by
  cases g with
  | nil => trivial
  | cons t rest =>
    obtain ⟨h1, h2⟩ := hg t (by simp)
    refine ⟨hr₀, h1, h2, ?_,
      AccPairs_map_sp rest (fun x hx => hg x (List.mem_cons_of_mem t hx))⟩
    cases rest with
    | nil => exact Or.inl rfl
    | cons t2 r2 =>
      exact Or.inr ⟨[' '], t2, r2.map (fun u => ([' '], u)), rfl, by simp⟩

/-- Reassociation of the run/token join against a following tail. -/
theorem runTokJoin_cons_append (r t : List Char)
    (ps : List (List Char × List Char)) (Q : List Char) :
    runTokJoin ((r, t) :: ps) ++ Q = r ++ (t ++ (runTokJoin ps ++ Q)) := by
  show (r ++ (t ++ runTokJoin ps)) ++ Q = r ++ (t ++ (runTokJoin ps ++ Q))
  simp [List.append_assoc]

/-- The end scan fails over a well-shaped accumulator of tokens not ending
in `called`, continuing into a failing whitespace-headed tail. -/
theorem hasEnd_false_accPre (pairs : List (List Char × List Char))
    (Q : List Char) (hAP : AccPairs pairs)
    (hsafe : ∀ p ∈ pairs, ¬ List.IsSuffix "called".data p.2)
    (hQhead : Q = [] ∨ ∃ w R', Q = w :: R' ∧ isWS w = true)
    (hQ : hasEndOfFrame Q = false) :
    hasEndOfFrame (runTokJoin pairs ++ Q) = false := by
  induction pairs with
  | nil => exact hQ
  | cons x rest ih =>
    obtain ⟨r, t⟩ := x
    obtain ⟨h1, h2, h3, h4, h5⟩ := hAP
    rw [runTokJoin_cons_append]
    have hrw : ∀ c ∈ r, isWS c = true := by
      intro c hc
      rw [h1 c hc]
      decide
    refine hasEnd_false_run r _ hrw ?_
    have hrest : hasEndOfFrame (runTokJoin rest ++ Q) = false :=
      ih h5 (fun p hp => hsafe p (List.mem_cons_of_mem _ hp))
    refine hasEnd_false_safe t _ h3
      (hsafe (r, t) (List.mem_cons_self _ rest)) ?_ hrest
    rcases h4 with rfl | ⟨r', t', rest', rfl, hne⟩
    · rcases hQhead with rfl | ⟨w, R', rfl, hw⟩
      · exact Or.inl rfl
      · exact Or.inr ⟨w, R', rfl, hw⟩
    · obtain ⟨c, r'', rfl⟩ := List.exists_cons_of_ne_nil hne
      have hc : isWS c = true := by
        obtain ⟨hc1, -⟩ := h5
        rw [hc1 c (List.mem_cons_self c r'')]
        decide
      exact Or.inr ⟨c, (r'' ++ (t' ++ runTokJoin rest')) ++ Q, rfl, hc⟩

/-- Space-only runs are whitespace runs. -/
theorem spaceRun_ws (r : List Char) (h : ∀ c ∈ r, c = ' ') :
    ∀ c ∈ r, isWS c = true := by
  intro c hc
  rw [h c hc]
  decide

/-- A prefix of an append is a prefix of the left part or extends it into the
right part. -/
theorem prefix_split {α : Type} (A B P : List α) (h : List.IsPrefix P (A ++ B)) :
    List.IsPrefix P A ∨ ∃ Q, P = A ++ Q ∧ List.IsPrefix Q B := by
  obtain ⟨R, hR⟩ := h
  rcases List.append_eq_append_iff.mp hR.symm with ⟨a', ha1, ha2⟩ | ⟨c', hc1, hc2⟩
  · exact Or.inr ⟨a', ha1, ⟨R, ha2.symm⟩⟩
  · exact Or.inl ⟨c', hc1.symm⟩

/-- Enumeration of the prefixes of an explicit six-element list. -/
theorem prefix_of_explicit6 {α : Type} (Q : List α) (a b c d e g : α)
    (h : List.IsPrefix Q [a, b, c, d, e, g]) :
    Q = [] ∨ Q = [a] ∨ Q = [a, b] ∨ Q = [a, b, c] ∨ Q = [a, b, c, d] ∨
    Q = [a, b, c, d, e] ∨ Q = [a, b, c, d, e, g] := by
  obtain ⟨s, hs⟩ := h
  rcases Q with _ | ⟨q1, _ | ⟨q2, _ | ⟨q3, _ | ⟨q4, _ | ⟨q5, _ | ⟨q6, rest⟩⟩⟩⟩⟩⟩
  · exact Or.inl rfl
  · simp at hs
    exact Or.inr (Or.inl (by rw [hs.1]))
  · simp at hs
    exact Or.inr (Or.inr (Or.inl (by rw [hs.1, hs.2.1])))
  · simp at hs
    exact Or.inr (Or.inr (Or.inr (Or.inl (by rw [hs.1, hs.2.1, hs.2.2.1]))))
  · simp at hs
    exact Or.inr (Or.inr (Or.inr (Or.inr (Or.inl
      (by rw [hs.1, hs.2.1, hs.2.2.1, hs.2.2.2.1])))))
  · simp at hs
    exact Or.inr (Or.inr (Or.inr (Or.inr (Or.inr (Or.inl
      (by rw [hs.1, hs.2.1, hs.2.2.1, hs.2.2.2.1, hs.2.2.2.2.1]))))))
  · rw [show (q1 :: q2 :: q3 :: q4 :: q5 :: q6 :: rest) ++ s
        = q1 :: q2 :: q3 :: q4 :: q5 :: q6 :: (rest ++ s) from rfl] at hs
    injection hs with e1 hs
    injection hs with e2 hs
    injection hs with e3 hs
    injection hs with e4 hs
    injection hs with e5 hs
    injection hs with e6 hs
    obtain ⟨h7, -⟩ := List.append_eq_nil.mp hs
    refine Or.inr (Or.inr (Or.inr (Or.inr (Or.inr (Or.inr ?_)))))
    rw [e1, e2, e3, e4, e5, e6, h7]

/-- Short tokens cannot end in `called`. -/
theorem not_called_suffix_short {t : List Char} (h : t.length < 6) :
    ¬ List.IsSuffix "called".data t := by
  intro hsuf
  have h1 := hsuf.length_le
  rw [show ("called".data).length = 6 from rfl] at h1
  omega

/-- A quoted path token cannot end in `called`. -/
theorem not_called_suffix_qp (pa : List Char) :
    ¬ List.IsSuffix "called".data ('\'' :: (pa ++ ['\''])) := by
  intro hsuf
  obtain ⟨pre, hpre⟩ := hsuf
  rw [show ("called".data : List Char) = "calle".data ++ ['d'] from rfl,
    ← List.append_assoc] at hpre
  have h1 := congrArg List.getLast? hpre
  rw [List.getLast?_concat] at h1
  rw [show '\'' :: (pa ++ ['\'']) = ('\'' :: pa) ++ ['\''] from rfl,
    List.getLast?_concat] at h1
  injection h1 with h2
  exact absurd h2 (by decide)

/-- A digit run cannot end in `called`. -/
theorem not_called_suffix_digits (ds : List Char)
    (hdig : ∀ c ∈ ds, c.isDigit = true) :
    ¬ List.IsSuffix "called".data ds := by
  intro hsuf
  obtain ⟨pre, hpre⟩ := hsuf
  have hmem : 'd' ∈ ds := by
    rw [← hpre]
    simp [data_called]
  have := hdig 'd' hmem
  exact absurd this (by decide)

/-- No token of the frame's leading (pre-`called`) segment ends in
`called`. -/
theorem frame_safe_tok (f : RawFrame)
    (hctok : ∀ t ∈ f.calleeToks, TokOk t ∧ ¬ List.IsSuffix "called".data t)
    (t : List Char) (ht : t ∈ [f.sigil] :: ['='] :: f.calleeToks) :
    ¬ List.IsSuffix "called".data t := by
  rcases List.mem_cons.mp ht with rfl | ht2
  · exact not_called_suffix_short (by simp)
  rcases List.mem_cons.mp ht2 with rfl | ht3
  · exact not_called_suffix_short (by simp)
  · exact (hctok t ht3).2

/-- Splitting a pair list along an append of its token list. -/
theorem pairs_split_at (pairs : List (List Char × List Char))
    (A B : List (List Char)) (h : pairs.map Prod.snd = A ++ B) :
    ∃ pA pB, pairs = pA ++ pB ∧ pA.map Prod.snd = A ∧ pB.map Prod.snd = B := by
  induction A generalizing pairs with
  | nil => exact ⟨[], pairs, rfl, rfl, h⟩
  | cons a A' ih =>
    cases pairs with
    | nil => simp at h
    | cons p ps =>
      rw [List.map_cons, List.cons_append] at h
      injection h with h1 h2
      obtain ⟨pA, pB, rfl, hA, hB⟩ := ih ps h2
      exact ⟨p :: pA, pB, rfl, by rw [List.map_cons, hA, h1], hB⟩

/-- The end scan fails over a spaced `called` token whose continuation fails
both at its head and beyond. -/
theorem hasEnd_false_zone_tail (rC ZQ : List Char)
    (hrC : ∀ c ∈ rC, c = ' ')
    (hhead : matchEndAt ("called".data ++ ZQ) = false)
    (hZ : hasEndOfFrame ZQ = false) :
    hasEndOfFrame (rC ++ ("called".data ++ ZQ)) = false := by
  refine hasEnd_false_run rC _ (spaceRun_ws rC hrC) ?_
  exact hasEnd_false_called ZQ hhead hZ

/-- In a well-shaped accumulator, the second pair's run is nonempty. -/
theorem AccPairs_head_run_ne {x : List Char × List Char} {r t : List Char}
    {ys : List (List Char × List Char)}
    (h : AccPairs (x :: (r, t) :: ys)) : r ≠ [] := by
  obtain ⟨r0, t0⟩ := x
  rcases h.2.2.2.1 with h4 | ⟨r', t', rest', heq, hne⟩
  · exact absurd h4 (by simp)
  · injection heq with heq1 _
    injection heq1 with ha _
    rw [ha]
    exact hne

/-- The quoted path token is whitespace-free. -/
theorem qp_tok_ws (pa : List Char) (hpaw : ∀ c ∈ pa, isWS c = false ∧ c ≠ '\'') :
    ∀ c ∈ '\'' :: (pa ++ ['\'']), isWS c = false := by
  intro c hc
  rcases List.mem_cons.mp hc with rfl | hc2
  · rfl
  rcases List.mem_append.mp hc2 with h | h
  · exact (hpaw c h).1
  · rw [List.mem_singleton.mp h]
    rfl

/-- The reassembly accumulator of a proper token prefix of a frame never
contains the end-of-frame pattern. -/
theorem hasEnd_false_prefix (f : RawFrame)
    (hctok : ∀ t ∈ f.calleeToks, TokOk t ∧ ¬ List.IsSuffix "called".data t)
    (hpane : f.path.data ≠ [])
    (hpaw : ∀ c ∈ f.path.data, isWS c = false ∧ c ≠ '\'')
    (pairs : List (List Char × List Char)) (rem : List (List Char))
    (hAP : AccPairs pairs)
    (hsplit : frameToks f = pairs.map Prod.snd ++ rem)
    (hrem : rem ≠ []) :
    hasEndOfFrame (runTokJoin pairs ++ [' ']) = false := by
  have hframe : frameToks f
      = ([f.sigil] :: ['='] :: f.calleeToks) ++
        ["called".data, "from".data, "file".data,
         '\'' :: (f.path.data ++ ['\'']), "line".data, f.digits] := rfl
  have hpre : List.IsPrefix (pairs.map Prod.snd)
      (([f.sigil] :: ['='] :: f.calleeToks) ++
        ["called".data, "from".data, "file".data,
         '\'' :: (f.path.data ++ ['\'']), "line".data, f.digits]) :=
    ⟨rem, hsplit.symm.trans hframe⟩
  rcases prefix_split _ _ _ hpre with hA | ⟨Q, hPQ, hQpre⟩
  · refine hasEnd_false_accPre pairs [' '] hAP ?_
      (Or.inr ⟨' ', [], rfl, by decide⟩) (by decide)
    intro p hp
    exact frame_safe_tok f hctok p.2 (hA.subset (List.mem_map_of_mem Prod.snd hp))
  rcases prefix_of_explicit6 Q _ _ _ _ _ _ hQpre with
    rfl | rfl | rfl | rfl | rfl | rfl | rfl
  · rw [List.append_nil] at hPQ
    refine hasEnd_false_accPre pairs [' '] hAP ?_
      (Or.inr ⟨' ', [], rfl, by decide⟩) (by decide)
    intro p hp
    have h2 := List.mem_map_of_mem Prod.snd hp
    rw [hPQ] at h2
    exact frame_safe_tok f hctok p.2 h2
  -- zone `called |`
  · obtain ⟨pA, pB, rfl, hA, hB⟩ := pairs_split_at pairs _ _ hPQ
    have hpAne : pA ≠ [] := by
      intro h
      rw [h] at hA
      simp at hA
    cases pB with
    | nil => simp at hB
    | cons q pZ =>
      obtain ⟨rC, tC⟩ := q
      rw [List.map_cons] at hB
      injection hB with hB1 hB2
      subst hB1
      have hpZ : pZ = [] := List.map_eq_nil_iff.mp hB2
      subst hpZ
      have hAPA : AccPairs pA := AccPairs_left _ _ hAP
      have hAPB : AccPairs [(rC, "called".data)] := AccPairs_right pA _ hAP
      have hrC_ne : rC ≠ [] := AccPairs_mid_run pA rC _ _ hAP hpAne
      have hrC_sp : ∀ c ∈ rC, c = ' ' := hAPB.1
      rw [runTokJoin_append, List.append_assoc]
      refine hasEnd_false_accPre pA _ hAPA ?_ ?_ ?_
      · intro p hp
        have h2 := List.mem_map_of_mem Prod.snd hp
        rw [hA] at h2
        exact frame_safe_tok f hctok p.2 h2
      · obtain ⟨c, rC', rfl⟩ := List.exists_cons_of_ne_nil hrC_ne
        exact Or.inr ⟨c, _, rfl, by
          rw [hrC_sp c (List.mem_cons_self c rC')]; decide⟩
      · have hpb : runTokJoin [(rC, "called".data)] ++ [' ']
            = rC ++ ("called".data ++ [' ']) := by
          simp [runTokJoin, List.append_assoc]
        rw [hpb]
        refine hasEnd_false_zone_tail rC _ hrC_sp ?_ (by decide)
        exact matchEnd_zoneB [' '] (by simp) (by decide)
  -- zone `called from |`
  · obtain ⟨pA, pB, rfl, hA, hB⟩ := pairs_split_at pairs _ _ hPQ
    have hpAne : pA ≠ [] := by
      intro h
      rw [h] at hA
      simp at hA
    cases pB with
    | nil => simp at hB
    | cons q pZ =>
      obtain ⟨rC, tC⟩ := q
      rw [List.map_cons] at hB
      injection hB with hB1 hB2
      subst hB1
      cases pZ with
      | nil => simp at hB2
      | cons q2 pZ2 =>
        obtain ⟨r2, t2⟩ := q2
        rw [List.map_cons] at hB2
        injection hB2 with hB3 hB4
        subst hB3
        have hpZ2 : pZ2 = [] := List.map_eq_nil_iff.mp hB4
        subst hpZ2
        have hAPA : AccPairs pA := AccPairs_left _ _ hAP
        have hAPB : AccPairs [(rC, "called".data), (r2, "from".data)] :=
          AccPairs_right pA _ hAP
        have hrC_ne : rC ≠ [] := AccPairs_mid_run pA rC _ _ hAP hpAne
        have hrC_sp : ∀ c ∈ rC, c = ' ' := hAPB.1
        have hr2_ne : r2 ≠ [] := AccPairs_head_run_ne hAPB
        have hr2_sp : ∀ c ∈ r2, c = ' ' := hAPB.2.2.2.2.1
        rw [runTokJoin_append, List.append_assoc]
        refine hasEnd_false_accPre pA _ hAPA ?_ ?_ ?_
        · intro p hp
          have h2 := List.mem_map_of_mem Prod.snd hp
          rw [hA] at h2
          exact frame_safe_tok f hctok p.2 h2
        · obtain ⟨c, rC', rfl⟩ := List.exists_cons_of_ne_nil hrC_ne
          exact Or.inr ⟨c, _, rfl, by
            rw [hrC_sp c (List.mem_cons_self c rC')]; decide⟩
        · have hpb : runTokJoin [(rC, "called".data), (r2, "from".data)] ++ [' ']
              = rC ++ ("called".data ++ (r2 ++ ("from".data ++ [' ']))) := by
            simp [runTokJoin, List.append_assoc]
          rw [hpb]
          refine hasEnd_false_zone_tail rC _ hrC_sp ?_ ?_
          · exact matchEnd_zoneC r2 [' '] hr2_ne (spaceRun_ws _ hr2_sp)
              (by simp) (by decide)
          · refine hasEnd_false_run r2 _ (spaceRun_ws _ hr2_sp) ?_
            exact hasEnd_false_safe "from".data _ (by decide) (by decide)
              (Or.inr ⟨' ', [], rfl, by decide⟩) (by decide)
  -- zone `called from file |`
  · obtain ⟨pA, pB, rfl, hA, hB⟩ := pairs_split_at pairs _ _ hPQ
    have hpAne : pA ≠ [] := by
      intro h
      rw [h] at hA
      simp at hA
    cases pB with
    | nil => simp at hB
    | cons q pZ =>
      obtain ⟨rC, tC⟩ := q
      rw [List.map_cons] at hB
      injection hB with hB1 hB2
      subst hB1
      cases pZ with
      | nil => simp at hB2
      | cons q2 pZ2 =>
        obtain ⟨r2, t2⟩ := q2
        rw [List.map_cons] at hB2
        injection hB2 with hB3 hB4
        subst hB3
        cases pZ2 with
        | nil => simp at hB4
        | cons q3 pZ3 =>
          obtain ⟨r3, t3⟩ := q3
          rw [List.map_cons] at hB4
          injection hB4 with hB5 hB6
          subst hB5
          have hpZ3 : pZ3 = [] := List.map_eq_nil_iff.mp hB6
          subst hpZ3
          have hAPA : AccPairs pA := AccPairs_left _ _ hAP
          have hAPB : AccPairs
              [(rC, "called".data), (r2, "from".data), (r3, "file".data)] :=
            AccPairs_right pA _ hAP
          have hrC_ne : rC ≠ [] := AccPairs_mid_run pA rC _ _ hAP hpAne
          have hrC_sp : ∀ c ∈ rC, c = ' ' := hAPB.1
          have hr2_ne : r2 ≠ [] := AccPairs_head_run_ne hAPB
          have hT2 := hAPB.2.2.2.2
          have hr2_sp : ∀ c ∈ r2, c = ' ' := hT2.1
          have hr3_ne : r3 ≠ [] := AccPairs_head_run_ne hT2
          have hr3_sp : ∀ c ∈ r3, c = ' ' := hT2.2.2.2.2.1
          rw [runTokJoin_append, List.append_assoc]
          refine hasEnd_false_accPre pA _ hAPA ?_ ?_ ?_
          · intro p hp
            have h2 := List.mem_map_of_mem Prod.snd hp
            rw [hA] at h2
            exact frame_safe_tok f hctok p.2 h2
          · obtain ⟨c, rC', rfl⟩ := List.exists_cons_of_ne_nil hrC_ne
            exact Or.inr ⟨c, _, rfl, by
              rw [hrC_sp c (List.mem_cons_self c rC')]; decide⟩
          · have hpb : runTokJoin
                [(rC, "called".data), (r2, "from".data), (r3, "file".data)]
                ++ [' ']
                = rC ++ ("called".data ++ (r2 ++ ("from".data ++
                    (r3 ++ ("file".data ++ [' ']))))) := by
              simp [runTokJoin, List.append_assoc]
            rw [hpb]
            refine hasEnd_false_zone_tail rC _ hrC_sp ?_ ?_
            · exact matchEnd_zoneD r2 r3 [' '] hr2_ne (spaceRun_ws _ hr2_sp)
                hr3_ne (spaceRun_ws _ hr3_sp) (by simp) (by decide)
            · refine hasEnd_false_run r2 _ (spaceRun_ws _ hr2_sp) ?_
              refine hasEnd_false_safe "from".data _ (by decide) (by decide)
                ?_ ?_
              · obtain ⟨c, r3', rfl⟩ := List.exists_cons_of_ne_nil hr3_ne
                exact Or.inr ⟨c, _, rfl, by
                  rw [hr3_sp c (List.mem_cons_self c r3')]; decide⟩
              · refine hasEnd_false_run r3 _ (spaceRun_ws _ hr3_sp) ?_
                exact hasEnd_false_safe "file".data _ (by decide) (by decide)
                  (Or.inr ⟨' ', [], rfl, by decide⟩) (by decide)
  -- zone `called from file 'path' |`
  · obtain ⟨pA, pB, rfl, hA, hB⟩ := pairs_split_at pairs _ _ hPQ
    have hpAne : pA ≠ [] := by
      intro h
      rw [h] at hA
      simp at hA
    cases pB with
    | nil => simp at hB
    | cons q pZ =>
      obtain ⟨rC, tC⟩ := q
      rw [List.map_cons] at hB
      injection hB with hB1 hB2
      subst hB1
      cases pZ with
      | nil => simp at hB2
      | cons q2 pZ2 =>
        obtain ⟨r2, t2⟩ := q2
        rw [List.map_cons] at hB2
        injection hB2 with hB3 hB4
        subst hB3
        cases pZ2 with
        | nil => simp at hB4
        | cons q3 pZ3 =>
          obtain ⟨r3, t3⟩ := q3
          rw [List.map_cons] at hB4
          injection hB4 with hB5 hB6
          subst hB5
          cases pZ3 with
          | nil => simp at hB6
          | cons q4 pZ4 =>
            obtain ⟨r4, t4⟩ := q4
            rw [List.map_cons] at hB6
            injection hB6 with hB7 hB8
            subst hB7
            have hpZ4 : pZ4 = [] := List.map_eq_nil_iff.mp hB8
            subst hpZ4
            have hAPA : AccPairs pA := AccPairs_left _ _ hAP
            have hAPB : AccPairs
                [(rC, "called".data), (r2, "from".data), (r3, "file".data),
                 (r4, '\'' :: (f.path.data ++ ['\'']))] :=
              AccPairs_right pA _ hAP
            have hrC_ne : rC ≠ [] := AccPairs_mid_run pA rC _ _ hAP hpAne
            have hrC_sp : ∀ c ∈ rC, c = ' ' := hAPB.1
            have hr2_ne : r2 ≠ [] := AccPairs_head_run_ne hAPB
            have hT2 := hAPB.2.2.2.2
            have hr2_sp : ∀ c ∈ r2, c = ' ' := hT2.1
            have hr3_ne : r3 ≠ [] := AccPairs_head_run_ne hT2
            have hT3 := hT2.2.2.2.2
            have hr3_sp : ∀ c ∈ r3, c = ' ' := hT3.1
            have hr4_ne : r4 ≠ [] := AccPairs_head_run_ne hT3
            have hr4_sp : ∀ c ∈ r4, c = ' ' := hT3.2.2.2.2.1
            rw [runTokJoin_append, List.append_assoc]
            refine hasEnd_false_accPre pA _ hAPA ?_ ?_ ?_
            · intro p hp
              have h2 := List.mem_map_of_mem Prod.snd hp
              rw [hA] at h2
              exact frame_safe_tok f hctok p.2 h2
            · obtain ⟨c, rC', rfl⟩ := List.exists_cons_of_ne_nil hrC_ne
              exact Or.inr ⟨c, _, rfl, by
                rw [hrC_sp c (List.mem_cons_self c rC')]; decide⟩
            · have hpb : runTokJoin
                  [(rC, "called".data), (r2, "from".data), (r3, "file".data),
                   (r4, '\'' :: (f.path.data ++ ['\'']))] ++ [' ']
                  = rC ++ ("called".data ++ (r2 ++ ("from".data ++
                      (r3 ++ ("file".data ++ (r4 ++
                        (('\'' :: (f.path.data ++ ['\''])) ++ [' ']))))))) := by
                simp [runTokJoin, List.append_assoc]
              rw [hpb]
              refine hasEnd_false_zone_tail rC _ hrC_sp ?_ ?_
              · exact matchEnd_zoneE f.path.data r2 r3 r4 [' '] hpane hpaw
                  hr2_ne (spaceRun_ws _ hr2_sp) hr3_ne (spaceRun_ws _ hr3_sp)
                  hr4_ne (spaceRun_ws _ hr4_sp) (by simp) (by decide)
              · refine hasEnd_false_run r2 _ (spaceRun_ws _ hr2_sp) ?_
                refine hasEnd_false_safe "from".data _ (by decide) (by decide)
                  ?_ ?_
                · obtain ⟨c, r3', rfl⟩ := List.exists_cons_of_ne_nil hr3_ne
                  exact Or.inr ⟨c, _, rfl, by
                    rw [hr3_sp c (List.mem_cons_self c r3')]; decide⟩
                · refine hasEnd_false_run r3 _ (spaceRun_ws _ hr3_sp) ?_
                  refine hasEnd_false_safe "file".data _ (by decide) (by decide)
                    ?_ ?_
                  · obtain ⟨c, r4', rfl⟩ := List.exists_cons_of_ne_nil hr4_ne
                    exact Or.inr ⟨c, _, rfl, by
                      rw [hr4_sp c (List.mem_cons_self c r4')]; decide⟩
                  · refine hasEnd_false_run r4 _ (spaceRun_ws _ hr4_sp) ?_
                    exact hasEnd_false_safe ('\'' :: (f.path.data ++ ['\'']))
                      _ (qp_tok_ws f.path.data hpaw)
                      (not_called_suffix_qp f.path.data)
                      (Or.inr ⟨' ', [], rfl, by decide⟩) (by decide)
  -- zone `called from file 'path' line |`
  · obtain ⟨pA, pB, rfl, hA, hB⟩ := pairs_split_at pairs _ _ hPQ
    have hpAne : pA ≠ [] := by
      intro h
      rw [h] at hA
      simp at hA
    cases pB with
    | nil => simp at hB
    | cons q pZ =>
      obtain ⟨rC, tC⟩ := q
      rw [List.map_cons] at hB
      injection hB with hB1 hB2
      subst hB1
      cases pZ with
      | nil => simp at hB2
      | cons q2 pZ2 =>
        obtain ⟨r2, t2⟩ := q2
        rw [List.map_cons] at hB2
        injection hB2 with hB3 hB4
        subst hB3
        cases pZ2 with
        | nil => simp at hB4
        | cons q3 pZ3 =>
          obtain ⟨r3, t3⟩ := q3
          rw [List.map_cons] at hB4
          injection hB4 with hB5 hB6
          subst hB5
          cases pZ3 with
          | nil => simp at hB6
          | cons q4 pZ4 =>
            obtain ⟨r4, t4⟩ := q4
            rw [List.map_cons] at hB6
            injection hB6 with hB7 hB8
            subst hB7
            cases pZ4 with
            | nil => simp at hB8
            | cons q5 pZ5 =>
              obtain ⟨r5, t5⟩ := q5
              rw [List.map_cons] at hB8
              injection hB8 with hB9 hB10
              subst hB9
              have hpZ5 : pZ5 = [] := List.map_eq_nil_iff.mp hB10
              subst hpZ5
              have hAPA : AccPairs pA := AccPairs_left _ _ hAP
              have hAPB : AccPairs
                  [(rC, "called".data), (r2, "from".data), (r3, "file".data),
                   (r4, '\'' :: (f.path.data ++ ['\''])), (r5, "line".data)] :=
                AccPairs_right pA _ hAP
              have hrC_ne : rC ≠ [] := AccPairs_mid_run pA rC _ _ hAP hpAne
              have hrC_sp : ∀ c ∈ rC, c = ' ' := hAPB.1
              have hr2_ne : r2 ≠ [] := AccPairs_head_run_ne hAPB
              have hT2 := hAPB.2.2.2.2
              have hr2_sp : ∀ c ∈ r2, c = ' ' := hT2.1
              have hr3_ne : r3 ≠ [] := AccPairs_head_run_ne hT2
              have hT3 := hT2.2.2.2.2
              have hr3_sp : ∀ c ∈ r3, c = ' ' := hT3.1
              have hr4_ne : r4 ≠ [] := AccPairs_head_run_ne hT3
              have hT4 := hT3.2.2.2.2
              have hr4_sp : ∀ c ∈ r4, c = ' ' := hT4.1
              have hr5_ne : r5 ≠ [] := AccPairs_head_run_ne hT4
              have hr5_sp : ∀ c ∈ r5, c = ' ' := hT4.2.2.2.2.1
              rw [runTokJoin_append, List.append_assoc]
              refine hasEnd_false_accPre pA _ hAPA ?_ ?_ ?_
              · intro p hp
                have h2 := List.mem_map_of_mem Prod.snd hp
                rw [hA] at h2
                exact frame_safe_tok f hctok p.2 h2
              · obtain ⟨c, rC', rfl⟩ := List.exists_cons_of_ne_nil hrC_ne
                exact Or.inr ⟨c, _, rfl, by
                  rw [hrC_sp c (List.mem_cons_self c rC')]; decide⟩
              · have hpb : runTokJoin
                    [(rC, "called".data), (r2, "from".data), (r3, "file".data),
                     (r4, '\'' :: (f.path.data ++ ['\''])), (r5, "line".data)]
                    ++ [' ']
                    = rC ++ ("called".data ++ (r2 ++ ("from".data ++
                        (r3 ++ ("file".data ++ (r4 ++
                          (('\'' :: (f.path.data ++ ['\''])) ++ (r5 ++
                            ("line".data ++ [' '])))))))))  := by
                  simp [runTokJoin, List.append_assoc]
                rw [hpb]
                refine hasEnd_false_zone_tail rC _ hrC_sp ?_ ?_
                · exact matchEnd_zoneF f.path.data r2 r3 r4 r5 [' ']
                    hpane hpaw hr2_ne (spaceRun_ws _ hr2_sp)
                    hr3_ne (spaceRun_ws _ hr3_sp) hr4_ne (spaceRun_ws _ hr4_sp)
                    hr5_ne (spaceRun_ws _ hr5_sp) (by simp) (by decide)
                · refine hasEnd_false_run r2 _ (spaceRun_ws _ hr2_sp) ?_
                  refine hasEnd_false_safe "from".data _ (by decide) (by decide)
                    ?_ ?_
                  · obtain ⟨c, r3', rfl⟩ := List.exists_cons_of_ne_nil hr3_ne
                    exact Or.inr ⟨c, _, rfl, by
                      rw [hr3_sp c (List.mem_cons_self c r3')]; decide⟩
                  · refine hasEnd_false_run r3 _ (spaceRun_ws _ hr3_sp) ?_
                    refine hasEnd_false_safe "file".data _ (by decide)
                      (by decide) ?_ ?_
                    · obtain ⟨c, r4', rfl⟩ := List.exists_cons_of_ne_nil hr4_ne
                      exact Or.inr ⟨c, _, rfl, by
                        rw [hr4_sp c (List.mem_cons_self c r4')]; decide⟩
                    · refine hasEnd_false_run r4 _ (spaceRun_ws _ hr4_sp) ?_
                      refine hasEnd_false_safe
                        ('\'' :: (f.path.data ++ ['\''])) _
                        (qp_tok_ws f.path.data hpaw)
                        (not_called_suffix_qp f.path.data) ?_ ?_
                      · obtain ⟨c, r5', rfl⟩ :=
                          List.exists_cons_of_ne_nil hr5_ne
                        exact Or.inr ⟨c, _, rfl, by
                          rw [hr5_sp c (List.mem_cons_self c r5')]; decide⟩
                      · refine hasEnd_false_run r5 _ (spaceRun_ws _ hr5_sp) ?_
                        exact hasEnd_false_safe "line".data _ (by decide)
                          (by decide) (Or.inr ⟨' ', [], rfl, by decide⟩)
                          (by decide)
  -- full prefix: contradicts the nonempty remainder
  · exfalso
    have hmap : pairs.map Prod.snd = frameToks f := by rw [hPQ, ← hframe]
    rw [hmap] at hsplit
    have hlen := congrArg List.length hsplit
    rw [List.length_append] at hlen
    have hz : rem.length = 0 := by omega
    exact hrem (List.length_eq_zero.mp hz)

/-- The completed accumulator of a full frame does contain the end-of-frame
pattern. -/
theorem hasEnd_true_full (f : RawFrame)
    (hpane : f.path.data ≠ [])
    (hpaw : ∀ c ∈ f.path.data, isWS c = false ∧ c ≠ '\'')
    (hds : f.digits ≠ []) (hdig : ∀ c ∈ f.digits, c.isDigit = true)
    (pairs : List (List Char × List Char))
    (hAP : AccPairs pairs)
    (hmap : pairs.map Prod.snd = frameToks f) :
    hasEndOfFrame (runTokJoin pairs ++ [' ']) = true := by
  have hframe : frameToks f
      = ([f.sigil] :: ['='] :: f.calleeToks) ++
        ["called".data, "from".data, "file".data,
         '\'' :: (f.path.data ++ ['\'']), "line".data, f.digits] := rfl
  obtain ⟨pA, pB, rfl, hA, hB⟩ :=
    pairs_split_at pairs _ _ (hmap.trans hframe)
  have hpAne : pA ≠ [] := by
    intro h
    rw [h] at hA
    simp at hA
  cases pB with
  | nil => simp at hB
  | cons q pZ =>
    obtain ⟨rC, tC⟩ := q
    rw [List.map_cons] at hB
    injection hB with hB1 hB2
    subst hB1
    cases pZ with
    | nil => simp at hB2
    | cons q2 pZ2 =>
      obtain ⟨r2, t2⟩ := q2
      rw [List.map_cons] at hB2
      injection hB2 with hB3 hB4
      subst hB3
      cases pZ2 with
      | nil => simp at hB4
      | cons q3 pZ3 =>
        obtain ⟨r3, t3⟩ := q3
        rw [List.map_cons] at hB4
        injection hB4 with hB5 hB6
        subst hB5
        cases pZ3 with
        | nil => simp at hB6
        | cons q4 pZ4 =>
          obtain ⟨r4, t4⟩ := q4
          rw [List.map_cons] at hB6
          injection hB6 with hB7 hB8
          subst hB7
          cases pZ4 with
          | nil => simp at hB8
          | cons q5 pZ5 =>
            obtain ⟨r5, t5⟩ := q5
            rw [List.map_cons] at hB8
            injection hB8 with hB9 hB10
            subst hB9
            cases pZ5 with
            | nil => simp at hB10
            | cons q6 pZ6 =>
              obtain ⟨r6, t6⟩ := q6
              rw [List.map_cons] at hB10
              injection hB10 with hB11 hB12
              subst hB11
              have hpZ6 : pZ6 = [] := List.map_eq_nil_iff.mp hB12
              subst hpZ6
              have hAPB : AccPairs
                  [(rC, "called".data), (r2, "from".data), (r3, "file".data),
                   (r4, '\'' :: (f.path.data ++ ['\''])), (r5, "line".data),
                   (r6, f.digits)] :=
                AccPairs_right pA _ hAP
              have hT2 := hAPB.2.2.2.2
              have hT3 := hT2.2.2.2.2
              have hT4 := hT3.2.2.2.2
              have hT5 := hT4.2.2.2.2
              have hr2_ne : r2 ≠ [] := AccPairs_head_run_ne hAPB
              have hr3_ne : r3 ≠ [] := AccPairs_head_run_ne hT2
              have hr4_ne : r4 ≠ [] := AccPairs_head_run_ne hT3
              have hr5_ne : r5 ≠ [] := AccPairs_head_run_ne hT4
              have hr6_ne : r6 ≠ [] := AccPairs_head_run_ne hT5
              have hr2_sp : ∀ c ∈ r2, c = ' ' := hT2.1
              have hr3_sp : ∀ c ∈ r3, c = ' ' := hT3.1
              have hr4_sp : ∀ c ∈ r4, c = ' ' := hT4.1
              have hr5_sp : ∀ c ∈ r5, c = ' ' := hT5.1
              have hr6_sp : ∀ c ∈ r6, c = ' ' := hT5.2.2.2.2.1
              obtain ⟨d, dt, hdd⟩ := List.exists_cons_of_ne_nil hds
              have hdw : d.isDigit = true :=
                hdig d (hdd ▸ List.mem_cons_self d dt)
              have hdec : runTokJoin (pA ++
                  [(rC, "called".data), (r2, "from".data), (r3, "file".data),
                   (r4, '\'' :: (f.path.data ++ ['\''])), (r5, "line".data),
                   (r6, f.digits)]) ++ [' ']
                  = (runTokJoin pA ++ rC) ++
                    ("called".data ++ (r2 ++ ("from".data ++ (r3 ++
                      ("file".data ++ (r4 ++ (('\'' :: (f.path.data ++ ['\''])) ++
                        (r5 ++ ("line".data ++ (r6 ++
                          (d :: dt ++ [' '])))))))))))  := by
                rw [hdd]
                rw [runTokJoin_append]
                simp [runTokJoin, List.append_assoc]
              rw [hdec]
              refine hasEndOfFrame_of_suffix _ _ ?_ (by simp [data_called])
              exact matchEndAt_eval_run f.path.data r2 r3 r4 r5 r6 d dt [' ']
                hpane hpaw hr2_ne (spaceRun_ws _ hr2_sp)
                hr3_ne (spaceRun_ws _ hr3_sp) hr4_ne (spaceRun_ws _ hr4_sp)
                hr5_ne (spaceRun_ws _ hr5_sp) hr6_ne (spaceRun_ws _ hr6_sp) hdw

/-- With the previous character whitespace, the collapse skips a whitespace
run. -/
theorem collapse_skip_true (run rest : List Char)
    (h : ∀ c ∈ run, isWS c = true) :
    collapseWsAux true (run ++ rest) = collapseWsAux true rest := by
  induction run with
  | nil => rfl
  | cons c r' ih =>
    rw [List.cons_append, collapseWsAux]
    rw [if_pos (h c (List.mem_cons_self c r')), if_pos rfl]
    exact ih (fun x hx => h x (List.mem_cons_of_mem c hx))

/-- The collapse walks a whitespace-free token, squashes one whitespace run
to a single space, and continues on a well-started remainder. -/
theorem collapse_chunk_run (tok run rest : List Char)
    (htok : ∀ c ∈ tok, isWS c = false)
    (hrun : run ≠ []) (hrunw : ∀ c ∈ run, isWS c = true)
    (hrest : rest = [] ∨ ∃ d t, rest = d :: t ∧ isWS d = false) :
    collapseWsAux false (tok ++ (run ++ rest))
      = tok ++ (' ' :: collapseWsAux false rest) := by
  induction tok with
  | nil =>
    obtain ⟨c, run', rfl⟩ := List.exists_cons_of_ne_nil hrun
    rw [List.nil_append, List.cons_append, collapseWsAux]
    rw [if_pos (hrunw c (List.mem_cons_self c run'))]
    rw [if_neg (by exact Bool.false_ne_true)]
    rw [collapse_skip_true run' rest
      (fun x hx => hrunw x (List.mem_cons_of_mem c hx))]
    rcases hrest with rfl | ⟨d, t, rfl, hd⟩
    · rfl
    · rw [collapseWsAux, if_neg (by rw [hd]; exact Bool.false_ne_true)]
      rw [List.nil_append, collapseWsAux,
        if_neg (by rw [hd]; exact Bool.false_ne_true)]
  | cons c tok' ih =>
    rw [List.cons_append, collapseWsAux,
      if_neg (by rw [htok c (List.mem_cons_self c tok')]; exact Bool.false_ne_true)]
    rw [ih (fun x hx => htok x (List.mem_cons_of_mem c hx))]
    rfl

/-- Token facts carried by a well-shaped accumulator. -/
theorem AccPairs_tok (ps : List (List Char × List Char)) (h : AccPairs ps) :
    ∀ p ∈ ps, p.2 ≠ [] ∧ ∀ c ∈ p.2, isWS c = false := by
  induction ps with
  | nil => intro p hp; simp at hp
  | cons x rest ih =>
    obtain ⟨r, t⟩ := x
    intro p hp
    rcases List.mem_cons.mp hp with rfl | hp2
    · exact ⟨h.2.1, h.2.2.1⟩
    · exact ih h.2.2.2.2 p hp2

/-- The whitespace collapse turns a well-shaped accumulator into the
single-spaced join of its tokens, with the trailing space. -/
theorem collapse_acc (t₀ : List Char) (ps : List (List Char × List Char))
    (ht₀ne : t₀ ≠ []) (ht₀w : ∀ c ∈ t₀, isWS c = false)
    (hps : AccPairs ps)
    (hfst : ps = [] ∨ ∃ r t rest, ps = (r, t) :: rest ∧ r ≠ []) :
    collapseWsAux false (runTokJoin (([], t₀) :: ps) ++ [' '])
      = joinSp (t₀ :: ps.map Prod.snd) ++ [' '] := by
  induction ps generalizing t₀ with
  | nil =>
    rw [show runTokJoin [(([] : List Char), t₀)] ++ [' ']
        = t₀ ++ ([' '] ++ ([] : List Char)) from by simp [runTokJoin]]
    rw [collapse_chunk_run t₀ [' '] [] ht₀w (by simp) (by decide) (Or.inl rfl)]
    rfl
  | cons p ps' ih =>
    obtain ⟨r, t⟩ := p
    rcases hfst with hfst | ⟨r', t', rest', heq, hrne⟩
    · exact absurd hfst (by simp)
    injection heq with heq1 heq2
    injection heq1 with ha hb
    subst ha
    subst hb
    subst heq2
    obtain ⟨hr_sp, ht_ne, ht_w, hnext, hps'⟩ := hps
    have h1 : runTokJoin (([], t₀) :: (r, t) :: ps') ++ [' ']
        = t₀ ++ (r ++ (runTokJoin (([], t) :: ps') ++ [' '])) := by
      simp [runTokJoin, List.append_assoc]
    rw [h1]
    have hhd : runTokJoin (([], t) :: ps') ++ [' '] = [] ∨
        ∃ d u, runTokJoin (([], t) :: ps') ++ [' '] = d :: u ∧ isWS d = false := by
      obtain ⟨c, t', rfl⟩ := List.exists_cons_of_ne_nil ht_ne
      exact Or.inr ⟨c, _, rfl, ht_w c (List.mem_cons_self c t')⟩
    rw [collapse_chunk_run t₀ r _ ht₀w hrne (spaceRun_ws r hr_sp) hhd]
    rw [ih t ht_ne ht_w hps' hnext]
    rw [show List.map Prod.snd ((r, t) :: ps') = t :: List.map Prod.snd ps'
      from rfl]
    rw [show joinSp (t₀ :: t :: List.map Prod.snd ps')
        = t₀ ++ ' ' :: joinSp (t :: List.map Prod.snd ps') from rfl]
    simp [List.append_assoc]

/-- Normalisation of a completed well-shaped accumulator yields exactly the
single-spaced logical line. -/
theorem normalize_acc (t₀ : List Char) (ps : List (List Char × List Char))
    (ht₀ne : t₀ ≠ []) (ht₀w : ∀ c ∈ t₀, isWS c = false)
    (hps : AccPairs ps)
    (hfst : ps = [] ∨ ∃ r t rest, ps = (r, t) :: rest ∧ r ≠ []) :
    normalizeLogical (runTokJoin (([], t₀) :: ps) ++ [' '])
      = joinSp (t₀ :: ps.map Prod.snd) := by
  have htoks : ∀ u ∈ t₀ :: ps.map Prod.snd, u ≠ [] ∧ ∀ c ∈ u, isWS c = false := by
    intro u hu
    rcases List.mem_cons.mp hu with rfl | hu2
    · exact ⟨ht₀ne, ht₀w⟩
    · obtain ⟨p, hp, rfl⟩ := List.mem_map.mp hu2
      exact AccPairs_tok ps hps p hp
  have htrimJ : trimEndCh (joinSp (t₀ :: ps.map Prod.snd))
      = joinSp (t₀ :: ps.map Prod.snd) :=
    trimEndCh_joinSp _ (by simp) htoks
  show trimCh (collapseWsAux false (runTokJoin (([], t₀) :: ps) ++ [' ']))
    = joinSp (t₀ :: ps.map Prod.snd)
  rw [collapse_acc t₀ ps ht₀ne ht₀w hps hfst]
  obtain ⟨c, t₀', rfl⟩ := List.exists_cons_of_ne_nil ht₀ne
  have hfront : (joinSp ((c :: t₀') :: ps.map Prod.snd) ++ [' ']).dropWhile isWS
      = joinSp ((c :: t₀') :: ps.map Prod.snd) ++ [' '] := by
    have hc : isWS c = false := ht₀w c (List.mem_cons_self c t₀')
    cases hmap : ps.map Prod.snd with
    | nil =>
      show ((c :: t₀') ++ [' ']).dropWhile isWS = (c :: t₀') ++ [' ']
      rw [show (c :: t₀') ++ [' '] = c :: (t₀' ++ [' ']) from rfl,
        List.dropWhile_cons, if_neg (by rw [hc]; exact Bool.false_ne_true)]
    | cons u us =>
      show (((c :: t₀') ++ ' ' :: joinSp (u :: us)) ++ [' ']).dropWhile isWS
        = ((c :: t₀') ++ ' ' :: joinSp (u :: us)) ++ [' ']
      rw [show ((c :: t₀') ++ ' ' :: joinSp (u :: us)) ++ [' ']
          = c :: ((t₀' ++ ' ' :: joinSp (u :: us)) ++ [' ']) from rfl,
        List.dropWhile_cons, if_neg (by rw [hc]; exact Bool.false_ne_true)]
  have hrevtrim : (joinSp ((c :: t₀') :: ps.map Prod.snd)).reverse.dropWhile isWS
      = (joinSp ((c :: t₀') :: ps.map Prod.snd)).reverse := by
    have h2 : ((joinSp ((c :: t₀') :: ps.map Prod.snd)).reverse.dropWhile
        isWS).reverse = joinSp ((c :: t₀') :: ps.map Prod.snd) := htrimJ
    have h3 := congrArg List.reverse h2
    rwa [List.reverse_reverse] at h3
  show ((((joinSp ((c :: t₀') :: ps.map Prod.snd) ++ [' ']).dropWhile
    isWS).reverse).dropWhile isWS).reverse
    = joinSp ((c :: t₀') :: ps.map Prod.snd)
  rw [hfront, List.reverse_append]
  rw [show ([' '] : List Char).reverse = [' '] from rfl]
  rw [show (([' '] : List Char) ++
      (joinSp ((c :: t₀') :: ps.map Prod.snd)).reverse).dropWhile isWS
      = ((joinSp ((c :: t₀') :: ps.map Prod.snd)).reverse).dropWhile isWS from by
    rw [List.singleton_append, List.dropWhile_cons,
      if_pos (show isWS ' ' = true from rfl)]]
  rw [hrevtrim, List.reverse_reverse]

/-- `lazyGroup` with cut failure at every proper split of the group: the lazy
match extends exactly to the end of the group even when the group itself
contains whitespace. -/
theorem lazyGroup_exact2 {β : Type} (T : List Char → Option β) (g s : List Char)
    (r : β) (hg : g ≠ []) (hnl : ∀ c ∈ g, c ≠ '\n')
    (hfail : ∀ u v, g = u ++ v → u ≠ [] → v ≠ [] → T (v ++ s) = none)
    (hT : T s = some r) :
    lazyGroup T (g ++ s) = some (g, r) := by
  induction g with
  | nil => exact absurd rfl hg
  | cons c g' ih =>
    rw [List.cons_append, lazyGroup]
    have hcn : ¬(c == '\n') = true := by
      simpa using hnl c (List.mem_cons_self c g')
    rw [if_neg hcn]
    cases g' with
    | nil =>
      rw [List.nil_append, hT]
    | cons c2 g'' =>
      have hTfail : T (c2 :: (g'' ++ s)) = none := by
        rw [show c2 :: (g'' ++ s) = (c2 :: g'') ++ s from rfl]
        exact hfail [c] (c2 :: g'') rfl (by simp) (by simp)
      rw [show (c2 :: g'') ++ s = c2 :: (g'' ++ s) from rfl, hTfail]
      rw [show c2 :: (g'' ++ s) = (c2 :: g'') ++ s from rfl]
      rw [ih (by simp) (fun x hx => hnl x (List.mem_cons_of_mem c hx))
        (fun u v huv hu hv => hfail (c :: u) v (by rw [huv]; rfl) (by simp) hv)]

/-- `calleeTail` fails at a token boundary whose token does not end in
`called`. -/
theorem calleeTail_at_boundary (t R : List Char)
    (ht : t ≠ []) (htw : ∀ c ∈ t, isWS c = false)
    (hnc : ¬ List.IsSuffix "called".data t)
    (hR : R = [] ∨ ∃ R', R = ' ' :: R') :
    calleeTail (' ' :: (t ++ R)) = none := by
  have hR' : R = [] ∨ ∃ w R', R = w :: R' ∧ isWS w = true := by
    rcases hR with rfl | ⟨R', rfl⟩
    · exact Or.inl rfl
    · exact Or.inr ⟨' ', R', rfl, by decide⟩
  unfold calleeTail
  obtain ⟨d, t', rfl⟩ := List.exists_cons_of_ne_nil ht
  rw [show (' ' :: (d :: t' ++ R)) = [' '] ++ (d :: (t' ++ R)) from rfl]
  rw [dropWsPlus_run [' '] (d :: (t' ++ R)) (by simp) (by decide)
    ⟨d, t' ++ R, rfl, htw d (List.mem_cons_self d t')⟩]
  simp only [Option.some_bind]
  rcases calledWs_split (d :: t') R (by simp) htw hnc hR' with
    hnone | ⟨u₂, hne, hw2, hsome⟩
  · rw [show d :: (t' ++ R) = (d :: t') ++ R from rfl, hnone]
    rfl
  · rw [show d :: (t' ++ R) = (d :: t') ++ R from rfl, hsome]
    simp only [Option.some_bind]
    obtain ⟨e, u', rfl⟩ := List.exists_cons_of_ne_nil hne
    rw [show (e :: u') ++ R = e :: (u' ++ R) from rfl,
      dropWsPlus_nonws e _ (hw2 e (List.mem_cons_self e u'))]
    rfl

/-- `calleeTail` fails at every proper cut of a space-join of usable tokens
not ending in `called`, against a tail opening with a space: the lazy callee
group cannot stop early inside a spaced callee. -/
theorem joinSp_cut_fail (toks : List (List Char)) (Y : List Char)
    (htoks : ∀ t ∈ toks, t ≠ [] ∧ (∀ c ∈ t, isWS c = false) ∧
      ¬ List.IsSuffix "called".data t)
    (hY : Y = [] ∨ ∃ Y', Y = ' ' :: Y') :
    ∀ u v, joinSp toks = u ++ v → u ≠ [] → v ≠ [] →
      calleeTail (v ++ Y) = none := by
  induction toks with
  | nil =>
    intro u v hcut hu hv
    exact absurd (List.append_eq_nil.mp hcut.symm).2 hv
  | cons t rest ih =>
    intro u v hcut hu hv
    cases rest with
    | nil =>
      have hcut' : t = u ++ v := hcut
      obtain ⟨e, v', rfl⟩ := List.exists_cons_of_ne_nil hv
      have he : isWS e = false := by
        refine (htoks t (List.mem_cons_self t [])).2.1 e ?_
        rw [hcut']
        exact List.mem_append_right u (List.mem_cons_self e v')
      rw [show (e :: v') ++ Y = e :: (v' ++ Y) from rfl]
      exact calleeTail_nonws_head e _ he
    | cons t2 r2 =>
      have hJ : joinSp (t :: t2 :: r2) = t ++ ' ' :: joinSp (t2 :: r2) := rfl
      rw [hJ] at hcut
      have key : calleeTail ((' ' :: joinSp (t2 :: r2)) ++ Y) = none := by
        cases r2 with
        | nil =>
          obtain ⟨ht2ne, ht2w, ht2nc⟩ := htoks t2 (by simp)
          rw [show (' ' :: joinSp [t2]) ++ Y = ' ' :: (t2 ++ Y) from rfl]
          exact calleeTail_at_boundary t2 Y ht2ne ht2w ht2nc hY
        | cons t3 r3 =>
          obtain ⟨ht2ne, ht2w, ht2nc⟩ := htoks t2 (by simp)
          rw [show (' ' :: joinSp (t2 :: t3 :: r3)) ++ Y
              = ' ' :: (t2 ++ (' ' :: (joinSp (t3 :: r3) ++ Y))) from by
            show ' ' :: ((t2 ++ ' ' :: joinSp (t3 :: r3)) ++ Y) = _
            simp [List.append_assoc]]
          exact calleeTail_at_boundary t2 _ ht2ne ht2w ht2nc
            (Or.inr ⟨joinSp (t3 :: r3) ++ Y, rfl⟩)
      rcases List.append_eq_append_iff.mp hcut.symm with
        ⟨a', ha1, ha2⟩ | ⟨c', hc1, hc2⟩
      · cases a' with
        | nil =>
          rw [List.nil_append] at ha2
          rw [ha2]
          exact key
        | cons e c'' =>
          have he : isWS e = false := by
            refine (htoks t (List.mem_cons_self t _)).2.1 e ?_
            rw [ha1]
            exact List.mem_append_right u (List.mem_cons_self e c'')
          rw [ha2, show ((e :: c'') ++ (' ' :: joinSp (t2 :: r2))) ++ Y
              = e :: ((c'' ++ (' ' :: joinSp (t2 :: r2))) ++ Y) from rfl]
          exact calleeTail_nonws_head e _ he
      · cases c' with
        | nil =>
          rw [List.nil_append] at hc2
          rw [← hc2]
          exact key
        | cons d a'' =>
          rw [List.cons_append] at hc2
          injection hc2 with hd ha''
          cases a'' with
          | nil =>
            rw [List.nil_append] at ha''
            obtain ⟨ht2ne, ht2w, -⟩ := htoks t2 (by simp)
            obtain ⟨e, t2', rfl⟩ := List.exists_cons_of_ne_nil ht2ne
            have he : isWS e = false := ht2w e (List.mem_cons_self e t2')
            cases r2 with
            | nil =>
              rw [← ha'']
              exact calleeTail_nonws_head e (t2' ++ Y) he
            | cons t3 r3 =>
              rw [← ha'']
              rw [show joinSp ((e :: t2') :: t3 :: r3) ++ Y
                  = e :: ((t2' ++ ' ' :: joinSp (t3 :: r3)) ++ Y) from rfl]
              exact calleeTail_nonws_head e _ he
          | cons x a₃ =>
            exact ih (fun s hs => htoks s (List.mem_cons_of_mem t hs))
              (x :: a₃) v ha'' (by simp) hv

/-- A space-join of usable tokens starts with a non-whitespace character. -/
theorem joinSp_head_shape (ts : List (List Char)) (hts : ts ≠ [])
    (h : ∀ t ∈ ts, t ≠ [] ∧ ∀ c ∈ t, isWS c = false) :
    ∃ c w, joinSp ts = c :: w ∧ isWS c = false := by
  cases ts with
  | nil => exact absurd rfl hts
  | cons t rest =>
    obtain ⟨hne, hw⟩ := h t (by simp)
    obtain ⟨c, t', rfl⟩ := List.exists_cons_of_ne_nil hne
    have hc : isWS c = false := hw c (List.mem_cons_self c t')
    cases rest with
    | nil => exact ⟨c, t', rfl, hc⟩
    | cons t2 r2 =>
      exact ⟨c, t' ++ ' ' :: joinSp (t2 :: r2), rfl, hc⟩

/-- The logical line of a frame: sigil, equals, the spaced callee, one space,
and the canonical tail. -/
theorem joinSp_frameToks (f : RawFrame) (hcne : f.calleeToks ≠ []) :
    joinSp (frameToks f)
      = f.sigil :: (' ' :: ('=' :: (' ' ::
          (joinSp f.calleeToks ++
            (' ' :: frameTailM f.path.data f.digits))))) := by
  have h1 : frameToks f
      = [[f.sigil], ['=']] ++ (f.calleeToks ++
          ["called".data, "from".data, "file".data,
           '\'' :: (f.path.data ++ ['\'']), "line".data, f.digits]) := rfl
  have h2 : joinSp ["called".data, "from".data, "file".data,
      '\'' :: (f.path.data ++ ['\'']), "line".data, f.digits]
      = frameTailM f.path.data f.digits := by
    show "called".data ++ ' ' :: ("from".data ++ ' ' :: ("file".data ++ ' ' ::
        (('\'' :: (f.path.data ++ ['\''])) ++ ' ' ::
          ("line".data ++ ' ' :: f.digits))))
      = frameTailM f.path.data f.digits
    unfold frameTailM
    simp [List.append_assoc]
  rw [h1, joinSp_append [[f.sigil], ['=']] _ (by simp) (by simp),
    joinSp_append f.calleeToks _ hcne (by simp), h2]
  rfl

/-- The after-sigil matcher on the logical tail: the `\s*` takes the single
separating space, the lazy callee group extends to the full spaced callee,
and the path and digit groups are captured. -/
theorem matchFrameAfterSigil_eval (σc : Char) (toks : List (List Char))
    (pa ds : List Char)
    (hcne : toks ≠ [])
    (hctok : ∀ t ∈ toks, TokOk t ∧ ¬ List.IsSuffix "called".data t)
    (hpane : pa ≠ []) (hpaw : ∀ c ∈ pa, isWS c = false ∧ c ≠ '\'')
    (hds : ds ≠ []) (hdig : ∀ c ∈ ds, c.isDigit = true) :
    matchFrameAfterSigil σc
        ('=' :: (' ' :: (joinSp toks ++ (' ' :: frameTailM pa ds))))
      = some (σc, joinSp toks, pa, ds) := by
  have htoks : ∀ t ∈ toks, t ≠ [] ∧ ∀ c ∈ t, isWS c = false :=
    fun t ht => ⟨(hctok t ht).1.1, (hctok t ht).1.2.1⟩
  obtain ⟨c0, w0, hJ, hc0⟩ := joinSp_head_shape toks hcne htoks
  have hlazy : lazyGroup calleeTail (joinSp toks ++ (' ' :: frameTailM pa ds))
      = some (joinSp toks, (pa, ds)) :=
    lazyGroup_exact2 calleeTail (joinSp toks) (' ' :: frameTailM pa ds)
      (pa, ds) (joinSp_ne_nil toks hcne (fun t ht => (htoks t ht).1))
      (fun c hc => by
        rcases mem_joinSp toks hc with rfl | ⟨t, ht, hct⟩
        · decide
        · exact ne_nl_of_isWS_false ((htoks t ht).2 c hct))
      (fun u v hcut hu hv =>
        joinSp_cut_fail toks (' ' :: frameTailM pa ds)
          (fun t ht => ⟨(hctok t ht).1.1, (hctok t ht).1.2.1, (hctok t ht).2⟩)
          (Or.inr ⟨frameTailM pa ds, rfl⟩) u v hcut hu hv)
      (calleeTail_eval pa ds hpane hpaw hds hdig)
  have htw : (' ' :: (joinSp toks ++ (' ' :: frameTailM pa ds))).takeWhile isWS
      = [' '] := by
    rw [List.takeWhile_cons]
    rw [if_pos (show isWS ' ' = true from rfl)]
    rw [hJ, List.cons_append, List.takeWhile_cons,
      if_neg (by rw [hc0]; exact Bool.false_ne_true)]
  show (match tryWsStarThen (lazyGroup calleeTail)
      (' ' :: (joinSp toks ++ (' ' :: frameTailM pa ds))) with
    | some p => some (σc, p.1, p.2.1, p.2.2)
    | none => none) = some (σc, joinSp toks, pa, ds)
  unfold tryWsStarThen
  rw [htw]
  rw [show ([' '] : List Char).length = 1 from rfl]
  rw [tryDropsDown_one_hit (lazyGroup calleeTail) ' '
    (joinSp toks ++ (' ' :: frameTailM pa ds)) (joinSp toks, (pa, ds)) hlazy]

/-- The frame regex matches a frame's logical line and captures the sigil,
the spaced callee, the path and the digit run. -/
theorem matchFrameRegex_logical (f : RawFrame) (hG : GoodFrame f) :
    matchFrameRegex (joinSp (frameToks f))
      = some (f.sigil, joinSp f.calleeToks, f.path.data, f.digits) := by
  obtain ⟨hsig, hcne, hctok, hpane, hpaw, hds, hdig, -, -⟩ := hG
  rw [joinSp_frameToks f hcne]
  have hstep := matchFrameAfterSigil_eval f.sigil f.calleeToks f.path.data
    f.digits hcne hctok hpane hpaw hds hdig
  have hsigb : (f.sigil == '@' || f.sigil == '$' || f.sigil == '.') = true := by
    rcases hsig with h | h | h <;> rw [h] <;> rfl
  show (if f.sigil == '@' || f.sigil == '$' || f.sigil == '.' then
      matchFrameAfterSigil f.sigil
        ((' ' :: ('=' :: (' ' :: (joinSp f.calleeToks ++
          (' ' :: frameTailM f.path.data f.digits))))).dropWhile isWS)
    else none) = some (f.sigil, joinSp f.calleeToks, f.path.data, f.digits)
  rw [if_pos hsigb]
  rw [show ((' ' :: ('=' :: (' ' :: (joinSp f.calleeToks ++
      (' ' :: frameTailM f.path.data f.digits))))).dropWhile isWS)
      = '=' :: (' ' :: (joinSp f.calleeToks ++
        (' ' :: frameTailM f.path.data f.digits))) from by
    rw [List.dropWhile_cons, if_pos (show isWS ' ' = true from rfl),
      List.dropWhile_cons, if_neg (show ¬ isWS '=' = true from by decide)]]
  exact hstep

/-- `stripComment` leaves a sigil-headed line unchanged. -/
theorem stripComment_sigil (c : Char) (X : List Char)
    (hσ : c = '@' ∨ c = '$' ∨ c = '.') :
    stripComment (c :: X) = c :: X := by
  rcases hσ with rfl | rfl | rfl <;> rfl

/-- The start pattern accepts a sigil, a space, and an equals sign. -/
theorem isStartPattern1_sigil (c : Char) (X : List Char)
    (hσ : c = '@' ∨ c = '$' ∨ c = '.') :
    isStartPattern1 (c :: (' ' :: ('=' :: X))) = true := by
  rcases hσ with rfl | rfl | rfl <;> rfl

/-- `stripComment` leaves a continuation line (a space and then a usable
token head) unchanged. -/
theorem stripComment_cont (c0 : Char) (Y' : List Char)
    (h0 : isWS c0 = false) (hns : (c0 :: Y').take 2 ≠ ['/', '/']) :
    stripComment (' ' :: (c0 :: Y')) = ' ' :: (c0 :: Y') := by
  have htw : (' ' :: (c0 :: Y')).takeWhile isWS = [' '] := by
    rw [List.takeWhile_cons, if_pos (show isWS ' ' = true from rfl),
      List.takeWhile_cons, if_neg (by rw [h0]; exact Bool.false_ne_true)]
  simp only [stripComment]
  rw [htw]
  rw [show ([' '] : List Char).length = 1 from rfl]
  rw [show (' ' :: (c0 :: Y')).drop 1 = c0 :: Y' from rfl]
  split
  · rename_i r heq
    exfalso
    apply hns
    rw [heq]
    rfl
  · rfl

/-- A space-join of usable tokens does not open a comment marker. -/
theorem joinSp_take2_ne (g : List (List Char)) (hg : g ≠ [])
    (h : ∀ t ∈ g, t ≠ [] ∧ (∀ c ∈ t, isWS c = false) ∧ t.take 2 ≠ ['/', '/']) :
    (joinSp g).take 2 ≠ ['/', '/'] := by
  cases g with
  | nil => exact absurd rfl hg
  | cons t g' =>
    obtain ⟨hne, hw, h2⟩ := h t (by simp)
    obtain ⟨c, t', rfl⟩ := List.exists_cons_of_ne_nil hne
    cases t' with
    | nil =>
      cases g' with
      | nil =>
        intro hx
        rw [show (joinSp [[c]]).take 2 = [c] from rfl] at hx
        injection hx with h1 h2'
        exact absurd h2' (by simp)
      | cons t2 g'' =>
        intro hx
        rw [show (joinSp ([c] :: t2 :: g'')).take 2 = [c, ' '] from rfl] at hx
        injection hx with h1 hx2
        injection hx2 with h2' _
        exact absurd h2' (by decide)
    | cons c2 t'' =>
      have hshape : (joinSp ((c :: c2 :: t'') :: g')).take 2 = [c, c2] := by
        cases g' with
        | nil => rfl
        | cons t2 g'' => rfl
      rw [hshape]
      intro hx
      apply h2
      rw [show (c :: c2 :: t'').take 2 = [c, c2] from rfl]
      exact hx

/-- Every token of a well-formed frame is nonempty, whitespace-free, and does
not open a comment marker. -/
theorem frameToks_facts (f : RawFrame)
    (hsig : f.sigil = '@' ∨ f.sigil = '$' ∨ f.sigil = '.')
    (hctok : ∀ t ∈ f.calleeToks, TokOk t ∧ ¬ List.IsSuffix "called".data t)
    (hpane : f.path.data ≠ [])
    (hpaw : ∀ c ∈ f.path.data, isWS c = false ∧ c ≠ '\'')
    (hds : f.digits ≠ []) (hdig : ∀ c ∈ f.digits, c.isDigit = true) :
    ∀ t ∈ frameToks f, t ≠ [] ∧ (∀ c ∈ t, isWS c = false) ∧
      t.take 2 ≠ ['/', '/'] := by
  intro t ht
  rw [show frameToks f = [f.sigil] :: ['='] :: (f.calleeToks ++
      ["called".data, "from".data, "file".data,
       '\'' :: (f.path.data ++ ['\'']), "line".data, f.digits]) from rfl] at ht
  rcases List.mem_cons.mp ht with rfl | ht
  · refine ⟨by simp, ?_, by simp⟩
    intro c hc
    rcases List.mem_singleton.mp hc with rfl
    rcases hsig with h | h | h <;> rw [h] <;> rfl
  rcases List.mem_cons.mp ht with rfl | ht
  · refine ⟨by simp, ?_, by simp⟩
    intro c hc
    rcases List.mem_singleton.mp hc with rfl
    rfl
  rcases List.mem_append.mp ht with ht | ht
  · obtain ⟨⟨h1, h2, h3⟩, -⟩ := hctok t ht
    exact ⟨h1, h2, h3⟩
  rcases List.mem_cons.mp ht with rfl | ht
  · exact ⟨by decide, by decide, by decide⟩
  rcases List.mem_cons.mp ht with rfl | ht
  · exact ⟨by decide, by decide, by decide⟩
  rcases List.mem_cons.mp ht with rfl | ht
  · exact ⟨by decide, by decide, by decide⟩
  rcases List.mem_cons.mp ht with rfl | ht
  · refine ⟨by simp, ?_, ?_⟩
    · intro c hc
      rcases List.mem_cons.mp hc with rfl | hc
      · rfl
      rcases List.mem_append.mp hc with hc | hc
      · exact (hpaw c hc).1
      · rcases List.mem_singleton.mp hc with rfl
        rfl
    · intro hx
      rw [show ('\'' :: (f.path.data ++ ['\''])).take 2
          = '\'' :: (f.path.data ++ ['\'']).take 1 from rfl] at hx
      injection hx with ha hb
      exact absurd ha (by decide)
  rcases List.mem_cons.mp ht with rfl | ht
  · exact ⟨by decide, by decide, by decide⟩
  rcases List.mem_cons.mp ht with rfl | ht
  · refine ⟨hds, fun c hc => isWS_eq_false_of_isDigit (hdig c hc), ?_⟩
    intro hx
    have hmem : '/' ∈ f.digits := by
      have hsub := List.take_subset 2 f.digits
      rw [hx] at hsub
      exact hsub (List.mem_cons_self _ _)
    exact absurd (hdig '/' hmem) (by decide)
  · simp at ht

/-- Trailing-whitespace trimming fixes a space-prefixed join of usable
tokens. -/
theorem trimEndCh_cont (g : List (List Char)) (hg : g ≠ [])
    (h : ∀ t ∈ g, t ≠ [] ∧ ∀ c ∈ t, isWS c = false) :
    trimEndCh (' ' :: joinSp g) = ' ' :: joinSp g := by
  obtain ⟨Y, d, hYd, hd⟩ := joinSp_snoc_form g hg h
  rw [hYd, show ' ' :: (Y ++ [d]) = (' ' :: Y) ++ [d] from rfl]
  exact trimEndCh_snoc (' ' :: Y) d hd

/-- Tokens of the wrapped groups come from the original token list. -/
theorem groupsOf_subset (ns : List Nat) (ts : List (List Char)) :
    ∀ g ∈ groupsOf ns ts, ∀ t ∈ g, t ∈ ts := by
  induction ns generalizing ts with
  | nil =>
    intro g hg t htg
    rw [show groupsOf [] ts = [ts] from rfl] at hg
    rcases List.mem_singleton.mp hg with rfl
    exact htg
  | cons n ns' ih =>
    intro g hg t htg
    rw [show groupsOf (n :: ns') ts = ts.take n :: groupsOf ns' (ts.drop n)
      from rfl] at hg
    rcases List.mem_cons.mp hg with rfl | hg
    · exact List.take_subset n ts htg
    · exact List.drop_subset n ts (ih (ts.drop n) g hg t htg)

/-- An accumulator ending in the appended space is nonempty. -/
theorem append_space_not_empty (A : List Char) :
    (A ++ [' ']).isEmpty = false := by
  cases h : A ++ [' '] with
  | nil => exact absurd h (by simp)
  | cons a l => rfl

/-- One reassembly step on a nonempty accumulator: the line is appended
unconditionally; the accumulator closes exactly when the end pattern
appears. -/
theorem buildLogicalGo_step_append (raw : List Char) (L : List (List Char))
    (acc : List Char) (out : List (List Char)) (hacc : acc.isEmpty = false) :
    buildLogicalGo (raw :: L) acc out
      = (if hasEndOfFrame (acc ++ trimEndCh (stripComment raw) ++ [' '])
         then buildLogicalGo L [] (out ++
           [normalizeLogical (acc ++ trimEndCh (stripComment raw) ++ [' '])])
         else buildLogicalGo L
           (acc ++ trimEndCh (stripComment raw) ++ [' ']) out) := by
  cases acc with
  | nil => exact absurd hacc (by decide)
  | cons a as => rfl

/-- One reassembly step on an empty accumulator at a frame-start line. -/
theorem buildLogicalGo_step_start (raw : List Char) (L : List (List Char))
    (out : List (List Char))
    (hstart : isStartOfFrame [] (stripComment raw) = true) :
    buildLogicalGo (raw :: L) [] out
      = (if hasEndOfFrame (trimEndCh (stripComment raw) ++ [' '])
         then buildLogicalGo L [] (out ++
           [normalizeLogical (trimEndCh (stripComment raw) ++ [' '])])
         else buildLogicalGo L (trimEndCh (stripComment raw) ++ [' ']) out) := by
  have h0 : buildLogicalGo (raw :: L) [] out
      = (if !isStartOfFrame [] (stripComment raw) then
           buildLogicalGo L [] out
         else
           if hasEndOfFrame (trimEndCh (stripComment raw) ++ [' '])
           then buildLogicalGo L [] (out ++
             [normalizeLogical (trimEndCh (stripComment raw) ++ [' '])])
           else buildLogicalGo L (trimEndCh (stripComment raw) ++ [' ']) out) :=
    rfl
  rw [h0, hstart]
  rfl

/-- Processing the continuation lines of a wrapped frame: the accumulator
grows by one run/token group per line, no premature end fires, and the final
line completes the frame into one normalized logical line. -/
theorem buildLogicalGo_cont (f : RawFrame)
    (hsig : f.sigil = '@' ∨ f.sigil = '$' ∨ f.sigil = '.')
    (hctok : ∀ t ∈ f.calleeToks, TokOk t ∧ ¬ List.IsSuffix "called".data t)
    (hpane : f.path.data ≠ [])
    (hpaw : ∀ c ∈ f.path.data, isWS c = false ∧ c ≠ '\'')
    (hds : f.digits ≠ []) (hdig : ∀ c ∈ f.digits, c.isDigit = true)
    (t₀ : List Char)
    (ns : List Nat) (rem : List (List Char))
    (ps : List (List Char × List Char))
    (hAP : AccPairs (([], t₀) :: ps))
    (hfst : ps = [] ∨ ∃ r t rest', ps = (r, t) :: rest' ∧ r ≠ [])
    (hsplit : frameToks f = ((([], t₀) :: ps).map Prod.snd) ++ rem)
    (hwrap : wrapOk ns rem.length = true)
    (hrem : rem ≠ [])
    (rest : List (List Char)) (out : List (List Char)) :
    buildLogicalGo ((groupsOf ns rem).map (fun h => ' ' :: joinSp h) ++ rest)
        (runTokJoin (([], t₀) :: ps) ++ [' ']) out
      = buildLogicalGo rest [] (out ++ [joinSp (frameToks f)]) := by
  have hToks := frameToks_facts f hsig hctok hpane hpaw hds hdig
  induction ns generalizing rem ps with
  | nil =>
    have ht₀ne : t₀ ≠ [] := hAP.2.1
    have ht₀w : ∀ c ∈ t₀, isWS c = false := hAP.2.2.1
    have hremtoks : ∀ t ∈ rem, t ≠ [] ∧ (∀ c ∈ t, isWS c = false) ∧
        t.take 2 ≠ ['/', '/'] := by
      intro t ht
      refine hToks t ?_
      rw [hsplit]
      exact List.mem_append_right _ ht
    have hremtoks' : ∀ t ∈ rem, t ≠ [] ∧ ∀ c ∈ t, isWS c = false :=
      fun t ht => ⟨(hremtoks t ht).1, (hremtoks t ht).2.1⟩
    obtain ⟨c0, Y', hJshape, hc0⟩ := joinSp_head_shape rem hrem hremtoks'
    have hstrip : stripComment (' ' :: joinSp rem) = ' ' :: joinSp rem := by
      rw [hJshape]
      refine stripComment_cont c0 Y' hc0 ?_
      rw [← hJshape]
      exact joinSp_take2_ne rem hrem hremtoks
    have htrim : trimEndCh (' ' :: joinSp rem) = ' ' :: joinSp rem :=
      trimEndCh_cont rem hrem hremtoks'
    have hacc2 : ((runTokJoin (([], t₀) :: ps) ++ [' ']) ++
          (' ' :: joinSp rem)) ++ [' ']
        = runTokJoin ((([], t₀) :: ps) ++ pairsOf [' ', ' '] rem) ++ [' '] := by
      rw [runTokJoin_append, runTokJoin_pairsOf [' ', ' '] rem hrem]
      simp [List.append_assoc]
    have hQAP : AccPairs (pairsOf [' ', ' '] rem) :=
      AccPairs_pairsOf [' ', ' '] rem (by decide) hremtoks'
    have hjunc : pairsOf [' ', ' '] rem = [] ∨
        ∃ r t rest', pairsOf [' ', ' '] rem = (r, t) :: rest' ∧ r ≠ [] := by
      obtain ⟨t₁, rem', rfl⟩ := List.exists_cons_of_ne_nil hrem
      exact Or.inr ⟨[' ', ' '], t₁, rem'.map (fun u => ([' '], u)), rfl, by simp⟩
    have hAP2 : AccPairs ((([], t₀) :: ps) ++ pairsOf [' ', ' '] rem) :=
      AccPairs_glue _ _ hAP hQAP hjunc
    have hmap2 : ((([], t₀) :: ps) ++ pairsOf [' ', ' '] rem).map Prod.snd
        = frameToks f := by
      rw [List.map_append, pairsOf_map_snd]
      exact hsplit.symm
    have hend : hasEndOfFrame
        (runTokJoin (([], t₀) :: (ps ++ pairsOf [' ', ' '] rem)) ++ [' '])
        = true :=
      hasEnd_true_full f hpane hpaw hds hdig
        (([], t₀) :: (ps ++ pairsOf [' ', ' '] rem)) hAP2 hmap2
    have hfst2 : ps ++ pairsOf [' ', ' '] rem = [] ∨
        ∃ r t rest', ps ++ pairsOf [' ', ' '] rem = (r, t) :: rest' ∧ r ≠ [] := by
      rcases hfst with rfl | ⟨r, t, rest', rfl, hrne⟩
      · rw [List.nil_append]
        exact hjunc
      · exact Or.inr ⟨r, t, rest' ++ pairsOf [' ', ' '] rem, rfl, hrne⟩
    have hAPps2 : AccPairs (ps ++ pairsOf [' ', ' '] rem) := hAP2.2.2.2.2
    have hnorm : normalizeLogical
        (runTokJoin (([], t₀) :: (ps ++ pairsOf [' ', ' '] rem)) ++ [' '])
        = joinSp (t₀ :: (ps ++ pairsOf [' ', ' '] rem).map Prod.snd) :=
      normalize_acc t₀ _ ht₀ne ht₀w hAPps2 hfst2
    have hfinal : t₀ :: (ps ++ pairsOf [' ', ' '] rem).map Prod.snd
        = frameToks f := hmap2
    rw [show groupsOf [] rem = [rem] from rfl, List.map_cons, List.map_nil,
      List.singleton_append]
    rw [buildLogicalGo_step_append _ _ _ out (append_space_not_empty _)]
    rw [hstrip, htrim, hacc2]
    rw [show runTokJoin ((([], t₀) :: ps) ++ pairsOf [' ', ' '] rem)
        = runTokJoin (([], t₀) :: (ps ++ pairsOf [' ', ' '] rem)) from rfl]
    rw [if_pos hend, hnorm, hfinal]
  | cons n ns' ih =>
    have hw' : 0 < n ∧ n < rem.length ∧ wrapOk ns' (rem.length - n) = true := by
      have h := hwrap
      rw [show wrapOk (n :: ns') rem.length
          = (decide (0 < n) && decide (n < rem.length) &&
             wrapOk ns' (rem.length - n)) from rfl] at h
      rw [Bool.and_eq_true, Bool.and_eq_true] at h
      exact ⟨of_decide_eq_true h.1.1, of_decide_eq_true h.1.2, h.2⟩
    obtain ⟨hn0, hnlt, hwrap'⟩ := hw'
    have htake_ne : rem.take n ≠ [] := by
      refine List.ne_nil_of_length_pos ?_
      rw [List.length_take]
      exact lt_min hn0 (lt_trans hn0 hnlt)
    have hdrop_ne : rem.drop n ≠ [] := by
      refine List.ne_nil_of_length_pos ?_
      rw [List.length_drop]
      omega
    have hremtoks : ∀ t ∈ rem, t ≠ [] ∧ (∀ c ∈ t, isWS c = false) ∧
        t.take 2 ≠ ['/', '/'] := by
      intro t ht
      refine hToks t ?_
      rw [hsplit]
      exact List.mem_append_right _ ht
    have htaketoks : ∀ t ∈ rem.take n, t ≠ [] ∧ (∀ c ∈ t, isWS c = false) ∧
        t.take 2 ≠ ['/', '/'] :=
      fun t ht => hremtoks t (List.take_subset n rem ht)
    have htaketoks' : ∀ t ∈ rem.take n, t ≠ [] ∧ ∀ c ∈ t, isWS c = false :=
      fun t ht => ⟨(htaketoks t ht).1, (htaketoks t ht).2.1⟩
    obtain ⟨c0, Y', hJshape, hc0⟩ := joinSp_head_shape (rem.take n) htake_ne
      htaketoks'
    have hstrip : stripComment (' ' :: joinSp (rem.take n))
        = ' ' :: joinSp (rem.take n) := by
      rw [hJshape]
      refine stripComment_cont c0 Y' hc0 ?_
      rw [← hJshape]
      exact joinSp_take2_ne (rem.take n) htake_ne htaketoks
    have htrim : trimEndCh (' ' :: joinSp (rem.take n))
        = ' ' :: joinSp (rem.take n) :=
      trimEndCh_cont (rem.take n) htake_ne htaketoks'
    have hacc2 : ((runTokJoin (([], t₀) :: ps) ++ [' ']) ++
          (' ' :: joinSp (rem.take n))) ++ [' ']
        = runTokJoin ((([], t₀) :: ps) ++ pairsOf [' ', ' '] (rem.take n))
            ++ [' '] := by
      rw [runTokJoin_append, runTokJoin_pairsOf [' ', ' '] (rem.take n) htake_ne]
      simp [List.append_assoc]
    have hQAP : AccPairs (pairsOf [' ', ' '] (rem.take n)) :=
      AccPairs_pairsOf [' ', ' '] (rem.take n) (by decide) htaketoks'
    have hjunc : pairsOf [' ', ' '] (rem.take n) = [] ∨
        ∃ r t rest', pairsOf [' ', ' '] (rem.take n) = (r, t) :: rest' ∧
          r ≠ [] := by
      obtain ⟨t₁, rem', heq⟩ := List.exists_cons_of_ne_nil htake_ne
      rw [heq]
      exact Or.inr ⟨[' ', ' '], t₁, rem'.map (fun u => ([' '], u)), rfl, by simp⟩
    have hAP2 : AccPairs ((([], t₀) :: ps) ++ pairsOf [' ', ' '] (rem.take n)) :=
      AccPairs_glue _ _ hAP hQAP hjunc
    have hsplit2 : frameToks f
        = ((([], t₀) :: (ps ++ pairsOf [' ', ' '] (rem.take n))).map Prod.snd)
          ++ rem.drop n := by
      rw [hsplit]
      simp only [List.map_cons, List.map_append, pairsOf_map_snd,
        List.cons_append, List.append_assoc, List.take_append_drop]
    have hfst2 : ps ++ pairsOf [' ', ' '] (rem.take n) = [] ∨
        ∃ r t rest', ps ++ pairsOf [' ', ' '] (rem.take n) = (r, t) :: rest' ∧
          r ≠ [] := by
      rcases hfst with rfl | ⟨r, t, rest', rfl, hrne⟩
      · rw [List.nil_append]
        exact hjunc
      · exact Or.inr ⟨r, t, rest' ++ pairsOf [' ', ' '] (rem.take n), rfl, hrne⟩
    have hend : hasEndOfFrame
        (runTokJoin (([], t₀) :: (ps ++ pairsOf [' ', ' '] (rem.take n)))
          ++ [' ']) = false :=
      hasEnd_false_prefix f hctok hpane hpaw
        (([], t₀) :: (ps ++ pairsOf [' ', ' '] (rem.take n))) (rem.drop n)
        hAP2 hsplit2 hdrop_ne
    have hwrap2 : wrapOk ns' (rem.drop n).length = true := by
      rw [List.length_drop]
      exact hwrap'
    rw [show groupsOf (n :: ns') rem
        = rem.take n :: groupsOf ns' (rem.drop n) from rfl,
      List.map_cons, List.cons_append]
    rw [buildLogicalGo_step_append _ _ _ out (append_space_not_empty _)]
    rw [hstrip, htrim, hacc2]
    rw [show runTokJoin ((([], t₀) :: ps) ++ pairsOf [' ', ' '] (rem.take n))
        = runTokJoin (([], t₀) :: (ps ++ pairsOf [' ', ' '] (rem.take n)))
        from rfl]
    rw [if_neg (by rw [hend]; exact Bool.false_ne_true)]
    exact ih (rem.drop n) (ps ++ pairsOf [' ', ' '] (rem.take n)) hAP2 hfst2
      hsplit2 hwrap2 hdrop_ne

/-- A group opening with the sigil and equals tokens joins to a line with the
start-pattern shape. -/
theorem joinSp_sig_eq_cons (σc : Char) (g : List (List Char)) :
    ∃ X, joinSp ([σc] :: ['='] :: g) = σc :: (' ' :: ('=' :: X)) := by
  cases g with
  | nil => exact ⟨[], rfl⟩
  | cons t g' => exact ⟨' ' :: joinSp (t :: g'), rfl⟩

/-- Normalisation of a single-spaced join with a trailing space recovers the
join itself. -/
theorem normalize_pairsOf_nil (g : List (List Char)) (hg : g ≠ [])
    (htoks : ∀ t ∈ g, t ≠ [] ∧ ∀ c ∈ t, isWS c = false) :
    normalizeLogical (joinSp g ++ [' ']) = joinSp g := by
  obtain ⟨t₀, tl, rfl⟩ := List.exists_cons_of_ne_nil hg
  obtain ⟨ht₀ne, ht₀w⟩ := htoks t₀ (by simp)
  have h1 : runTokJoin (([], t₀) :: tl.map (fun u => ([' '], u)))
      = joinSp (t₀ :: tl) := by
    rw [show (((([] : List Char), t₀)) :: tl.map (fun u => (([' '] : List Char), u)))
        = pairsOf [] (t₀ :: tl) from rfl]
    rw [runTokJoin_pairsOf [] (t₀ :: tl) (by simp), List.nil_append]
  have h2 := normalize_acc t₀ (tl.map (fun u => ([' '], u))) ht₀ne ht₀w
    (AccPairs_map_sp tl (fun x hx => htoks x (List.mem_cons_of_mem t₀ hx)))
    (by
      cases tl with
      | nil => exact Or.inl rfl
      | cons t2 tl' =>
        exact Or.inr ⟨[' '], t2, tl'.map (fun u => ([' '], u)), rfl, by simp⟩)
  rw [h1] at h2
  rw [h2, List.map_map]
  simp

/-- The end-of-frame test fires on a frame's full logical line with the
trailing space. -/
theorem hasEnd_joinSp_full (f : RawFrame)
    (hpane : f.path.data ≠ [])
    (hpaw : ∀ c ∈ f.path.data, isWS c = false ∧ c ≠ '\'')
    (hds : f.digits ≠ []) (hdig : ∀ c ∈ f.digits, c.isDigit = true)
    (htoks : ∀ t ∈ frameToks f, t ≠ [] ∧ ∀ c ∈ t, isWS c = false) :
    hasEndOfFrame (joinSp (frameToks f) ++ [' ']) = true := by
  have hfne : frameToks f ≠ [] := by simp [frameToks]
  have hrtj : runTokJoin (pairsOf [] (frameToks f)) = joinSp (frameToks f) := by
    rw [runTokJoin_pairsOf [] (frameToks f) hfne, List.nil_append]
  rw [← hrtj]
  exact hasEnd_true_full f hpane hpaw hds hdig _
    (AccPairs_pairsOf [] (frameToks f) (by simp) htoks)
    (pairsOf_map_snd [] (frameToks f))

/-- `groupsOf` always produces at least one group. -/
theorem groupsOf_ne_nil (ns : List Nat) (ts : List (List Char)) :
    groupsOf ns ts ≠ [] := by
  cases ns with
  | nil => simp [groupsOf]
  | cons n ns' => simp [groupsOf]

/-- A frame always has at least one physical line. -/
theorem physLines_ne_nil (f : RawFrame) : physLines f ≠ [] := by
  unfold physLines
  cases hgo : groupsOf f.wrap (frameToks f) with
  | nil => exact absurd hgo (groupsOf_ne_nil _ _)
  | cons g gs => simp

/-- Physical lines are joins (with a possible leading space) of wrapped
groups. -/
theorem mem_physLines (f : RawFrame) (l : List Char) (hl : l ∈ physLines f) :
    ∃ g ∈ groupsOf f.wrap (frameToks f), l = joinSp g ∨ l = ' ' :: joinSp g := by
  unfold physLines at hl
  cases hgo : groupsOf f.wrap (frameToks f) with
  | nil => exact absurd hgo (groupsOf_ne_nil _ _)
  | cons g gs =>
    rw [hgo] at hl
    rcases List.mem_cons.mp hl with rfl | hl2
    · exact ⟨g, List.mem_cons_self g gs, Or.inl rfl⟩
    · obtain ⟨h, hh, rfl⟩ := List.mem_map.mp hl2
      exact ⟨h, List.mem_cons_of_mem g hh, Or.inr rfl⟩

/-- Physical frame lines contain no newline. -/
theorem physLines_no_nl (f : RawFrame) (hG : GoodFrame f) :
    ∀ l ∈ physLines f, '\n' ∉ l := by
  have hToks := frameToks_facts f hG.1 hG.2.2.1 hG.2.2.2.1 hG.2.2.2.2.1
    hG.2.2.2.2.2.1 hG.2.2.2.2.2.2.1
  intro l hl hnl
  obtain ⟨g, hg, hcase⟩ := mem_physLines f l hl
  have hmem : ∀ c ∈ joinSp g, c ≠ '\n' := by
    intro c hc
    rcases mem_joinSp g hc with rfl | ⟨t, htg, hct⟩
    · decide
    · have hfacts := hToks t (groupsOf_subset f.wrap (frameToks f) g hg t htg)
      exact ne_nl_of_isWS_false (hfacts.2.1 c hct)
  rcases hcase with rfl | rfl
  · exact hmem '\n' hnl rfl
  · rcases List.mem_cons.mp hnl with h | h
    · exact absurd h (by decide)
    · exact hmem '\n' h rfl

/-- Processing all physical lines of one well-formed frame: exactly one
logical line, the frame's single-spaced token join, is emitted. -/
theorem buildLogicalGo_frame (f : RawFrame) (hG : GoodFrame f)
    (rest : List (List Char)) (out : List (List Char)) :
    buildLogicalGo (physLines f ++ rest) [] out
      = buildLogicalGo rest [] (out ++ [joinSp (frameToks f)]) := by
  obtain ⟨hsig, hcne, hctok, hpane, hpaw, hds, hdig, hwfst, hwrap⟩ := hG
  have hToks := frameToks_facts f hsig hctok hpane hpaw hds hdig
  have htoks' : ∀ t ∈ frameToks f, t ≠ [] ∧ ∀ c ∈ t, isWS c = false :=
    fun t ht => ⟨(hToks t ht).1, (hToks t ht).2.1⟩
  have hfne : frameToks f ≠ [] := by simp [frameToks]
  have hshape := joinSp_frameToks f hcne
  cases hw : f.wrap with
  | nil =>
    have hphys : physLines f = [joinSp (frameToks f)] := by
      unfold physLines
      rw [hw]
      rfl
    have hstrip : stripComment (joinSp (frameToks f)) = joinSp (frameToks f) := by
      rw [hshape]
      exact stripComment_sigil f.sigil _ hsig
    have hstart : isStartOfFrame []
        (stripComment (joinSp (frameToks f))) = true := by
      rw [hstrip]
      unfold isStartOfFrame
      rw [hshape, isStartPattern1_sigil f.sigil _ hsig]
      rfl
    have htrim : trimEndCh (joinSp (frameToks f)) = joinSp (frameToks f) :=
      trimEndCh_joinSp _ hfne htoks'
    rw [hphys, List.singleton_append]
    rw [buildLogicalGo_step_start _ _ out hstart]
    rw [hstrip, htrim]
    rw [if_pos (hasEnd_joinSp_full f hpane hpaw hds hdig htoks')]
    rw [normalize_pairsOf_nil (frameToks f) hfne htoks']
  | cons n ns' =>
    have hn2 : 2 ≤ n := by
      have h1 := hwfst
      rw [hw] at h1
      exact h1 n (by simp)
    obtain ⟨k, rfl⟩ : ∃ k, n = k + 2 := ⟨n - 2, by omega⟩
    have hwv : wrapOk ((k + 2) :: ns') (frameToks f).length = true := by
      rw [← hw]
      exact hwrap
    have hw1 : 0 < k + 2 ∧ k + 2 < (frameToks f).length ∧
        wrapOk ns' ((frameToks f).length - (k + 2)) = true := by
      have h := hwv
      rw [show wrapOk ((k + 2) :: ns') (frameToks f).length
          = (decide (0 < k + 2) && decide (k + 2 < (frameToks f).length) &&
             wrapOk ns' ((frameToks f).length - (k + 2))) from rfl] at h
      rw [Bool.and_eq_true, Bool.and_eq_true] at h
      exact ⟨of_decide_eq_true h.1.1, of_decide_eq_true h.1.2, h.2⟩
    obtain ⟨hn0, hnlt, hwrap'⟩ := hw1
    have hphys : physLines f
        = joinSp ((frameToks f).take (k + 2))
          :: (groupsOf ns' ((frameToks f).drop (k + 2))).map
              (fun h => ' ' :: joinSp h) := by
      unfold physLines
      rw [hw]
      rfl
    have htake_ne : (frameToks f).take (k + 2) ≠ [] := by
      refine List.ne_nil_of_length_pos ?_
      rw [List.length_take]
      exact lt_min (by omega) (lt_trans (by omega) hnlt)
    have hdrop_ne : (frameToks f).drop (k + 2) ≠ [] := by
      refine List.ne_nil_of_length_pos ?_
      rw [List.length_drop]
      omega
    have htaketoks : ∀ t ∈ (frameToks f).take (k + 2),
        t ≠ [] ∧ ∀ c ∈ t, isWS c = false :=
      fun t ht => htoks' t (List.take_subset _ _ ht)
    have htrim : trimEndCh (joinSp ((frameToks f).take (k + 2)))
        = joinSp ((frameToks f).take (k + 2)) :=
      trimEndCh_joinSp _ htake_ne htaketoks
    have htake : (frameToks f).take (k + 2)
        = [f.sigil] :: ['='] :: ((f.calleeToks ++
            ["called".data, "from".data, "file".data,
             '\'' :: (f.path.data ++ ['\'']), "line".data, f.digits]).take k) :=
      rfl
    obtain ⟨X, hX⟩ := joinSp_sig_eq_cons f.sigil
      ((f.calleeToks ++
        ["called".data, "from".data, "file".data,
         '\'' :: (f.path.data ++ ['\'']), "line".data, f.digits]).take k)
    have hJ1 : joinSp ((frameToks f).take (k + 2))
        = f.sigil :: (' ' :: ('=' :: X)) := by
      rw [htake]
      exact hX
    have hstrip : stripComment (joinSp ((frameToks f).take (k + 2)))
        = joinSp ((frameToks f).take (k + 2)) := by
      rw [hJ1]
      exact stripComment_sigil f.sigil _ hsig
    have hstart : isStartOfFrame []
        (stripComment (joinSp ((frameToks f).take (k + 2)))) = true := by
      rw [hstrip]
      unfold isStartOfFrame
      rw [hJ1, isStartPattern1_sigil f.sigil _ hsig]
      rfl
    have hrtj : runTokJoin (pairsOf [] ((frameToks f).take (k + 2)))
        = joinSp ((frameToks f).take (k + 2)) := by
      rw [runTokJoin_pairsOf [] _ htake_ne, List.nil_append]
    have hAPp : AccPairs (pairsOf [] ((frameToks f).take (k + 2))) :=
      AccPairs_pairsOf [] _ (by simp) htaketoks
    generalize hPS : ((['='] :: ((f.calleeToks ++
        ["called".data, "from".data, "file".data,
         '\'' :: (f.path.data ++ ['\'']), "line".data, f.digits]).take k)).map
          (fun u => (([' '] : List Char), u))) = PS
    have hps : pairsOf [] ((frameToks f).take (k + 2))
        = ([], [f.sigil]) :: PS := by
      rw [← hPS, htake]
      rfl
    have hAP' : AccPairs (([], [f.sigil]) :: PS) := hps ▸ hAPp
    have hfst : PS = [] ∨ ∃ r t rest', PS = (r, t) :: rest' ∧ r ≠ [] := by
      rw [← hPS]
      exact Or.inr ⟨[' '], ['='], _, rfl, by simp⟩
    have hmsnd : (([], [f.sigil]) :: PS).map Prod.snd
        = (frameToks f).take (k + 2) := by
      rw [← hps]
      exact pairsOf_map_snd [] _
    have hsplitF : frameToks f
        = (([], [f.sigil]) :: PS).map Prod.snd ++ (frameToks f).drop (k + 2) := by
      rw [hmsnd, List.take_append_drop]
    have hwrap2 : wrapOk ns' ((frameToks f).drop (k + 2)).length = true := by
      rw [List.length_drop]
      exact hwrap'
    have hend : hasEndOfFrame
        (runTokJoin (([], [f.sigil]) :: PS) ++ [' ']) = false :=
      hasEnd_false_prefix f hctok hpane hpaw (([], [f.sigil]) :: PS)
        ((frameToks f).drop (k + 2)) hAP' hsplitF hdrop_ne
    rw [hphys, List.cons_append]
    rw [buildLogicalGo_step_start _ _ out hstart]
    rw [hstrip, htrim]
    rw [show joinSp ((frameToks f).take (k + 2)) ++ [' ']
        = runTokJoin (([], [f.sigil]) :: PS) ++ [' '] from by
      rw [← hps, hrtj]]
    rw [if_neg (by rw [hend]; exact Bool.false_ne_true)]
    exact buildLogicalGo_cont f hsig hctok hpane hpaw hds hdig [f.sigil] ns'
      ((frameToks f).drop (k + 2)) PS hAP' hfst hsplitF hwrap2 hdrop_ne rest out

/-- The reassembly loop over the physical lines of well-formed frames
followed by noise: one logical line per frame, in order. -/
theorem buildLogicalGo_frames (fs : List RawFrame) (noise : List (List Char))
    (hfs : ∀ f ∈ fs, GoodFrame f)
    (hn : ∀ l ∈ noise, isStartPattern1 (stripComment l) = false)
    (out : List (List Char)) :
    buildLogicalGo ((fs.map physLines).flatten ++ noise) [] out
      = out ++ fs.map (fun f => joinSp (frameToks f)) := by
  induction fs generalizing out with
  | nil =>
    rw [show ((([] : List RawFrame).map physLines).flatten ++ noise) = noise
      from by simp]
    rw [List.map_nil, List.append_nil]
    exact buildLogicalGo_noise noise out hn
  | cons f fs' ih =>
    rw [List.map_cons, List.flatten_cons, List.append_assoc]
    rw [buildLogicalGo_frame f (hfs f (List.mem_cons_self f fs')) _ out]
    rw [ih (fun g hg => hfs g (List.mem_cons_of_mem f hg))
      (out ++ [joinSp (frameToks f)])]
    rw [List.map_cons]
    simp [List.append_assoc]

/-- A frame's logical line parses to its expected frame. -/
theorem parseFrameStep_logical (acc : List PerlStackFrame) (f : RawFrame)
    (hG : GoodFrame f) :
    parseFrameStep acc (joinSp (frameToks f)) = acc ++ [expectedFrame f] := by
  unfold parseFrameStep
  rw [matchFrameRegex_logical f hG]
  rfl

/-- Folding the per-line parser over frame logical lines appends the expected
frames. -/
theorem parse_fold (fs : List RawFrame) (hfs : ∀ f ∈ fs, GoodFrame f)
    (acc : List PerlStackFrame) :
    (fs.map (fun f => joinSp (frameToks f))).foldl parseFrameStep acc
      = acc ++ fs.map expectedFrame := by
  induction fs generalizing acc with
  | nil => simp
  | cons f fs' ih =>
    rw [List.map_cons, List.foldl_cons,
      parseFrameStep_logical acc f (hfs f (List.mem_cons_self f fs')),
      ih (fun g hg => hfs g (List.mem_cons_of_mem f hg)), List.map_cons]
    simp [List.append_assoc]

/-- C5: Stack-trace parser count law. For every input consisting of `k`
well-formed logical frames — each possibly wrapped across several physical
lines (continuation lines starting with whitespace), with a callee made of
arbitrarily many space-separated tokens such as `main::pests('bactrian', 4)` —
followed by arbitrary trailing noise lines (newline-free lines that do not
match the frame-start pattern after comment stripping), parsePerlStackTrace
returns exactly the `k` expected frames, in order, and maps the context
sigil `@` to `array`, `$` to `scalar` and `.` to `void`. -/
theorem parsePerlStackTrace_count_law (fs : List RawFrame)
    (noise : List (List Char))
    (hfs : ∀ f ∈ fs, GoodFrame f)
    (hnoise : ∀ l ∈ noise, NoiseLine l) :
    parsePerlStackTrace ⟨joinNl ((fs.map physLines).flatten ++ noise)⟩
        = fs.map expectedFrame
      ∧ (parsePerlStackTrace
          ⟨joinNl ((fs.map physLines).flatten ++ noise)⟩).length = fs.length
      ∧ (parsePerlStackTrace ⟨joinNl ((fs.map physLines).flatten ++ noise)⟩).map
          PerlStackFrame.context
        = fs.map (fun f => if f.sigil = '@' then "array"
            else if f.sigil = '$' then "scalar" else "void") := by
  have hmain : parsePerlStackTrace ⟨joinNl ((fs.map physLines).flatten ++ noise)⟩
      = fs.map expectedFrame := by
    by_cases hp : (fs.map physLines).flatten ++ noise = []
    · obtain ⟨hj, hn⟩ := List.append_eq_nil.mp hp
      have hfs0 : fs = [] := by
        cases hfsv : fs with
        | nil => rfl
        | cons f fs' =>
          exfalso
          rw [hfsv, List.map_cons, List.flatten_cons] at hj
          exact absurd (List.append_eq_nil.mp hj).1 (physLines_ne_nil f)
      subst hfs0
      subst hn
      rfl
    · have hnl_all : ∀ l ∈ (fs.map physLines).flatten ++ noise, '\n' ∉ l := by
        intro l hl
        rcases List.mem_append.mp hl with hl | hl
        · obtain ⟨pl, hpl, hlpl⟩ := List.mem_flatten.mp hl
          obtain ⟨f, hf, rfl⟩ := List.mem_map.mp hpl
          exact physLines_no_nl f (hfs f hf) l hlpl
        · exact (hnoise l hl).1
      have hsplit := splitOnNl_joinNl ((fs.map physLines).flatten ++ noise)
        hp hnl_all
      show (buildLogicalLines (splitOnNl
          (joinNl ((fs.map physLines).flatten ++ noise)))).foldl
          parseFrameStep [] = fs.map expectedFrame
      rw [hsplit]
      show (buildLogicalGo ((fs.map physLines).flatten ++ noise) [] []).foldl
          parseFrameStep [] = fs.map expectedFrame
      rw [buildLogicalGo_frames fs noise hfs
        (fun l hl => (hnoise l hl).2) []]
      rw [List.nil_append]
      rw [parse_fold fs hfs [], List.nil_append]
  refine ⟨hmain, ?_, ?_⟩
  · rw [hmain, List.length_map]
  · rw [hmain, List.map_map]
    refine List.map_congr_left ?_
    intro f hf
    show (expectedFrame f).context = _
    rcases (hfs f hf).1 with h | h | h <;>
      rw [show (expectedFrame f).context = contextOfSigil f.sigil from rfl, h] <;>
      rfl

/-- Witness frame: void context, the spaced callee
`main::pests('bactrian', 4)`, wrapped after its first five tokens onto a
whitespace-led continuation line. -/
def wFrame : RawFrame :=
  { sigil := '.',
    calleeToks := ["main::pests('bactrian',".data, "4)".data],
    path := "/home/user/camel.pl",
    digits := ['4'],
    wrap := [5] }

/-- Witness noise line: a debugger prompt. -/
def wNoise : List Char := "  DB<2> x".data

/-- Witness for C5: the wrapped frame with a spaced callee plus one noise
line parses to exactly its expected frame. -/
theorem parsePerlStackTrace_count_law_witness :
    (∀ f ∈ [wFrame], GoodFrame f) ∧ (∀ l ∈ [wNoise], NoiseLine l) ∧
    parsePerlStackTrace ⟨joinNl (([wFrame].map physLines).flatten ++ [wNoise])⟩
      = [expectedFrame wFrame] := by
  have h1 : ∀ f ∈ [wFrame], GoodFrame f := by decide
  have h2 : ∀ l ∈ [wNoise], NoiseLine l := by decide
  exact ⟨h1, h2, (parsePerlStackTrace_count_law [wFrame] [wNoise] h1 h2).1⟩

end PerlLS
